import Mathlib

/-!
# SZ3 general compressor: block traversal, iterator and byte layout

A shallow embedding of `include/utils/Iterator.hpp` and
`include/compressor/SZ_General.hpp`.

Modelling conventions.

* `std::array<_, N>` is a `List` of length `N`; the template parameter `N` is
  recovered as the length of the array at hand.  Reading `a[i]` is
  `a.getD i 0`, writing `a[i] = v` is `a.set i v`.
* `size_t` and `ptrdiff_t` values are `Nat` and `Int`.  All the statements
  below concern arrays whose element count fits the address space, where no
  arithmetic of the source wraps; the one place where unsigned wrap-around is
  observable in that regime, the decrement of an index in `operator--`, is
  modelled with an explicit `% 2 ^ 64`.
* The data pointer of a range is not stored in the range; the buffer it points
  to is passed to the operations that dereference it, as a `List T`.  An access
  outside the buffer is undefined in the source and is `none` here.
* A loop `for (it = r.begin(); it != r.end(); it++)` need not terminate for an
  arbitrary range, so loops take a fuel argument and return `none` when it is
  used up.
* The predictor, quantizer and encoder classes are template parameters of the
  driver whose code is not part of these two files: they enter as records of
  functions over an explicit component state.
-/

namespace SZ

/-! ## `multi_dimensional_range` and its iterator -/

/-- The fields of `multi_dimensional_range<T, N>` (without the data pointer). -/
structure multi_dimensional_range where
  global_dimensions : List Nat
  global_dim_strides : List Nat
  dimensions : List Nat
  dim_strides : List Nat
  start_position : List Bool
  access_stride : Nat
  start_offset : Int
  end_offset : Int
deriving DecidableEq

/-- The fields of `multi_dimensional_iterator` (without the range pointer). -/
structure multi_dimensional_iterator where
  current_index : List Nat
  current_offset : Int
deriving DecidableEq

/-- Conversion of a signed value to `size_t`. -/
def to_size_t (x : Int) : Nat := (x % 2 ^ 64).toNat

/-- Conversion of an integer value to `int`. -/
def to_int (z : Int) : Int :=
  if z % 2 ^ 32 < 2 ^ 31 then z % 2 ^ 32 else z % 2 ^ 32 - 2 ^ 32

/-- Read `data[offset]`. -/
def read_at {T : Type} (data : List T) (offset : Int) : Option T :=
  if 0 ≤ offset then data[offset.toNat]? else none

/-- Write `data[offset] = v`. -/
def write_at {T : Type} (data : List T) (offset : Int) (v : T) : Option (List T) :=
  if 0 ≤ offset ∧ offset.toNat < data.length then some (data.set offset.toNat v) else none

/-- The loop `for (i = i0; i < i0 + k; i++) out[i] = f(i)`, with `k` iterations left. -/
def fill_loop {α : Type} (f : Nat → α) : Nat → Nat → List α → List α
  | 0, _, out => out
  | k + 1, i, out => fill_loop f k (i + 1) (out.set i (f i))

namespace multi_dimensional_range

/-- Method `set_dimensions(begin, end)`: copies the sequence over the first entries. -/
def set_dimensions_loop : List Nat → Nat → List Nat → List Nat
  | [], _, dims => dims
  | v :: rest, i, dims => set_dimensions_loop rest (i + 1) (dims.set i v)

/-- Method `set_dimensions`. -/
def set_dimensions (r : multi_dimensional_range) (seq : List Nat) : multi_dimensional_range :=
  { r with dimensions := set_dimensions_loop seq 0 r.dimensions }

/-- Method `set_dimensions_auto`: `for (i = 0; i < dimensions.size(); i++)
dimensions[i] = (global_dimensions[i] - 1) / access_stride + 1`, computed in `size_t`: for
an extent of 0 the subtraction wraps to `2 ^ 64 - 1`, and with an access stride of 0 the
first division is a division by zero, which ends the program (`none`). -/
def set_dimensions_auto (r : multi_dimensional_range) : Option multi_dimensional_range :=
  if r.dimensions.length ≠ 0 ∧ r.access_stride = 0 then none
  else
    some { r with dimensions :=
      (fill_loop
        (fun i =>
          if r.global_dimensions.getD i 0 = 0 then
            ((2 ^ 64 - 1) / r.access_stride + 1) % 2 ^ 64
          else (r.global_dimensions.getD i 0 - 1) / r.access_stride + 1)
        r.dimensions.length 0 r.dimensions) }

/-- Loop `for (i = N - 1; i >= 0; i--) { out[i] = cur * mult; cur *= gd[i]; }`,
with `i + 1` axes left. -/
def stride_loop (gd : List Nat) (mult : Nat) : Nat → Nat → List Nat → List Nat
  | 0, _, out => out
  | i + 1, cur, out => stride_loop gd mult i (cur * gd.getD i 0) (out.set i (cur * mult))

/-- Method `set_dim_strides`. -/
def set_dim_strides (r : multi_dimensional_range) : multi_dimensional_range :=
  { r with dim_strides :=
      (stride_loop r.global_dimensions r.access_stride r.dim_strides.length 1 r.dim_strides) }

/-- Method `set_offsets`. -/
def set_offsets (r : multi_dimensional_range) (offset_ : Int) : multi_dimensional_range :=
  { r with
    start_offset := offset_,
    end_offset := offset_ + ((r.dimensions.getD 0 0 * r.dim_strides.getD 0 0 : Nat) : Int) }

/-- Method `set_access_stride`. -/
def set_access_stride (r : multi_dimensional_range) (stride_ : Nat) : multi_dimensional_range :=
  { r with access_stride := stride_ }

/-- Method `set_starting_position`: `for (i = 0; i < N; i++)
start_position[i] = (dims[i] == 0)`. -/
def set_starting_position (r : multi_dimensional_range) (dims : List Nat) :
    multi_dimensional_range :=
  { r with start_position :=
      (fill_loop (fun i => dims.getD i 0 == 0) r.start_position.length 0 r.start_position) }

/-- The constructor `multi_dimensional_range(data_, global_dims_begin, global_dims_end,
stride_, offset_)` for template parameter `N`; `none` is the `exit(0)` taken when the
number of dimensions is not `N`, or the division by zero in `set_dimensions_auto`. -/
def create (N : Nat) (global_dims : List Nat) (stride_ : Nat) (offset_ : Int) :
    Option multi_dimensional_range :=
  if global_dims.length ≠ N then none
  else
    let r0 : multi_dimensional_range :=
      { global_dimensions := List.replicate N 0
        global_dim_strides := List.replicate N 0
        dimensions := List.replicate N 0
        dim_strides := List.replicate N 0
        start_position := List.replicate N false
        access_stride := 0
        start_offset := 0
        end_offset := 0 }
    let r1 := r0.set_access_stride stride_
    let r2 := { r1 with global_dimensions := set_dimensions_loop global_dims 0 r1.global_dimensions }
    let r3 := { r2 with global_dim_strides :=
                  (stride_loop r2.global_dimensions 1 N stride_ r2.global_dim_strides) }
    match r3.set_dimensions_auto with
    | none => none
    | some r4 => some ((r4.set_dim_strides).set_offsets offset_)

/-- Method `begin()`: index zero-initialised, offset `start_offset`. -/
def begin (r : multi_dimensional_range) : multi_dimensional_iterator :=
  { current_index := List.replicate r.dimensions.length 0, current_offset := r.start_offset }

/-- Method `end()`: index zero-initialised, offset `end_offset`. -/
def end_ (r : multi_dimensional_range) : multi_dimensional_iterator :=
  { current_index := List.replicate r.dimensions.length 0, current_offset := r.end_offset }

/-- Method `get_dimensions(i)`. -/
def get_dimensions (r : multi_dimensional_range) (i : Nat) : Nat := r.dimensions.getD i 0

/-- Method `whether_global_start_position(i)`. -/
def whether_global_start_position (r : multi_dimensional_range) (i : Nat) : Bool :=
  r.start_position.getD i false

end multi_dimensional_range

namespace multi_dimensional_iterator

/-- The `while (i && current_index[i] == dimensions[i])` loop of `operator++`, entered
with loop variable `i`. -/
def incr_loop (r : multi_dimensional_range) : Nat → List Nat → Int → List Nat × Int
  | 0, idx, offset => (idx, offset)
  | i + 1, idx, offset =>
    if idx.getD (i + 1) 0 = r.dimensions.getD (i + 1) 0 then
      let offset1 :=
        offset - ((r.dimensions.getD (i + 1) 0 * r.dim_strides.getD (i + 1) 0 : Nat) : Int)
      let idx1 := idx.set (i + 1) 0
      let offset2 := offset1 + (r.dim_strides.getD i 0 : Int)
      let idx2 := idx1.set i (idx1.getD i 0 + 1)
      incr_loop r i idx2 offset2
    else (idx, offset)

/-- Prefix `operator++`. -/
def operator_incr (r : multi_dimensional_range) (it : multi_dimensional_iterator) :
    multi_dimensional_iterator :=
  let i := it.current_index.length - 1
  let idx := it.current_index.set i (it.current_index.getD i 0 + 1)
  let res := incr_loop r i idx (r.dim_strides.getD i 0 : Int)
  { current_index := res.1, current_offset := it.current_offset + res.2 }

/-- The `while (i && (current_index[i] < 0))` loop of `operator--`.  The index is a
`size_t`, so the comparison is between naturals; an assignment evaluates its right
operand first, so `current_index[i--] = dimensions[i]` stores `dimensions[i]` at `i`. -/
def decr_loop (r : multi_dimensional_range) : Nat → List Nat → Int → List Nat × Int
  | 0, idx, offset => (idx, offset)
  | i + 1, idx, offset =>
    if idx.getD (i + 1) 0 < 0 then
      let offset1 :=
        offset + ((r.dimensions.getD (i + 1) 0 * r.dim_strides.getD (i + 1) 0 : Nat) : Int)
      let idx1 := idx.set (i + 1) (r.dimensions.getD (i + 1) 0)
      let offset2 := offset1 - (r.dim_strides.getD i 0 : Int)
      let idx2 := idx1.set i ((idx1.getD i 0 + (2 ^ 64 - 1)) % 2 ^ 64)
      decr_loop r i idx2 offset2
    else (idx, offset)

/-- Prefix `operator--`. -/
def operator_decr (r : multi_dimensional_range) (it : multi_dimensional_iterator) :
    multi_dimensional_iterator :=
  let i := it.current_index.length - 1
  let idx := it.current_index.set i ((it.current_index.getD i 0 + (2 ^ 64 - 1)) % 2 ^ 64)
  let res := decr_loop r i idx (r.dim_strides.getD i 0 : Int)
  { current_index := res.1, current_offset := it.current_offset + res.2 }

/-- Method `get_current_index_vector`. -/
def get_current_index_vector (it : multi_dimensional_iterator) : List Nat := it.current_index

/-- Method `get_current_index(i)`. -/
def get_current_index (it : multi_dimensional_iterator) (i : Nat) : Nat :=
  it.current_index.getD i 0

/-- Method `get_offset`. -/
def get_offset (it : multi_dimensional_iterator) : Int := it.current_offset

/-- Dereference `*it` for reading. -/
def deref {T : Type} (it : multi_dimensional_iterator) (data : List T) : Option T :=
  read_at data it.current_offset

/-- Assignment `*it = v`. -/
def assign {T : Type} (it : multi_dimensional_iterator) (data : List T) (v : T) :
    Option (List T) :=
  write_at data it.current_offset v

/-- The loop of `prev` over the axes `i, i + 1, ..`, with `k` axes left: `none` is the
early `return 0`, `some o` the offset reached after the last axis.  The comparison
`current_index[i] < args[i]` is made in `size_t`. -/
def prev_loop (r : multi_dimensional_range) (it : multi_dimensional_iterator)
    (args : List Int) : Nat → Nat → Int → Option Int
  | 0, _, offset => some offset
  | k + 1, i, offset =>
    if it.current_index.getD i 0 < to_size_t (args.getD i 0)
        ∧ r.whether_global_start_position i = true then none
    else
      prev_loop r it args k (i + 1)
        (offset - (if args.getD i 0 ≠ 0 then args.getD i 0 * (r.global_dim_strides.getD i 0 : Int)
                   else 0))

/-- Method `prev(pos...)`. -/
def prev {T : Type} [Zero T] (r : multi_dimensional_range) (it : multi_dimensional_iterator)
    (data : List T) (args : List Int) : Option T :=
  match prev_loop r it args it.current_index.length 0 it.current_offset with
  | none => some 0
  | some offset => read_at data offset

end multi_dimensional_iterator

/-! ## Component interfaces

The driver is a template over a predictor, a quantizer and an encoder.  Each is a
record of the member functions the driver calls, acting on an explicit state of the
component.  Bytes are naturals below 256; `save` returns the bytes it writes at the
cursor, `load` returns the new state and the number of bytes it consumed. -/

/-- The predictor interface used by the driver. -/
structure Predictor (T : Type) (σ : Type) where
  precompress_data : σ → multi_dimensional_range → multi_dimensional_iterator → List T → σ
  postcompress_data : σ → multi_dimensional_range → multi_dimensional_iterator → List T → σ
  precompress_block : σ → multi_dimensional_range → List T → σ
  predecompress_data : σ → multi_dimensional_range → multi_dimensional_iterator → List T → σ
  postdecompress_data : σ → multi_dimensional_range → multi_dimensional_iterator → List T → σ
  predecompress_block : σ → multi_dimensional_range → List T → σ
  predict : σ → multi_dimensional_range → multi_dimensional_iterator → List T → T
  save : σ → List Nat
  load : σ → List Nat → Nat → Option (σ × Nat)

/-- The quantizer interface used by the driver.  `quantize_and_overwrite s x pred`
returns the index, the value it stores back through the element reference, and the
new state. -/
structure Quantizer (T : Type) (σ : Type) where
  precompress_data : σ → σ
  postcompress_data : σ → σ
  precompress_block : σ → σ
  predecompress_data : σ → σ
  postdecompress_data : σ → σ
  predecompress_block : σ → σ
  quantize_and_overwrite : σ → T → T → Int × T × σ
  recover : σ → T → Int → T × σ
  get_radius : σ → Int
  save : σ → List Nat
  load : σ → List Nat → Nat → Option (σ × Nat)

/-- The encoder interface used by the driver.  `decode s bytes n` receives the bytes
from the read cursor on. -/
structure Encoder (σ : Type) where
  preprocess_encode : σ → List Int → Int → σ
  save : σ → List Nat
  encode : σ → List Int → List Nat × σ
  postprocess_encode : σ → σ
  load : σ → List Nat → Nat → Option (σ × Nat)
  decode : σ → List Nat → Nat → List Int × σ
  postprocess_decode : σ → σ

/-! ## The driver `SZ_General_Compressor` -/

/-- The data members of `SZ_General_Compressor`. -/
structure SZ_General_Compressor (σP σQ σE : Type) where
  predictor : σP
  quantizer : σQ
  encoder : σE
  block_size : Nat
  num_elements : Nat
  global_dimensions : List Nat

/-- The loop `num_elements = 1; for (d : global_dimensions) num_elements *= d`. -/
def count_elements (global_dimensions : List Nat) : Nat :=
  global_dimensions.foldl (fun acc d => acc * d) 1

/-- The constructor; `block_size_` is the template parameter, `dims` the argument pack,
whose length is the template parameter `N`. -/
def SZ_General_Compressor.create {σP σQ σE : Type} (block_size_ : Nat) (predictor : σP)
    (quantizer : σQ) (encoder : σE) (dims : List Nat) : SZ_General_Compressor σP σQ σE :=
  { predictor := predictor
    quantizer := quantizer
    encoder := encoder
    block_size :=
      if block_size_ = 0 then
        (match dims.length with
          | 1 => 128
          | 2 => 16
          | _ => 6)
      else block_size_
    num_elements := count_elements dims
    global_dimensions := dims }

/-- A loop `for (it = start; it != r.end(); it++) body`, threading a state. -/
def range_loop {S : Type} (r : multi_dimensional_range)
    (body : multi_dimensional_iterator → S → Option S) :
    Nat → multi_dimensional_iterator → S → Option S
  | 0, _, _ => none
  | fuel + 1, it, s =>
    if it.current_offset = r.end_.current_offset then some s
    else
      match body it s with
      | none => none
      | some s1 => range_loop r body fuel (it.operator_incr r) s1

/-- The extents of the block at `block`: `intra_block_dims[i] = (cur_index == dims - 1) ?
global_dimensions[i] - cur_index * block_size : block_size`. -/
def intra_block_dims (global_dimensions : List Nat) (block_size : Nat)
    (inter_block_range : multi_dimensional_range) (block : multi_dimensional_iterator) :
    List Nat :=
  fill_loop
    (fun i =>
      let cur_index := block.get_current_index i
      let dims := inter_block_range.get_dimensions i
      if cur_index = dims - 1 then global_dimensions.getD i 0 - cur_index * block_size
      else block_size)
    global_dimensions.length 0 (List.replicate global_dimensions.length 0)

/-- The three calls that re-seat the intra-block range on the block at `block`. -/
def reseat (global_dimensions : List Nat) (block_size : Nat)
    (inter_block_range intra_block_range : multi_dimensional_range)
    (block : multi_dimensional_iterator) : multi_dimensional_range :=
  ((intra_block_range.set_dimensions
      (intra_block_dims global_dimensions block_size inter_block_range block)).set_offsets
      block.get_offset).set_starting_position block.get_current_index_vector

/-- The nested loops shared by `compress` and `decompress`: for each block the intra-block
range is re-seated, `block_pre` is run, then `elem` is run on each element of the block.
The intra-block range is carried along, as it is one object mutated block after block. -/
def block_loop {S : Type} (global_dimensions : List Nat) (block_size : Nat)
    (block_pre : multi_dimensional_range → S → S)
    (elem : multi_dimensional_range → multi_dimensional_iterator → S → Option S)
    (fuel : Nat) (inter_block_range intra_block_range : multi_dimensional_range) (s : S) :
    Option (multi_dimensional_range × S) :=
  range_loop inter_block_range
    (fun block st =>
      let intra := reseat global_dimensions block_size inter_block_range st.1 block
      match range_loop intra (elem intra) fuel intra.begin (block_pre intra st.2) with
      | none => none
      | some s1 => some (intra, s1))
    fuel inter_block_range.begin (intra_block_range, s)

/-- The local state of the traversal in `compress`.  `count` is the `int count` of the
source: `compress_element` keeps it below `2 ^ 31` and fails where its increment would
overflow. -/
structure compress_state (T σP σQ : Type) where
  data : List T
  quant_inds : List Int
  count : Nat
  predictor : σP
  quantizer : σQ
  predictions : List T

/-- The statement `quant_inds[count ++] = quantizer.quantize_and_overwrite(*element,
predictor->predict(element))`.  `quant_inds` is a `std::vector<int>`, so the index is
stored converted to `int`; `count` is an `int`, so its increment at `2 ^ 31 - 1` is a
signed overflow, undefined in the source and `none` here.  The field `predictions` is a
ghost record of the values returned by `predict`. -/
def compress_element {T σP σQ : Type} (P : Predictor T σP) (Q : Quantizer T σQ)
    (r : multi_dimensional_range) (element : multi_dimensional_iterator)
    (s : compress_state T σP σQ) : Option (compress_state T σP σQ) :=
  match element.deref s.data with
  | none => none
  | some x =>
    let pred := P.predict s.predictor r element s.data
    let res := Q.quantize_and_overwrite s.quantizer x pred
    match element.assign s.data res.2.1 with
    | none => none
    | some data1 =>
      if s.count < s.quant_inds.length ∧ s.count + 1 < 2 ^ 31 then
        some { data := data1
               quant_inds := s.quant_inds.set s.count (to_int res.1)
               count := s.count + 1
               predictor := s.predictor
               quantizer := res.2.2
               predictions := s.predictions ++ [pred] }
      else none

/-- The calls `predictor->precompress_block(intra_block_range); quantizer.precompress_block()`. -/
def compress_block_pre {T σP σQ : Type} (P : Predictor T σP) (Q : Quantizer T σQ)
    (r : multi_dimensional_range) (s : compress_state T σP σQ) : compress_state T σP σQ :=
  { s with
    predictor := P.precompress_block s.predictor r s.data,
    quantizer := Q.precompress_block s.quantizer }

/-- Lines 47 to 76 of `compress`: copy of the input, construction of the two ranges, the
`precompress_data` calls, the nested loops and the `postcompress_data` calls. -/
def compress_traversal {T σP σQ σE : Type} (P : Predictor T σP) (Q : Quantizer T σQ)
    (fuel : Nat) (c : SZ_General_Compressor σP σQ σE) (data_ : List T) :
    Option (compress_state T σP σQ) :=
  if data_.length < c.num_elements then none
  else
    let data := data_.take c.num_elements
    let N := c.global_dimensions.length
    match multi_dimensional_range.create N c.global_dimensions c.block_size 0,
          multi_dimensional_range.create N c.global_dimensions 1 0 with
    | some inter_block_range, some intra_block_range =>
      let s0 : compress_state T σP σQ :=
        { data := data
          quant_inds := List.replicate c.num_elements 0
          count := 0
          predictor := P.precompress_data c.predictor inter_block_range inter_block_range.begin data
          quantizer := Q.precompress_data c.quantizer
          predictions := [] }
      match block_loop c.global_dimensions c.block_size (compress_block_pre P Q)
              (compress_element P Q) fuel inter_block_range intra_block_range s0 with
      | none => none
      | some res =>
        let s1 := res.2
        some { s1 with
               predictor :=
                 P.postcompress_data s1.predictor inter_block_range inter_block_range.begin s1.data,
               quantizer := Q.postcompress_data s1.quantizer }
    | _, _ => none

/-- The `w` bytes of the object representation of an unsigned value, least significant
byte first. -/
def to_bytes : Nat → Nat → List Nat
  | 0, _ => []
  | w + 1, v => v % 256 :: to_bytes w (v / 256)

/-- The unsigned value whose object representation is the given bytes. -/
def from_bytes : List Nat → Nat
  | [] => 0
  | b :: bs => b + 256 * from_bytes bs

/-- The overload `write(array, num_elements, pos)` for an array of `size_t`. -/
def write_array (array : List Nat) : List Nat := array.flatMap (to_bytes 8)

/-- The overload `write(var, pos)` for a `uint`. -/
def write_var (var : Nat) : List Nat := to_bytes 4 var

/-- What `compress` hands back: the bytes written from the start of the buffer to the
final cursor, `compressed_size`, and the compressor object after the call. -/
structure compress_result (σP σQ σE : Type) where
  bytes : List Nat
  compressed_size : Nat
  compressor : SZ_General_Compressor σP σQ σE

/-- Lines 78 to 97 of `compress`: serialisation of the header, of the component states
and of the index stream. -/
def serialize {T σP σQ σE : Type} (P : Predictor T σP) (Q : Quantizer T σQ) (E : Encoder σE)
    (c : SZ_General_Compressor σP σQ σE) (s : compress_state T σP σQ) :
    compress_result σP σQ σE :=
  let b1 := write_array c.global_dimensions
  let b2 := write_var c.block_size
  let b3 := P.save s.predictor
  let b4 := Q.save s.quantizer
  let e1 := E.preprocess_encode c.encoder s.quant_inds (4 * Q.get_radius s.quantizer)
  let b5 := E.save e1
  let enc := E.encode e1 s.quant_inds
  let e3 := E.postprocess_encode enc.2
  let bytes := b1 ++ b2 ++ b3 ++ b4 ++ b5 ++ enc.1
  { bytes := bytes
    compressed_size := bytes.length
    compressor := { c with predictor := s.predictor, quantizer := s.quantizer, encoder := e3 } }

/-- Method `compress(data_, eb, compressed_size)`. -/
def compress {T σP σQ σE : Type} (P : Predictor T σP) (Q : Quantizer T σQ) (E : Encoder σE)
    (fuel : Nat) (c : SZ_General_Compressor σP σQ σE) (data_ : List T) (_eb : ℚ) :
    Option (compress_result σP σQ σE) :=
  match compress_traversal P Q fuel c data_ with
  | none => none
  | some s => some (serialize P Q E c s)

/-- The read cursor of `decompress`: position in the buffer and `remaining_length`. -/
structure read_cursor where
  pos : Nat
  remaining_length : Nat
deriving DecidableEq

/-- The `read` helpers for a field of `k` bytes: the assertion `k < remaining_length`,
the copy of the bytes and the advance of the cursor. -/
def read (compressed_data : List Nat) (k : Nat) (cur : read_cursor) :
    Option (List Nat × read_cursor) :=
  if k < cur.remaining_length then
    some ((compressed_data.drop cur.pos).take k,
          { pos := cur.pos + k, remaining_length := cur.remaining_length - k })
  else none

/-- Values of an array of `n` objects of type `size_t` stored in the given bytes. -/
def array_of_bytes (bytes : List Nat) : Nat → List Nat
  | 0 => []
  | n + 1 => from_bytes (bytes.take 8) :: array_of_bytes (bytes.drop 8) n

/-- Lines 113 to 124 of `decompress`: the two header reads.  Returns the shape, the block
size and the cursor after the header. -/
def read_header (N : Nat) (compressed_data : List Nat) (length : Nat) :
    Option (List Nat × Nat × read_cursor) :=
  match read compressed_data (N * 8) { pos := 0, remaining_length := length } with
  | none => none
  | some (b1, cur1) =>
    match read compressed_data 4 cur1 with
    | none => none
    | some (b2, cur2) => some (array_of_bytes b1 N, from_bytes b2, cur2)

/-- A call `component.load(compressed_data_pos, remaining_length)`. -/
def load_component {σ : Type} (load : σ → List Nat → Nat → Option (σ × Nat)) (s : σ)
    (compressed_data : List Nat) (cur : read_cursor) : Option (σ × read_cursor) :=
  match load s (compressed_data.drop cur.pos) cur.remaining_length with
  | none => none
  | some (s1, k) => some (s1, { pos := cur.pos + k, remaining_length := cur.remaining_length - k })

/-- What lines 113 to 135 of `decompress` produce. -/
structure deserialized (σP σQ σE : Type) where
  global_dimensions : List Nat
  num_elements : Nat
  block_size : Nat
  predictor : σP
  quantizer : σQ
  encoder : σE
  quant_inds : List Int
  stream_pos : Nat

/-- Lines 113 to 135 of `decompress`: header, component states, decoded indices.
`stream_pos` is the cursor position handed to `encoder.decode`. -/
def deserialize {T σP σQ σE : Type} (P : Predictor T σP) (Q : Quantizer T σQ) (E : Encoder σE)
    (c : SZ_General_Compressor σP σQ σE) (compressed_data : List Nat) (length : Nat) :
    Option (deserialized σP σQ σE) :=
  match read_header c.global_dimensions.length compressed_data length with
  | none => none
  | some (gd, block_size, cur2) =>
    match load_component P.load c.predictor compressed_data cur2 with
    | none => none
    | some (p1, cur3) =>
      match load_component Q.load c.quantizer compressed_data cur3 with
      | none => none
      | some (q1, cur4) =>
        match load_component E.load c.encoder compressed_data cur4 with
        | none => none
        | some (e1, cur5) =>
          let dec := E.decode e1 (compressed_data.drop cur5.pos) (count_elements gd)
          some { global_dimensions := gd
                 num_elements := count_elements gd
                 block_size := block_size
                 predictor := p1
                 quantizer := q1
                 encoder := E.postprocess_decode dec.2
                 quant_inds := dec.1
                 stream_pos := cur5.pos }

/-- The local state of the traversal in `decompress`. -/
structure decompress_state (T σP σQ : Type) where
  dec_data : List T
  quant_inds_pos : Nat
  predictor : σP
  quantizer : σQ
  predictions : List T

/-- The statement `*element = quantizer.recover(predictor->predict(element),
*(quant_inds_pos ++))`.  The field `predictions` is a ghost record of the values returned
by `predict`. -/
def decompress_element {T σP σQ : Type} (P : Predictor T σP) (Q : Quantizer T σQ)
    (quant_inds : List Int) (r : multi_dimensional_range)
    (element : multi_dimensional_iterator) (s : decompress_state T σP σQ) :
    Option (decompress_state T σP σQ) :=
  let pred := P.predict s.predictor r element s.dec_data
  match quant_inds[s.quant_inds_pos]? with
  | none => none
  | some idx =>
    let res := Q.recover s.quantizer pred idx
    match element.assign s.dec_data res.1 with
    | none => none
    | some data1 =>
      some { dec_data := data1
             quant_inds_pos := s.quant_inds_pos + 1
             predictor := s.predictor
             quantizer := res.2
             predictions := s.predictions ++ [pred] }

/-- The calls `predictor->predecompress_block(intra_block_range);
quantizer.predecompress_block()`. -/
def decompress_block_pre {T σP σQ : Type} (P : Predictor T σP) (Q : Quantizer T σQ)
    (r : multi_dimensional_range) (s : decompress_state T σP σQ) : decompress_state T σP σQ :=
  { s with
    predictor := P.predecompress_block s.predictor r s.dec_data,
    quantizer := Q.predecompress_block s.quantizer }

/-- Lines 136 to 167 of `decompress`: allocation of the zero-initialised output, the two
ranges, the `predecompress_data` calls, the nested loops and the `postdecompress_data`
calls, for template parameter `N`. -/
def decompress_traversal {T σP σQ : Type} [Zero T] (P : Predictor T σP) (Q : Quantizer T σQ)
    (fuel : Nat) (N : Nat) (global_dimensions : List Nat) (num_elements : Nat)
    (block_size : Nat) (predictor : σP) (quantizer : σQ) (quant_inds : List Int) :
    Option (decompress_state T σP σQ) :=
  let dec_data : List T := List.replicate num_elements 0
  match multi_dimensional_range.create N global_dimensions block_size 0,
        multi_dimensional_range.create N global_dimensions 1 0 with
  | some inter_block_range, some intra_block_range =>
    let s0 : decompress_state T σP σQ :=
      { dec_data := dec_data
        quant_inds_pos := 0
        predictor := P.predecompress_data predictor inter_block_range inter_block_range.begin dec_data
        quantizer := Q.predecompress_data quantizer
        predictions := [] }
    match block_loop global_dimensions block_size (decompress_block_pre P Q)
            (decompress_element P Q quant_inds) fuel inter_block_range intra_block_range s0 with
    | none => none
    | some res =>
      let s1 := res.2
      some { s1 with
             predictor :=
               P.postdecompress_data s1.predictor inter_block_range inter_block_range.begin
                 s1.dec_data,
             quantizer := Q.postdecompress_data s1.quantizer }
  | _, _ => none

/-- What `decompress` hands back: the contents of `dec_data` at the `return`, and the
compressor object after the call.  The source returns `dec_data.data()`, a pointer into a
vector that is local to `decompress` and destroyed at the `return`; the lifetime of that
memory is not modelled. -/
structure decompress_result (T σP σQ σE : Type) where
  dec_data : List T
  compressor : SZ_General_Compressor σP σQ σE

/-- Method `decompress(compressed_data, length)`. -/
def decompress {T σP σQ σE : Type} [Zero T] (P : Predictor T σP) (Q : Quantizer T σQ)
    (E : Encoder σE) (fuel : Nat) (c : SZ_General_Compressor σP σQ σE)
    (compressed_data : List Nat) (length : Nat) : Option (decompress_result T σP σQ σE) :=
  match deserialize (T := T) P Q E c compressed_data length with
  | none => none
  | some d =>
    match decompress_traversal P Q fuel c.global_dimensions.length d.global_dimensions
            d.num_elements d.block_size d.predictor d.quantizer d.quant_inds with
    | none => none
    | some s =>
      some { dec_data := s.dec_data
             compressor :=
               { c with
                 predictor := s.predictor,
                 quantizer := s.quantizer,
                 encoder := d.encoder,
                 num_elements := d.num_elements,
                 global_dimensions := d.global_dimensions } }

/-! ## Row-major weights and dot products -/

/-- Row-major weights of a shape: entry `i` is the product of the extents after `i`. -/
def weights : List Nat → List Nat
  | [] => []
  | _ :: ns => ns.prod :: weights ns

/-- Sum of the entrywise products of two arrays. -/
def dot (a b : List Nat) : Nat := (List.zipWith (fun x y => x * y) a b).sum

/-- Mixed-radix digits of `k` in base `dims`, last axis least significant; the digit
of the first axis is not reduced. -/
def unrank : List Nat → Nat → List Nat
  | [], _ => []
  | _ :: ns, k => (k / ns.prod) :: unrank ns (k % ns.prod)

/-- The iterator with per-axis index the digits of `k` and the matching offset. -/
def iter_at (r : multi_dimensional_range) (k : Nat) : multi_dimensional_iterator :=
  { current_index := unrank r.dimensions k
    current_offset := r.start_offset + (dot (unrank r.dimensions k) r.dim_strides : Nat) }

/-- A range with at least one axis, as many strides as extents, and positive extents. -/
def well_formed (r : multi_dimensional_range) : Prop :=
  r.dimensions ≠ [] ∧ r.dim_strides.length = r.dimensions.length ∧ ∀ d ∈ r.dimensions, 1 ≤ d

instance (r : multi_dimensional_range) : Decidable (well_formed r) := by
  unfold well_formed; infer_instance

/-- The inter-block range of shape (5, 5) at access stride 2, as the constructor leaves
it. -/
def example_grid_range : multi_dimensional_range :=
  { global_dimensions := [5, 5], global_dim_strides := [10, 2], dimensions := [3, 3],
    dim_strides := [10, 2], start_position := [false, false], access_stride := 2,
    start_offset := 0, end_offset := 30 }

/-- Threading a state through a list of fallible steps. -/
def opt_fold {α S : Type} (step : α → S → Option S) : List α → S → Option S
  | [], s => some s
  | a :: l, s =>
    match step a s with
    | none => none
    | some s1 => opt_fold step l s1

/-- Number of blocks along each axis: `(d - 1) / B + 1`. -/
def block_counts (D : List Nat) (B : Nat) : List Nat := D.map (fun d => (d - 1) / B + 1)

/-- Extent of a block along an axis of extent `d`, for block index `b` on that axis. -/
def axis_extent (B : Nat) (b d : Nat) : Nat :=
  if b = ((d - 1) / B + 1) - 1 then d - b * B else B

/-- Extents of the block with block index vector `b`. -/
def block_extents (D : List Nat) (B : Nat) (b : List Nat) : List Nat :=
  List.zipWith (axis_extent B) b D

/-- The intra-block range as the driver re-seats it on block number `k` (blocks counted
in the order of the inter-block loop). -/
def block_range (D : List Nat) (B k : Nat) : multi_dimensional_range :=
  let b := unrank (block_counts D B) k
  { global_dimensions := D
    global_dim_strides := weights D
    dimensions := block_extents D B b
    dim_strides := weights D
    start_position := b.map (fun x => x == 0)
    access_stride := 1
    start_offset := ((dot b ((weights D).map (fun w => w * B)) : Nat) : Int)
    end_offset := ((dot b ((weights D).map (fun w => w * B)) : Nat) : Int)
      + (((block_extents D B b).getD 0 0 * (weights D).getD 0 0 : Nat) : Int) }

/-- The steps of the nested loops in order: `(k, none)` is the entry into block `k`,
`(k, some j)` the visit of element `j` of block `k`. -/
def events (D : List Nat) (B : Nat) : List (Nat × Option Nat) :=
  (List.range (block_counts D B).prod).flatMap
    (fun k => (k, none) :: (List.range (block_range D B k).dimensions.prod).map
      (fun j => (k, some j)))

/-- What the nested loops do at one step. -/
def run_event {S : Type} (D : List Nat) (B : Nat)
    (block_pre : multi_dimensional_range → S → S)
    (elem : multi_dimensional_range → multi_dimensional_iterator → S → Option S)
    (e : Nat × Option Nat) (s : S) : Option S :=
  match e.2 with
  | none => some (block_pre (block_range D B e.1) s)
  | some j => elem (block_range D B e.1) (iter_at (block_range D B e.1) j) s

/-- Offset of the element visited at a step, if the step visits one. -/
def event_offset (D : List Nat) (B : Nat) (e : Nat × Option Nat) : Option Int :=
  e.2.map (fun j => (iter_at (block_range D B e.1) j).current_offset)

/-- The element body that only records the offset it is run at. -/
def record_offset (_r : multi_dimensional_range) (element : multi_dimensional_iterator)
    (s : List Int) : Option (List Int) :=
  some (s ++ [element.get_offset])

/-- The offsets visited by the nested loops of the driver, in order, for a shape and a
block size. -/
def visited_offsets (fuel : Nat) (D : List Nat) (B : Nat) : Option (List Int) :=
  match multi_dimensional_range.create D.length D B 0,
        multi_dimensional_range.create D.length D 1 0 with
  | some inter_block_range, some intra_block_range =>
    match block_loop D B (fun _ s => s) record_offset fuel inter_block_range
            intra_block_range [] with
    | none => none
    | some res => some res.2
  | _, _ => none

/-- The inter-block range as the constructor leaves it, for shape `D` and block size `B`. -/
def inter_range (D : List Nat) (B : Nat) : multi_dimensional_range :=
  { global_dimensions := D
    global_dim_strides := (weights D).map (fun w => B * w)
    dimensions := block_counts D B
    dim_strides := (weights D).map (fun w => w * B)
    start_position := List.replicate D.length false
    access_stride := B
    start_offset := 0
    end_offset :=
      (((block_counts D B).getD 0 0 * ((weights D).map (fun w => w * B)).getD 0 0 : Nat) : Int) }

/-- The fields of the intra-block range that re-seating leaves alone or overwrites in
full. -/
def intra_like (D : List Nat) (X : multi_dimensional_range) : Prop :=
  X.global_dimensions = D ∧ X.global_dim_strides = weights D ∧ X.dim_strides = weights D
    ∧ X.access_stride = 1 ∧ X.dimensions.length = D.length ∧ X.start_position.length = D.length

/-- The offsets of the elements visited by the steps of the nested loops, in order. -/
def element_offsets (D : List Nat) (B : Nat) : List Int :=
  (events D B).filterMap (event_offset D B)

/-- Global coordinates of element `j` of block `k`: block index times block size plus
the index inside the block, axis by axis. -/
def global_coords (D : List Nat) (B k j : Nat) : List Nat :=
  List.zipWith (fun x y => x * B + y) (unrank (block_counts D B) k)
    (unrank (block_range D B k).dimensions j)

/-- The state with which `compress` enters its nested loops. -/
def compress_start {T σP σQ σE : Type} (P : Predictor T σP) (Q : Quantizer T σQ)
    (c : SZ_General_Compressor σP σQ σE) (data_ : List T) : compress_state T σP σQ :=
  { data := data_.take c.num_elements
    quant_inds := List.replicate c.num_elements 0
    count := 0
    predictor := P.precompress_data c.predictor (inter_range c.global_dimensions c.block_size)
      (inter_range c.global_dimensions c.block_size).begin (data_.take c.num_elements)
    quantizer := Q.precompress_data c.quantizer
    predictions := [] }

/-- The `postcompress_data` calls after the nested loops of `compress`. -/
def compress_finish {T σP σQ σE : Type} (P : Predictor T σP) (Q : Quantizer T σQ)
    (c : SZ_General_Compressor σP σQ σE) (s : compress_state T σP σQ) :
    compress_state T σP σQ :=
  { s with
    predictor := P.postcompress_data s.predictor (inter_range c.global_dimensions c.block_size)
      (inter_range c.global_dimensions c.block_size).begin s.data,
    quantizer := Q.postcompress_data s.quantizer }

/-- The predictor that always predicts 0 and has no state to save. -/
def zero_predictor : Predictor Int Unit where
  precompress_data := fun s _ _ _ => s
  postcompress_data := fun s _ _ _ => s
  precompress_block := fun s _ _ => s
  predecompress_data := fun s _ _ _ => s
  postdecompress_data := fun s _ _ _ => s
  predecompress_block := fun s _ _ => s
  predict := fun _ _ _ _ => 0
  save := fun _ => []
  load := fun s _ _ => some (s, 0)

/-- The uniform quantizer of step `2 * bound`: the index is the residual divided by the
step, rounded to nearest, and the value written back is `pred + index * step`, which is
within `bound` of the original. -/
def uniform_quantizer (bound : Int) : Quantizer Int Unit where
  precompress_data := fun s => s
  postcompress_data := fun s => s
  precompress_block := fun s => s
  predecompress_data := fun s => s
  postdecompress_data := fun s => s
  predecompress_block := fun s => s
  quantize_and_overwrite := fun s x pred =>
    ((x - pred + bound) / (2 * bound), pred + (x - pred + bound) / (2 * bound) * (2 * bound), s)
  recover := fun s pred idx => (pred + idx * (2 * bound), s)
  get_radius := fun _ => 32768
  save := fun _ => []
  load := fun s _ _ => some (s, 0)

/-- Value of a 32-bit pattern read as a signed `int`. -/
def int_of_bits (v : Nat) : Int := if v < 2 ^ 31 then (v : Int) else (v : Int) - 2 ^ 32

/-- The encoder that stores each index as the four bytes of its `int` representation. -/
def raw_encoder : Encoder Unit where
  preprocess_encode := fun s _ _ => s
  save := fun _ => []
  encode := fun s q => (q.flatMap (fun z => to_bytes 4 (z % 2 ^ 32).toNat), s)
  postprocess_encode := fun s => s
  load := fun s _ _ => some (s, 0)
  decode := fun s bytes n =>
    ((List.range n).map (fun k => int_of_bits (from_bytes ((bytes.drop (4 * k)).take 4))), s)
  postprocess_decode := fun s => s

/-- The range over a 1-D array of 3 elements at access stride 1, as the constructor
leaves it. -/
def example_line_range : multi_dimensional_range :=
  { global_dimensions := [3], global_dim_strides := [1], dimensions := [3],
    dim_strides := [1], start_position := [false], access_stride := 1,
    start_offset := 0, end_offset := 3 }

/-- The loop `for (b = r.begin(); b != r.end(); b++)` over the inter-block range of a
shape, recording the iterators it stops at. -/
def block_iterators (fuel : Nat) (D : List Nat) (B : Nat) :
    Option (List multi_dimensional_iterator) :=
  match multi_dimensional_range.create D.length D B 0 with
  | none => none
  | some inter_block_range =>
    range_loop inter_block_range (fun block s => some (s ++ [block])) fuel
      inter_block_range.begin []

/-- The sum over the axes of `p[i] * global_dim_strides[i]`. -/
def lookback_distance (r : multi_dimensional_range) (args : List Int) : Int :=
  ((List.range args.length).map
    (fun i => args.getD i 0 * (r.global_dim_strides.getD i 0 : Int))).sum

/-- Whether some axis has `current_index[i] < p[i]` while the range is flagged as
starting at the global origin on that axis. -/
def lookback_at_edge (r : multi_dimensional_range) (it : multi_dimensional_iterator)
    (args : List Int) : Prop :=
  ∃ i, i < args.length ∧ (it.current_index.getD i 0 : Int) < args.getD i 0
    ∧ r.start_position.getD i false = true

/-- A 4 x 4 array with distinct entries, row-major. -/
def example_array : List Int :=
  [100, 101, 102, 103, 110, 111, 112, 113, 120, 121, 122, 123, 130, 131, 132, 133]

/-- The range over a 4 x 4 array covering the (4, 4) block at global index (0, 0): both
axes are flagged as starting at the global origin. -/
def example_block_range : multi_dimensional_range :=
  { global_dimensions := [4, 4], global_dim_strides := [4, 1], dimensions := [4, 4],
    dim_strides := [4, 1], start_position := [true, true], access_stride := 1,
    start_offset := 0, end_offset := 16 }

/-- Whatever the states, `recover(pred, idx)` is the value that
`quantize_and_overwrite(x, pred)` wrote back when it returned `idx`. -/
def recover_matches {T σQ : Type} (Q : Quantizer T σQ) : Prop :=
  ∀ (s1 s2 : σQ) (x pred : T),
    (Q.recover s2 pred (Q.quantize_and_overwrite s1 x pred).1).1
      = (Q.quantize_and_overwrite s1 x pred).2.1

/-- An encoder that elides an all-zero index sequence: `preprocess_encode` notes in the
state whether all indices are 0; if so `encode` writes nothing and `decode` returns zeros,
otherwise both work as `raw_encoder`.  Its state is not saved in the buffer. -/
def elide_encoder : Encoder Bool where
  preprocess_encode := fun _ q _ => q.all (fun z => z == 0)
  save := fun _ => []
  encode := fun s q => (if s then [] else (raw_encoder.encode () q).1, s)
  postprocess_encode := fun s => s
  load := fun s _ _ => some (s, 0)
  decode := fun s bytes n =>
    (if s then List.replicate n 0 else (raw_encoder.decode () bytes n).1, s)
  postprocess_decode := fun s => s

/-- A component whose `load` consumes exactly the bytes its `save` wrote, whatever
follows them in the buffer. -/
def load_consumes_save {σ : Type} (save : σ → List Nat)
    (load : σ → List Nat → Nat → Option (σ × Nat)) : Prop :=
  ∀ (s s1 : σ) (rest : List Nat) (n : Nat),
    ∃ s2, load s1 (save s ++ rest) n = some (s2, (save s).length)

/-- An encoder that, on the object that encoded a sequence `q` of `int` values, consumes
with `load` exactly the bytes `save` wrote and then decodes `q` from the encoded stream,
whatever follows it in the buffer. -/
def encoder_round_trip {σ : Type} (E : Encoder σ) : Prop :=
  ∀ (s0 : σ) (a : Int) (q : List Int) (rest : List Nat) (n : Nat),
    (∀ z ∈ q, -2 ^ 31 ≤ z ∧ z < 2 ^ 31) →
    ∃ s4,
      E.load (E.postprocess_encode (E.encode (E.preprocess_encode s0 q a) q).2)
          (E.save (E.preprocess_encode s0 q a) ++ ((E.encode (E.preprocess_encode s0 q a) q).1
            ++ rest)) n
        = some (s4, (E.save (E.preprocess_encode s0 q a)).length)
      ∧ (E.decode s4 ((E.encode (E.preprocess_encode s0 q a) q).1 ++ rest) q.length).1 = q

/-! ## Sequences of mutator calls on a range -/

/-- A call of one of the mutators `set_dimensions`, `set_offsets`,
`set_starting_position`, `set_access_stride`, with its argument. -/
inductive mutator_call where
  | set_dimensions (seq : List Nat)
  | set_offsets (offset_ : Int)
  | set_starting_position (dims : List Nat)
  | set_access_stride (stride_ : Nat)
deriving DecidableEq

/-- The range after one mutator call. -/
def mutator_call.apply (m : mutator_call) (r : multi_dimensional_range) :
    multi_dimensional_range :=
  match m with
  | .set_dimensions seq => r.set_dimensions seq
  | .set_offsets offset_ => r.set_offsets offset_
  | .set_starting_position dims => r.set_starting_position dims
  | .set_access_stride stride_ => r.set_access_stride stride_

/-- The range after a sequence of mutator calls, first call first. -/
def run_calls : List mutator_call → multi_dimensional_range → multi_dimensional_range
  | [], r => r
  | m :: ms, r => run_calls ms (m.apply r)

/-- The relation `end_offset = start_offset + dimensions[0] * dim_strides[0]`. -/
def offset_invariant (r : multi_dimensional_range) : Prop :=
  r.end_offset = r.start_offset + ((r.dimensions.getD 0 0 * r.dim_strides.getD 0 0 : Nat) : Int)

instance (r : multi_dimensional_range) : Decidable (offset_invariant r) := by
  unfold offset_invariant; infer_instance

/-- Whether a sequence of calls, entered with `pending` telling whether `set_dimensions`
was called since the offsets were last set, ends with such a call pending. -/
def dimensions_pending : Bool → List mutator_call → Bool
  | pending, [] => pending
  | _, .set_dimensions _ :: ms => dimensions_pending true ms
  | _, .set_offsets _ :: ms => dimensions_pending false ms
  | pending, .set_starting_position _ :: ms => dimensions_pending pending ms
  | pending, .set_access_stride _ :: ms => dimensions_pending pending ms

/-- The loop `for (it = r.begin(); it != r.end(); it++)` over the range built over an
array of shape `D` with access stride 1 and start offset 0, recording the iterators it
stops at. -/
def full_walk (fuel : Nat) (D : List Nat) : Option (List multi_dimensional_iterator) :=
  match multi_dimensional_range.create D.length D 1 0 with
  | none => none
  | some r => range_loop r (fun it s => some (s ++ [it])) fuel r.begin []

/-- The number of bytes allocated for the output at line 78 of `compress`,
`new uchar[2 * num_elements * sizeof(T)]`, for an element type of `sizeof_T` bytes. -/
def allocation_size {σP σQ σE : Type} (c : SZ_General_Compressor σP σQ σE) (sizeof_T : Nat) :
    Nat :=
  2 * c.num_elements * sizeof_T

/-- The element body that records the range and the iterator it is run with. -/
def record_position (r : multi_dimensional_range) (element : multi_dimensional_iterator)
    (s : List (multi_dimensional_range × multi_dimensional_iterator)) :
    Option (List (multi_dimensional_range × multi_dimensional_iterator)) :=
  some (s ++ [(r, element)])

/-- The pairs of intra-block range and element iterator at which the nested loops of the
driver run their element statement, in order, for a shape and a block size. -/
def visited_positions (fuel : Nat) (D : List Nat) (B : Nat) :
    Option (List (multi_dimensional_range × multi_dimensional_iterator)) :=
  match multi_dimensional_range.create D.length D B 0,
        multi_dimensional_range.create D.length D 1 0 with
  | some inter_block_range, some intra_block_range =>
    match block_loop D B (fun _ s => s) record_position fuel inter_block_range
            intra_block_range [] with
    | none => none
    | some res => some res.2
  | _, _ => none

/-- The intra-block loop of the driver on the block at `block`: the re-seated range and
the element iterators the loop stops at. -/
def block_elements (fuel : Nat) (D : List Nat) (B : Nat) (block : multi_dimensional_iterator) :
    Option (multi_dimensional_range × List multi_dimensional_iterator) :=
  match multi_dimensional_range.create D.length D B 0,
        multi_dimensional_range.create D.length D 1 0 with
  | some inter_block_range, some intra_block_range =>
    let intra := reseat D B inter_block_range intra_block_range block
    match range_loop intra (fun it s => some (s ++ [it])) fuel intra.begin [] with
    | none => none
    | some its => some (intra, its)
  | _, _ => none

/-! ## Recovery of the global index from the offset -/

/-- Conversion of a `size_t` value to `ptrdiff_t`. -/
def to_ptrdiff_t (x : Nat) : Int :=
  if x % 2 ^ 64 < 2 ^ 63 then ((x % 2 ^ 64 : Nat) : Int) else ((x % 2 ^ 64 : Nat) : Int) - 2 ^ 64

/-- The loop `for (i = N - 1; i >= 0; i--) { global_idx[i] = offset % global_dimensions[i];
offset /= global_dimensions[i]; }` of `get_global_index_vector`, with `i + 1` axes left.
The offset is a `ptrdiff_t` and the extent a `size_t`, so both operations are made in
`size_t` and the quotient is stored back as a `ptrdiff_t`; a division by an extent of 0
ends the program (`none`). -/
def multi_dimensional_iterator.global_index_loop (gd : List Nat) :
    Nat → Int → List Nat → Option (List Nat)
  | 0, _, global_idx => some global_idx
  | i + 1, offset, global_idx =>
    if gd.getD i 0 = 0 then none
    else
      multi_dimensional_iterator.global_index_loop gd i
        (to_ptrdiff_t (to_size_t offset / gd.getD i 0))
        (global_idx.set i (to_size_t offset % gd.getD i 0))

/-- Method `get_global_index_vector`. -/
def multi_dimensional_iterator.get_global_index_vector (r : multi_dimensional_range)
    (it : multi_dimensional_iterator) : Option (List Nat) :=
  multi_dimensional_iterator.global_index_loop r.global_dimensions it.current_index.length
    it.current_offset (List.replicate it.current_index.length 0)

/-- A predictor without state whose prediction is a given function of the range and the
iterator it is called with. -/
def probe_predictor {T : Type}
    (f : multi_dimensional_range → multi_dimensional_iterator → T) : Predictor T Unit where
  precompress_data := fun s _ _ _ => s
  postcompress_data := fun s _ _ _ => s
  precompress_block := fun s _ _ => s
  predecompress_data := fun s _ _ _ => s
  postdecompress_data := fun s _ _ _ => s
  predecompress_block := fun s _ _ => s
  predict := fun _ r it _ => f r it
  save := fun _ => []
  load := fun s _ _ => some (s, 0)

end SZ

namespace SZ

/-! ## Arrays as lists: the filling loops -/

theorem fill_loop_length {α : Type} (f : Nat → α) (k i : Nat) (out : List α) :
    (fill_loop f k i out).length = out.length := by
  induction k generalizing i out with
  | zero => rfl
  | succ k ih => simp [fill_loop, ih]

theorem fill_loop_getElem? {α : Type} (f : Nat → α) (k i : Nat) (out : List α) (j : Nat) :
    (fill_loop f k i out)[j]? =
      if i ≤ j ∧ j < i + k ∧ j < out.length then some (f j) else out[j]? := by
  induction k generalizing i out with
  | zero =>
    have : ¬ (i ≤ j ∧ j < i + 0 ∧ j < out.length) := by omega
    rw [if_neg this]; rfl
  | succ k ih =>
    rw [fill_loop, ih, List.length_set, List.getElem?_set]
    by_cases hij : i = j
    · subst hij
      have h1 : ¬ (i + 1 ≤ i ∧ i < i + 1 + k ∧ i < out.length) := by omega
      rw [if_neg h1, if_pos rfl]
      by_cases hl : i < out.length
      · have h2 : i ≤ i ∧ i < i + (k + 1) ∧ i < out.length := by omega
        rw [if_pos h2, if_pos hl]
      · have h2 : ¬ (i ≤ i ∧ i < i + (k + 1) ∧ i < out.length) := by omega
        rw [if_neg h2, if_neg hl]
        exact (List.getElem?_eq_none (by omega)).symm
    · rw [if_neg hij]
      by_cases h : i + 1 ≤ j ∧ j < i + 1 + k ∧ j < out.length
      · have h2 : i ≤ j ∧ j < i + (k + 1) ∧ j < out.length := by omega
        rw [if_pos h, if_pos h2]
      · have h2 : ¬ (i ≤ j ∧ j < i + (k + 1) ∧ j < out.length) := by omega
        rw [if_neg h, if_neg h2]

theorem fill_loop_eq_map {α : Type} (f : Nat → α) (out : List α) :
    fill_loop f out.length 0 out = (List.range out.length).map f := by
  apply List.ext_getElem?
  intro j
  rw [fill_loop_getElem?, List.getElem?_map]
  by_cases hj : j < out.length
  · have h : 0 ≤ j ∧ j < 0 + out.length ∧ j < out.length := by omega
    rw [if_pos h, List.getElem?_range hj]; rfl
  · have h : ¬ (0 ≤ j ∧ j < 0 + out.length ∧ j < out.length) := by omega
    have h3 : (List.range out.length)[j]? = none :=
      List.getElem?_eq_none (by simp; omega)
    have h4 : out[j]? = none := List.getElem?_eq_none (by omega)
    rw [if_neg h, h3, h4]; rfl

theorem set_dimensions_loop_length (seq : List Nat) (i : Nat) (dims : List Nat) :
    (multi_dimensional_range.set_dimensions_loop seq i dims).length = dims.length := by
  induction seq generalizing i dims with
  | nil => rfl
  | cons v rest ih => simp [multi_dimensional_range.set_dimensions_loop, ih]

theorem set_dimensions_loop_getElem? (seq : List Nat) (i : Nat) (dims : List Nat) (j : Nat) :
    (multi_dimensional_range.set_dimensions_loop seq i dims)[j]? =
      if i ≤ j ∧ j < i + seq.length ∧ j < dims.length then seq[j - i]? else dims[j]? := by
  induction seq generalizing i dims with
  | nil =>
    have : ¬ (i ≤ j ∧ j < i + ([] : List Nat).length ∧ j < dims.length) := by
      simp only [List.length_nil]; omega
    rw [if_neg this]; rfl
  | cons v rest ih =>
    have hlen : (v :: rest).length = rest.length + 1 := rfl
    rw [multi_dimensional_range.set_dimensions_loop, ih, List.length_set, List.getElem?_set]
    by_cases hij : i = j
    · subst hij
      have h1 : ¬ (i + 1 ≤ i ∧ i < i + 1 + rest.length ∧ i < dims.length) := by omega
      rw [if_neg h1, if_pos rfl]
      by_cases hl : i < dims.length
      · have h2 : i ≤ i ∧ i < i + (v :: rest).length ∧ i < dims.length := by omega
        rw [if_pos h2, if_pos hl, Nat.sub_self]; simp
      · have h2 : ¬ (i ≤ i ∧ i < i + (v :: rest).length ∧ i < dims.length) := by omega
        rw [if_neg h2, if_neg hl]
        exact (List.getElem?_eq_none (by omega)).symm
    · rw [if_neg hij]
      by_cases h : i + 1 ≤ j ∧ j < i + 1 + rest.length ∧ j < dims.length
      · have h2 : i ≤ j ∧ j < i + (v :: rest).length ∧ j < dims.length := by omega
        have h3 : j - i = (j - (i + 1)) + 1 := by omega
        rw [if_pos h, if_pos h2, h3]; simp
      · have h2 : ¬ (i ≤ j ∧ j < i + (v :: rest).length ∧ j < dims.length) := by omega
        rw [if_neg h, if_neg h2]

theorem set_dimensions_loop_eq (seq dims : List Nat) (h : seq.length = dims.length) :
    multi_dimensional_range.set_dimensions_loop seq 0 dims = seq := by
  apply List.ext_getElem?
  intro j
  rw [set_dimensions_loop_getElem?]
  by_cases hj : j < dims.length
  · have h1 : 0 ≤ j ∧ j < 0 + seq.length ∧ j < dims.length := by omega
    rw [if_pos h1]; rfl
  · have h1 : ¬ (0 ≤ j ∧ j < 0 + seq.length ∧ j < dims.length) := by omega
    have h3 : seq[j]? = none := List.getElem?_eq_none (by omega)
    have h4 : dims[j]? = none := List.getElem?_eq_none (by omega)
    rw [if_neg h1, h3, h4]

/-! ## Row-major weights, dot products and mixed-radix digits -/

theorem weights_length (l : List Nat) : (weights l).length = l.length := by
  induction l with
  | nil => rfl
  | cons n ns ih => simp [weights, ih]

theorem unrank_length (l : List Nat) (k : Nat) : (unrank l k).length = l.length := by
  induction l generalizing k with
  | nil => rfl
  | cons n ns ih => simp [unrank, ih]

theorem weights_getElem? (l : List Nat) (j : Nat) :
    (weights l)[j]? = if j < l.length then some (l.drop (j + 1)).prod else none := by
  induction l generalizing j with
  | nil => simp [weights]
  | cons n ns ih =>
    cases j with
    | zero => simp [weights]
    | succ j => simp [weights, ih]

@[simp] theorem dot_nil_left (b : List Nat) : dot [] b = 0 := by simp [dot]

@[simp] theorem dot_nil_right (a : List Nat) : dot a [] = 0 := by simp [dot]

@[simp] theorem dot_cons (x y : Nat) (a b : List Nat) :
    dot (x :: a) (y :: b) = x * y + dot a b := by simp [dot]

theorem dot_set (a b : List Nat) (i v : Nat) (ha : i < a.length) (hb : i < b.length) :
    dot (a.set i v) b + a.getD i 0 * b.getD i 0 = dot a b + v * b.getD i 0 := by
  induction a generalizing b i with
  | nil => simp at ha
  | cons x a ih =>
    cases b with
    | nil => simp at hb
    | cons y b =>
      cases i with
      | zero => simp; ring
      | succ i =>
        have := ih b i (by simpa using ha) (by simpa using hb)
        simp only [List.set_cons_succ, dot_cons, List.getD_cons_succ]
        omega

theorem dot_replicate_zero (n : Nat) (b : List Nat) : dot (List.replicate n 0) b = 0 := by
  induction n generalizing b with
  | zero => simp
  | succ n ih =>
    cases b with
    | nil => simp
    | cons y b => simp [List.replicate_succ, ih]

theorem dot_map_mul_right (a b : List Nat) (m : Nat) :
    dot a (b.map (fun w => w * m)) = dot a b * m := by
  induction a generalizing b with
  | nil => simp
  | cons x a ih =>
    cases b with
    | nil => simp
    | cons y b => simp [ih]; ring

theorem unrank_zero (l : List Nat) : unrank l 0 = List.replicate l.length 0 := by
  induction l with
  | nil => rfl
  | cons n ns ih => simp [unrank, ih, List.replicate_succ]

/-- Digits of a number below the product of the shape are below the extents. -/
theorem unrank_lt (ns : List Nat) (m : Nat) (h : m < ns.prod) :
    List.Forall₂ (fun c n => c < n) (unrank ns m) ns := by
  induction ns generalizing m with
  | nil => exact List.Forall₂.nil
  | cons n ns ih =>
    rw [List.prod_cons] at h
    have hpos : 0 < ns.prod := by
      rcases Nat.eq_zero_or_pos ns.prod with h0 | h0
      · rw [h0] at h; omega
      · exact h0
    refine List.Forall₂.cons ?_ (ih _ (Nat.mod_lt _ hpos))
    exact (Nat.div_lt_iff_lt_mul hpos).mpr h

theorem dot_unrank_lt (ns : List Nat) (m : Nat) (h : m < ns.prod) :
    dot (unrank ns m) (weights ns) = m := by
  induction ns generalizing m with
  | nil => simp at h; simp [unrank, h]
  | cons n ns ih =>
    rw [List.prod_cons] at h
    have hpos : 0 < ns.prod := by
      rcases Nat.eq_zero_or_pos ns.prod with h0 | h0
      · rw [h0] at h; omega
      · exact h0
    simp only [unrank, weights, dot_cons]
    rw [ih _ (Nat.mod_lt _ hpos)]
    exact Nat.div_add_mod' m ns.prod

/-- For a non-empty shape whose later extents are positive, the digits of any number
weigh that number. -/
theorem dot_unrank (n : Nat) (ns : List Nat) (k : Nat) (hpos : 0 < ns.prod) :
    dot (unrank (n :: ns) k) (weights (n :: ns)) = k := by
  simp only [unrank, weights, dot_cons]
  rw [dot_unrank_lt _ _ (Nat.mod_lt _ hpos)]
  exact Nat.div_add_mod' k ns.prod

/-- An index vector below the extents weighs less than the product of the extents, and
is the digit vector of its weight. -/
theorem dot_lt_and_unrank (c ns : List Nat) (h : List.Forall₂ (fun c n => c < n) c ns) :
    dot c (weights ns) < ns.prod ∧ unrank ns (dot c (weights ns)) = c := by
  induction h with
  | nil => simp [unrank]
  | @cons c0 n0 cs ns h0 _ ih =>
    obtain ⟨ih1, ih2⟩ := ih
    simp only [weights, dot_cons, List.prod_cons, unrank]
    have hpos : 0 < ns.prod := by omega
    constructor
    · calc c0 * ns.prod + dot cs (weights ns) < c0 * ns.prod + ns.prod := by omega
        _ = (c0 + 1) * ns.prod := by ring
        _ ≤ n0 * ns.prod := Nat.mul_le_mul_right _ h0
    · have hd : (c0 * ns.prod + dot cs (weights ns)) / ns.prod = c0 := by
        rw [Nat.add_comm, Nat.add_mul_div_right _ _ hpos, Nat.div_eq_of_lt ih1]; simp
      have hm : (c0 * ns.prod + dot cs (weights ns)) % ns.prod = dot cs (weights ns) := by
        rw [Nat.add_comm, Nat.add_mul_mod_self_right, Nat.mod_eq_of_lt ih1]
      rw [hd, hm, ih2]

/-- Uniqueness of the digits when only the later axes are bounded. -/
theorem unrank_dot_cons (c0 n0 : Nat) (cs ns : List Nat)
    (h : List.Forall₂ (fun c n => c < n) cs ns) :
    unrank (n0 :: ns) (dot (c0 :: cs) (weights (n0 :: ns))) = c0 :: cs := by
  obtain ⟨ih1, ih2⟩ := dot_lt_and_unrank cs ns h
  simp only [weights, dot_cons, unrank]
  have hpos : 0 < ns.prod := by omega
  have hd : (c0 * ns.prod + dot cs (weights ns)) / ns.prod = c0 := by
    rw [Nat.add_comm, Nat.add_mul_div_right _ _ hpos, Nat.div_eq_of_lt ih1]; simp
  have hm : (c0 * ns.prod + dot cs (weights ns)) % ns.prod = dot cs (weights ns) := by
    rw [Nat.add_comm, Nat.add_mul_mod_self_right, Nat.mod_eq_of_lt ih1]
  rw [hd, hm, ih2]

/-! ## The stride loop and the constructor of a range -/

theorem stride_loop_length (gd : List Nat) (mult i cur : Nat) (out : List Nat) :
    (multi_dimensional_range.stride_loop gd mult i cur out).length = out.length := by
  induction i generalizing cur out with
  | zero => rfl
  | succ i ih => simp [multi_dimensional_range.stride_loop, ih]

theorem stride_loop_getElem? (gd : List Nat) (mult i cur : Nat) (out : List Nat) (j : Nat)
    (hi : i ≤ gd.length) :
    (multi_dimensional_range.stride_loop gd mult i cur out)[j]? =
      if j < i ∧ j < out.length then some (cur * ((gd.take i).drop (j + 1)).prod * mult)
      else out[j]? := by
  induction i generalizing cur out with
  | zero =>
    have : ¬ (j < 0 ∧ j < out.length) := by omega
    rw [if_neg this]; rfl
  | succ i ih =>
    rw [multi_dimensional_range.stride_loop, ih _ _ (by omega), List.length_set,
      List.getElem?_set]
    have hgi : gd.take (i + 1) = gd.take i ++ [gd.getD i 0] := by
      rw [List.take_succ]
      congr 1
      rw [List.getD_eq_getElem?_getD, List.getElem?_eq_getElem (by omega)]
      rfl
    by_cases hji : j < i
    · have hne : ¬ i = j := by omega
      by_cases hl : j < out.length
      · rw [if_pos ⟨hji, hl⟩, if_pos ⟨by omega, hl⟩, hgi]
        have hlen : j + 1 ≤ (gd.take i).length := by
          rw [List.length_take]; omega
        rw [List.drop_append_of_le_length hlen, List.prod_append]
        simp only [List.prod_cons, List.prod_nil, mul_one]
        congr 1
        ring
      · have h1 : ¬ (j < i ∧ j < out.length) := by omega
        have h2 : ¬ (j < i + 1 ∧ j < out.length) := by omega
        rw [if_neg h1, if_neg h2, if_neg hne]
    · have h1 : ¬ (j < i ∧ j < out.length) := by omega
      rw [if_neg h1]
      by_cases hij : i = j
      · subst hij
        rw [if_pos rfl]
        by_cases hl : i < out.length
        · rw [if_pos hl, if_pos ⟨by omega, hl⟩]
          have : (gd.take (i + 1)).drop (i + 1) = [] := by
            apply List.drop_eq_nil_of_le
            rw [List.length_take]; omega
          rw [this]; simp
        · have h2 : ¬ (i < i + 1 ∧ i < out.length) := by omega
          rw [if_neg hl, if_neg h2]
          exact (List.getElem?_eq_none (by omega)).symm
      · have h2 : ¬ (j < i + 1 ∧ j < out.length) := by omega
        rw [if_neg hij, if_neg h2]

/-- The stride loop over a whole shape writes the scaled row-major weights. -/
theorem stride_loop_eq (gd : List Nat) (mult cur : Nat) (out : List Nat)
    (h : out.length = gd.length) :
    multi_dimensional_range.stride_loop gd mult gd.length cur out =
      (weights gd).map (fun w => cur * w * mult) := by
  apply List.ext_getElem?
  intro j
  rw [stride_loop_getElem? _ _ _ _ _ _ (le_refl _), List.getElem?_map, weights_getElem?,
    List.take_length]
  by_cases hj : j < gd.length
  · rw [if_pos ⟨hj, by omega⟩, if_pos hj]; rfl
  · have h1 : ¬ (j < gd.length ∧ j < out.length) := by omega
    rw [if_neg h1, if_neg hj]
    exact List.getElem?_eq_none (by omega)

/-- Closed form of a freshly constructed range. -/
theorem set_dimensions_auto_eq (r : multi_dimensional_range) (hs : 1 ≤ r.access_stride)
    (hlen : r.dimensions.length = r.global_dimensions.length)
    (hgd : ∀ d ∈ r.global_dimensions, 1 ≤ d) :
    r.set_dimensions_auto = some { r with dimensions :=
      ((List.range r.global_dimensions.length).map
        (fun i => (r.global_dimensions.getD i 0 - 1) / r.access_stride + 1)) } := by
  unfold multi_dimensional_range.set_dimensions_auto
  rw [if_neg (by omega)]
  have h3 := fill_loop_eq_map
    (fun i =>
      if r.global_dimensions.getD i 0 = 0 then ((2 ^ 64 - 1) / r.access_stride + 1) % 2 ^ 64
      else (r.global_dimensions.getD i 0 - 1) / r.access_stride + 1) r.dimensions
  rw [h3, hlen]
  congr 2
  apply List.map_congr_left
  intro i hi
  have hi' : i < r.global_dimensions.length := List.mem_range.mp hi
  have hpos : 1 ≤ r.global_dimensions.getD i 0 := by
    apply hgd
    rw [List.getD_eq_getElem _ _ hi']
    exact List.getElem_mem hi'
  show (if r.global_dimensions.getD i 0 = 0 then _ else _) = _
  rw [if_neg (by omega)]

theorem create_eq (gd : List Nat) (stride_ : Nat) (offset_ : Int) (hs : 1 ≤ stride_)
    (hgd : ∀ d ∈ gd, 1 ≤ d) :
    multi_dimensional_range.create gd.length gd stride_ offset_ =
      some { global_dimensions := gd
             global_dim_strides := (weights gd).map (fun w => stride_ * w * 1)
             dimensions := (List.range gd.length).map (fun i => (gd.getD i 0 - 1) / stride_ + 1)
             dim_strides := (weights gd).map (fun w => 1 * w * stride_)
             start_position := List.replicate gd.length false
             access_stride := stride_
             start_offset := offset_
             end_offset := offset_ +
               (((((List.range gd.length).map (fun i => (gd.getD i 0 - 1) / stride_ + 1)).getD 0 0)
                 * (((weights gd).map (fun w => 1 * w * stride_)).getD 0 0) : Nat) : Int) } := by
  have h1 : multi_dimensional_range.set_dimensions_loop gd 0 (List.replicate gd.length 0) = gd :=
    set_dimensions_loop_eq gd _ (by simp)
  have h2 : multi_dimensional_range.stride_loop gd 1 gd.length stride_ (List.replicate gd.length 0)
      = (weights gd).map (fun w => stride_ * w * 1) := stride_loop_eq gd 1 stride_ _ (by simp)
  have h4 : multi_dimensional_range.stride_loop gd stride_ gd.length 1 (List.replicate gd.length 0)
      = (weights gd).map (fun w => 1 * w * stride_) := stride_loop_eq gd stride_ 1 _ (by simp)
  have h3 := set_dimensions_auto_eq
    { global_dimensions := gd
      global_dim_strides := (weights gd).map (fun w => stride_ * w * 1)
      dimensions := List.replicate gd.length 0
      dim_strides := List.replicate gd.length 0
      start_position := List.replicate gd.length false
      access_stride := stride_
      start_offset := 0
      end_offset := 0 } hs (by simp) hgd
  simp only [multi_dimensional_range.create, ne_eq, not_true_eq_false, if_false,
    multi_dimensional_range.set_access_stride, List.length_replicate, h1, h2, h3,
    multi_dimensional_range.set_dim_strides, multi_dimensional_range.set_offsets, h4]

/-! ## The odometer: `operator++` on digit vectors -/

theorem getD_set_eq (l : List Nat) (i v : Nat) (h : i < l.length) :
    (l.set i v).getD i 0 = v := by
  rw [List.getD_eq_getElem?_getD, List.getElem?_set, if_pos rfl, if_pos h]; rfl

theorem getD_set_ne (l : List Nat) (i j v : Nat) (h : i ≠ j) :
    (l.set i v).getD j 0 = l.getD j 0 := by
  rw [List.getD_eq_getElem?_getD, List.getD_eq_getElem?_getD, List.getElem?_set, if_neg h]

theorem weights_getD (l : List Nat) (j : Nat) (h : j < l.length) :
    (weights l).getD j 0 = (l.drop (j + 1)).prod := by
  rw [List.getD_eq_getElem?_getD, weights_getElem?, if_pos h]; rfl

theorem weights_getD_succ (l : List Nat) (j : Nat) (h : j + 1 < l.length) :
    (weights l).getD j 0 = l.getD (j + 1) 0 * (weights l).getD (j + 1) 0 := by
  rw [weights_getD l j (by omega), weights_getD l (j + 1) h]
  have : l.drop (j + 1) = l.getD (j + 1) 0 :: l.drop (j + 1 + 1) := by
    rw [List.getD_eq_getElem?_getD, List.getElem?_eq_getElem h]
    exact List.drop_eq_getElem_cons h
  rw [this, List.prod_cons]

theorem weights_getD_last (l : List Nat) (h : l ≠ []) :
    (weights l).getD (l.length - 1) 0 = 1 := by
  have hl : 0 < l.length := List.length_pos.mpr h
  rw [weights_getD l _ (by omega)]
  have : l.length - 1 + 1 = l.length := by omega
  rw [this, List.drop_length]; rfl

theorem incr_loop_length (r : multi_dimensional_range) (i : Nat) (idx : List Nat) (off : Int) :
    (multi_dimensional_iterator.incr_loop r i idx off).1.length = idx.length := by
  induction i generalizing idx off with
  | zero => rfl
  | succ i ih =>
    rw [multi_dimensional_iterator.incr_loop]
    split_ifs
    · simp only [ih, List.length_set]
    · rfl

/-- The offset accumulated by the loop of `operator++` is the change of the dot product
of the index with the strides. -/
theorem incr_loop_offset (r : multi_dimensional_range) (i : Nat) (idx : List Nat) (off : Int)
    (hi : i < idx.length) (hs : r.dim_strides.length = idx.length) :
    (multi_dimensional_iterator.incr_loop r i idx off).2 + (dot idx r.dim_strides : Nat) =
      off + (dot (multi_dimensional_iterator.incr_loop r i idx off).1 r.dim_strides : Nat) := by
  induction i generalizing idx off with
  | zero => rfl
  | succ i ih =>
    rw [multi_dimensional_iterator.incr_loop]
    split_ifs with hc
    · have h1 := dot_set idx r.dim_strides (i + 1) 0 hi (by omega)
      have h2 := dot_set (idx.set (i + 1) 0) r.dim_strides i
        ((idx.set (i + 1) 0).getD i 0 + 1) (by simp; omega) (by omega)
      have h3 := ih ((idx.set (i + 1) 0).set i ((idx.set (i + 1) 0).getD i 0 + 1))
        (off - ((r.dimensions.getD (i + 1) 0 * r.dim_strides.getD (i + 1) 0 : Nat) : Int)
          + (r.dim_strides.getD i 0 : Int)) (by simp; omega) (by simp; omega)
      simp only at h3 ⊢
      rw [hc] at h1
      zify at h1 h2
      push_cast at h3 ⊢
      linarith
    · rfl

/-- The loop of `operator++` leaves the row-major weight of the index unchanged. -/
theorem incr_loop_rank (r : multi_dimensional_range) (i : Nat) (idx : List Nat) (off : Int)
    (hi : i < idx.length) (hs : r.dimensions.length = idx.length) :
    dot (multi_dimensional_iterator.incr_loop r i idx off).1 (weights r.dimensions) =
      dot idx (weights r.dimensions) := by
  induction i generalizing idx off with
  | zero => rfl
  | succ i ih =>
    rw [multi_dimensional_iterator.incr_loop]
    split_ifs with hc
    · have hw : (weights r.dimensions).length = idx.length := by rw [weights_length, hs]
      have h1 := dot_set idx (weights r.dimensions) (i + 1) 0 hi (by omega)
      have h2 := dot_set (idx.set (i + 1) 0) (weights r.dimensions) i
        ((idx.set (i + 1) 0).getD i 0 + 1) (by simp; omega) (by omega)
      have h3 := ih ((idx.set (i + 1) 0).set i ((idx.set (i + 1) 0).getD i 0 + 1))
        (off - ((r.dimensions.getD (i + 1) 0 * r.dim_strides.getD (i + 1) 0 : Nat) : Int)
          + (r.dim_strides.getD i 0 : Int)) (by simp; omega)
        (by simp; omega)
      have h4 := weights_getD_succ r.dimensions i (by omega)
      simp only at h3 ⊢
      rw [h3]
      rw [hc] at h1
      rw [h4] at h2
      zify at h1 h2 ⊢
      linarith
    · rfl

/-- The loop of `operator++` restores the bound on every axis but the first. -/
theorem incr_loop_bound (r : multi_dimensional_range) (i : Nat) (idx : List Nat) (off : Int)
    (hi : i < idx.length)
    (hpos : ∀ j, 1 ≤ j → j < idx.length → 0 < r.dimensions.getD j 0)
    (hb : ∀ j, 1 ≤ j → j < idx.length → j ≠ i → idx.getD j 0 < r.dimensions.getD j 0)
    (hbi : 1 ≤ i → idx.getD i 0 ≤ r.dimensions.getD i 0) :
    ∀ j, 1 ≤ j → j < idx.length →
      (multi_dimensional_iterator.incr_loop r i idx off).1.getD j 0 < r.dimensions.getD j 0 := by
  induction i generalizing idx off with
  | zero =>
    intro j hj1 hjl
    exact hb j hj1 hjl (by omega)
  | succ i ih =>
    rw [multi_dimensional_iterator.incr_loop]
    split_ifs with hc
    · have hlen : ((idx.set (i + 1) 0).set i ((idx.set (i + 1) 0).getD i 0 + 1)).length
          = idx.length := by simp
      have key := ih ((idx.set (i + 1) 0).set i ((idx.set (i + 1) 0).getD i 0 + 1))
        (off - ((r.dimensions.getD (i + 1) 0 * r.dim_strides.getD (i + 1) 0 : Nat) : Int)
          + (r.dim_strides.getD i 0 : Int)) (by rw [hlen]; omega)
        (by rw [hlen]; exact hpos)
        (by
          rw [hlen]
          intro j hj1 hjl hji
          rw [getD_set_ne _ _ _ _ (Ne.symm hji)]
          by_cases hj : j = i + 1
          · subst hj
            rw [getD_set_eq _ _ _ hi]
            exact hpos _ hj1 hjl
          · rw [getD_set_ne _ _ _ _ (Ne.symm hj)]
            exact hb j hj1 hjl hj)
        (by
          intro hi1
          rw [getD_set_eq _ _ _ (by simp; omega), getD_set_ne _ _ _ _ (by omega)]
          have := hb i hi1 (by omega) (by omega)
          omega)
      simp only at key ⊢
      rw [hlen] at key
      exact key
    · intro j hj1 hjl
      by_cases hj : j = i + 1
      · subst hj
        have := hbi (by omega)
        show idx.getD (i + 1) 0 < r.dimensions.getD (i + 1) 0
        omega
      · exact hb j hj1 hjl hj

theorem forall₂_lt_of_getD (a b : List Nat) (hl : a.length = b.length)
    (h : ∀ j, j < a.length → a.getD j 0 < b.getD j 0) :
    List.Forall₂ (fun c n => c < n) a b := by
  induction a generalizing b with
  | nil =>
    cases b with
    | nil => exact List.Forall₂.nil
    | cons y b => simp at hl
  | cons x a ih =>
    cases b with
    | nil => simp at hl
    | cons y b =>
      refine List.Forall₂.cons ?_ (ih b (by simpa using hl) ?_)
      · simpa using h 0 (by simp)
      · intro j hj
        simpa using h (j + 1) (by simpa using hj)

theorem getD_lt_of_forall₂ (a b : List Nat) (h : List.Forall₂ (fun c n => c < n) a b) :
    ∀ j, j < a.length → a.getD j 0 < b.getD j 0 := by
  induction h with
  | nil => intro j hj; simp at hj
  | cons h0 _ ih =>
    intro j hj
    cases j with
    | zero => simpa using h0
    | succ j => simpa using ih j (by simpa using hj)

theorem begin_eq_iter_at (r : multi_dimensional_range) : r.begin = iter_at r 0 := by
  simp [multi_dimensional_range.begin, iter_at, unrank_zero, dot_replicate_zero]

/-- One `operator++` moves the iterator of the digits of `k` to that of `k + 1`. -/
theorem operator_incr_iter_at (r : multi_dimensional_range) (hr : well_formed r) (k : Nat) :
    (iter_at r k).operator_incr r = iter_at r (k + 1) := by
  obtain ⟨hne, hsl, hpos⟩ := hr
  obtain ⟨n0, ns, hd⟩ := List.exists_cons_of_ne_nil hne
  have hnspos : 0 < ns.prod := by
    apply List.prod_pos
    intro d hdm
    exact hpos d (by rw [hd]; exact List.mem_cons_of_mem _ hdm)
  set idx := unrank r.dimensions k with hidx
  have hil : idx.length = r.dimensions.length := unrank_length _ _
  have hN : 0 < idx.length := by rw [hil, hd]; simp
  set i := idx.length - 1 with hi
  set idx0 := idx.set i (idx.getD i 0 + 1) with hidx0
  have hil0 : idx0.length = idx.length := by simp [hidx0]
  -- bounds of the digits on the later axes
  have hdpos : ∀ j, 1 ≤ j → j < idx.length → 0 < r.dimensions.getD j 0 := by
    intro j _ hjl
    rw [List.getD_eq_getElem?_getD, List.getElem?_eq_getElem (by omega)]
    exact hpos _ (List.getElem_mem _)
  have hb : ∀ j, 1 ≤ j → j < idx.length → idx.getD j 0 < r.dimensions.getD j 0 := by
    intro j hj1 hjl
    have hF := unrank_lt ns (k % ns.prod) (Nat.mod_lt _ hnspos)
    have := getD_lt_of_forall₂ _ _ hF (j - 1) (by
      rw [unrank_length]; rw [hil, hd] at hjl; simp at hjl; omega)
    obtain ⟨j', rfl⟩ : ∃ j', j = j' + 1 := ⟨j - 1, by omega⟩
    simp only [hidx, hd, unrank, List.getD_cons_succ]
    simpa using this
  set res := multi_dimensional_iterator.incr_loop r i idx0 (r.dim_strides.getD i 0 : Int)
    with hres
  have hbound := incr_loop_bound r i idx0 (r.dim_strides.getD i 0 : Int)
    (by rw [hil0]; omega) (by rw [hil0]; exact hdpos)
    (by
      rw [hil0]
      intro j hj1 hjl hji
      rw [hidx0, getD_set_ne _ _ _ _ (Ne.symm hji)]
      exact hb j hj1 hjl)
    (by
      intro hi1
      rw [hidx0, getD_set_eq _ _ _ (by omega)]
      have := hb i hi1 (by omega)
      omega)
  rw [hil0] at hbound
  have hrl : res.1.length = idx.length := by rw [hres, incr_loop_length, hil0]
  have hrank : dot res.1 (weights r.dimensions) = k + 1 := by
    rw [hres, incr_loop_rank r i idx0 _ (by rw [hil0]; omega) (by rw [hil0, hil])]
    have h1 := dot_set idx (weights r.dimensions) i (idx.getD i 0 + 1) (by omega)
      (by rw [weights_length, ← hil]; omega)
    have h2 : (weights r.dimensions).getD i 0 = 1 := by
      rw [hi, hil]; exact weights_getD_last _ hne
    have h3 : dot idx (weights r.dimensions) = k := by
      rw [hidx, hd]; exact dot_unrank n0 ns k hnspos
    rw [h2, h3] at h1
    rw [← hidx0] at h1
    omega
  have hoff := incr_loop_offset r i idx0 (r.dim_strides.getD i 0 : Int)
    (by rw [hil0]; omega) (by rw [hil0, hil, hsl])
  rw [← hres] at hoff
  have h1 := dot_set idx r.dim_strides i (idx.getD i 0 + 1) (by omega) (by rw [hsl, ← hil]; omega)
  rw [← hidx0] at h1
  -- the resulting index is the digit vector of `k + 1`
  have huniq : res.1 = unrank r.dimensions (k + 1) := by
    rw [← hrank]
    rcases hre : res.1 with _ | ⟨c0, cs⟩
    · rw [hre] at hrl; simp at hrl; omega
    · rw [hd]
      symm
      apply unrank_dot_cons
      apply forall₂_lt_of_getD
      · rw [hre, hil, hd] at hrl; simpa using hrl
      · intro j hj
        have := hbound (j + 1) (by omega) (by rw [← hrl, hre]; simpa using hj)
        rw [hre, hd] at this
        simpa using this
  have hgoal : (iter_at r k).operator_incr r =
      { current_index := res.1, current_offset := (iter_at r k).current_offset + res.2 } := rfl
  rw [hgoal, iter_at, iter_at]
  simp only [← hidx]
  rw [← huniq]
  congr 1
  zify at h1
  linarith

theorem iterate_operator_incr (r : multi_dimensional_range) (hr : well_formed r) (k : Nat) :
    (fun it => multi_dimensional_iterator.operator_incr r it)^[k] r.begin = iter_at r k := by
  induction k with
  | zero => exact begin_eq_iter_at r
  | succ k ih => rw [Function.iterate_succ_apply', ih, operator_incr_iter_at r hr]

/-- The digits of the product of the extents: the first extent, then zeros. -/
theorem unrank_prod (n0 : Nat) (ns : List Nat) (hpos : 0 < ns.prod) :
    unrank (n0 :: ns) (n0 :: ns).prod = n0 :: List.replicate ns.length 0 := by
  simp only [unrank, List.prod_cons]
  rw [Nat.mul_div_cancel _ hpos, Nat.mul_mod_left, unrank_zero]

/-! ## Loops over a range as folds -/

theorem opt_fold_append {α S : Type} (step : α → S → Option S) (l1 l2 : List α) (s : S) :
    opt_fold step (l1 ++ l2) s = (opt_fold step l1 s).bind (opt_fold step l2) := by
  induction l1 generalizing s with
  | nil => rfl
  | cons a l ih =>
    simp only [List.cons_append, opt_fold]
    cases step a s with
    | none => rfl
    | some s1 => exact ih s1

theorem opt_fold_map {α β S : Type} (f : α → β) (step : β → S → Option S) (l : List α) (s : S) :
    opt_fold step (l.map f) s = opt_fold (fun a => step (f a)) l s := by
  induction l generalizing s with
  | nil => rfl
  | cons a l ih =>
    simp only [List.map_cons, opt_fold]
    cases step (f a) s with
    | none => rfl
    | some s1 => exact ih s1

theorem opt_fold_flatMap {α β S : Type} (f : α → List β) (step : β → S → Option S)
    (l : List α) (s : S) :
    opt_fold step (l.flatMap f) s = opt_fold (fun a => opt_fold step (f a)) l s := by
  induction l generalizing s with
  | nil => rfl
  | cons a l ih =>
    simp only [List.flatMap_cons, opt_fold_append, opt_fold]
    cases opt_fold step (f a) s with
    | none => rfl
    | some s1 => exact ih s1

theorem opt_fold_congr {α S : Type} (f g : α → S → Option S) (l : List α) (s : S)
    (h : ∀ a ∈ l, ∀ s, f a s = g a s) : opt_fold f l s = opt_fold g l s := by
  induction l generalizing s with
  | nil => rfl
  | cons a l ih =>
    simp only [opt_fold]
    rw [h a (List.mem_cons_self _ _)]
    cases g a s with
    | none => rfl
    | some s1 => exact ih s1 (fun b hb => h b (List.mem_cons_of_mem _ hb))

/-- A loop over a well-formed range whose iterator first meets `end_offset` after
`k + m` increments runs its body at the iterators number `k` to `k + m - 1`. -/
theorem range_loop_from {S : Type} (r : multi_dimensional_range) (hr : well_formed r)
    (body : multi_dimensional_iterator → S → Option S) (m : Nat) :
    ∀ (k fuel : Nat) (s : S), m < fuel →
      (∀ j, k ≤ j → j < k + m → (iter_at r j).current_offset ≠ r.end_offset) →
      (iter_at r (k + m)).current_offset = r.end_offset →
      range_loop r body fuel (iter_at r k) s
        = opt_fold (fun j => body (iter_at r j)) (List.range' k m) s := by
  induction m with
  | zero =>
    intro k fuel s hf _ hend
    obtain ⟨f, rfl⟩ : ∃ f, fuel = f + 1 := ⟨fuel - 1, by omega⟩
    have : (iter_at r k).current_offset = r.end_.current_offset := hend
    simp only [range_loop, this, if_true, List.range'_zero, opt_fold]
  | succ m ih =>
    intro k fuel s hf hne hend
    obtain ⟨f, rfl⟩ : ∃ f, fuel = f + 1 := ⟨fuel - 1, by omega⟩
    have h0 : ¬ (iter_at r k).current_offset = r.end_.current_offset :=
      hne k (le_refl _) (by omega)
    simp only [range_loop, h0, if_false, List.range'_succ, opt_fold]
    cases body (iter_at r k) s with
    | none => rfl
    | some s1 =>
      simp only
      rw [operator_incr_iter_at r hr]
      apply ih (k + 1) f s1 (by omega)
      · intro j hj1 hj2
        exact hne j (by omega) (by omega)
      · rw [← hend]; congr 2; omega

theorem range_loop_eq {S : Type} (r : multi_dimensional_range) (hr : well_formed r)
    (body : multi_dimensional_iterator → S → Option S) (n fuel : Nat) (s : S) (hf : n < fuel)
    (hne : ∀ j, j < n → (iter_at r j).current_offset ≠ r.end_offset)
    (hend : (iter_at r n).current_offset = r.end_offset) :
    range_loop r body fuel r.begin s = opt_fold (fun j => body (iter_at r j)) (List.range n) s := by
  rw [begin_eq_iter_at, List.range_eq_range']
  apply range_loop_from r hr body n 0 fuel s hf
  · intro j _ hj
    exact hne j (by omega)
  · rw [Nat.zero_add]; exact hend

/-! ## Arithmetic of the block grid -/

theorem axis_block_lt (B b d : Nat) (hd : 1 ≤ d) (hb : b < (d - 1) / B + 1) :
    b * B < d := by
  have h1 : b ≤ (d - 1) / B := by omega
  have h2 : (d - 1) / B * B ≤ d - 1 := Nat.div_mul_le_self _ _
  have h3 : b * B ≤ (d - 1) / B * B := Nat.mul_le_mul_right _ h1
  omega

theorem axis_extent_bounds (B b d : Nat) (hB : 1 ≤ B) (hd : 1 ≤ d) (hb : b < (d - 1) / B + 1) :
    1 ≤ axis_extent B b d ∧ axis_extent B b d ≤ B ∧ b * B + axis_extent B b d ≤ d := by
  have h2 : (d - 1) / B * B ≤ d - 1 := Nat.div_mul_le_self _ _
  have h4 : d - 1 < ((d - 1) / B + 1) * B := by
    have := Nat.lt_div_mul_add (a := d - 1) (b := B) (by omega)
    calc d - 1 < (d - 1) / B * B + B := this
      _ = ((d - 1) / B + 1) * B := by ring
  unfold axis_extent
  split_ifs with h
  · have hb' : b = (d - 1) / B := by omega
    subst hb'
    have h5 : ((d - 1) / B + 1) * B = (d - 1) / B * B + B := by ring
    omega
  · have h1 : b + 1 ≤ (d - 1) / B := by omega
    have h3 : (b + 1) * B ≤ (d - 1) / B * B := Nat.mul_le_mul_right _ h1
    have h5 : (b + 1) * B = b * B + B := by ring
    omega

theorem axis_split (B g d : Nat) (hB : 1 ≤ B) (hg : g < d) :
    g / B < (d - 1) / B + 1 ∧ g % B < axis_extent B (g / B) d ∧ g / B * B + g % B = g := by
  have h1 : g / B ≤ (d - 1) / B := Nat.div_le_div_right (by omega)
  have h2 : g / B * B + g % B = g := Nat.div_add_mod' g B
  have h3 : g % B < B := Nat.mod_lt _ (by omega)
  refine ⟨by omega, ?_, h2⟩
  unfold axis_extent
  split_ifs with h
  · omega
  · exact h3

theorem axis_join (B b c d : Nat) (hB : 1 ≤ B) (hd : 1 ≤ d) (hb : b < (d - 1) / B + 1)
    (hc : c < axis_extent B b d) :
    b * B + c < d ∧ (b * B + c) / B = b ∧ (b * B + c) % B = c := by
  obtain ⟨_, h2, h3⟩ := axis_extent_bounds B b d hB hd hb
  have hcB : c < B := by omega
  refine ⟨by omega, ?_, ?_⟩
  · rw [Nat.add_comm, Nat.add_mul_div_right _ _ (by omega), Nat.div_eq_of_lt hcB]; simp
  · rw [Nat.add_comm, Nat.add_mul_mod_self_right, Nat.mod_eq_of_lt hcB]

theorem block_counts_length (D : List Nat) (B : Nat) : (block_counts D B).length = D.length := by
  simp [block_counts]

theorem block_counts_pos (D : List Nat) (B : Nat) : ∀ n ∈ block_counts D B, 1 ≤ n := by
  intro n hn
  simp only [block_counts, List.mem_map] at hn
  obtain ⟨d, _, rfl⟩ := hn
  exact Nat.le_add_left 1 _

theorem block_extents_length (D : List Nat) (B : Nat) (b : List Nat) (h : b.length = D.length) :
    (block_extents D B b).length = D.length := by
  simp [block_extents, h]

/-- Joining block indices and in-block indices gives coordinates inside the shape. -/
theorem join_lt (B : Nat) (hB : 1 ≤ B) (D : List Nat) (hD : ∀ d ∈ D, 1 ≤ d) (b c : List Nat)
    (hb : List.Forall₂ (fun c n => c < n) b (block_counts D B))
    (hc : List.Forall₂ (fun c n => c < n) c (block_extents D B b)) :
    List.Forall₂ (fun c n => c < n) (List.zipWith (fun x y => x * B + y) b c) D
    ∧ (List.zipWith (fun x y => x * B + y) b c).map (fun g => g / B) = b
    ∧ (List.zipWith (fun x y => x * B + y) b c).map (fun g => g % B) = c := by
  induction D generalizing b c with
  | nil =>
    simp only [block_counts, List.map_nil, List.forall₂_nil_right_iff] at hb
    subst hb
    simp only [block_extents, List.zipWith_nil_left, List.forall₂_nil_right_iff] at hc
    subst hc
    simp
  | cons d D ih =>
    simp only [block_counts, List.map_cons] at hb
    obtain ⟨b0, bs, hb0, hbs, rfl⟩ := List.forall₂_cons_right_iff.mp hb
    simp only [block_extents, List.zipWith_cons_cons] at hc
    obtain ⟨c0, cs, hc0, hcs, rfl⟩ := List.forall₂_cons_right_iff.mp hc
    obtain ⟨h1, h2, h3⟩ := ih (fun x hx => hD x (List.mem_cons_of_mem _ hx)) bs cs hbs hcs
    obtain ⟨a1, a2, a3⟩ := axis_join B b0 c0 d hB (hD d (List.mem_cons_self _ _)) hb0 hc0
    simp only [List.zipWith_cons_cons, List.map_cons]
    exact ⟨List.Forall₂.cons a1 h1, by rw [a2, h2], by rw [a3, h3]⟩

/-- Splitting coordinates inside the shape gives a block index and an in-block index. -/
theorem split_lt (B : Nat) (hB : 1 ≤ B) (D : List Nat) (g : List Nat)
    (hg : List.Forall₂ (fun c n => c < n) g D) :
    List.Forall₂ (fun c n => c < n) (g.map (fun x => x / B)) (block_counts D B)
    ∧ List.Forall₂ (fun c n => c < n) (g.map (fun x => x % B))
        (block_extents D B (g.map (fun x => x / B)))
    ∧ List.zipWith (fun x y => x * B + y) (g.map (fun x => x / B)) (g.map (fun x => x % B)) = g := by
  induction hg with
  | nil => simp [block_counts, block_extents]
  | @cons g0 d gs D h0 _ ih =>
    obtain ⟨h1, h2, h3⟩ := ih
    obtain ⟨a1, a2, a3⟩ := axis_split B g0 d hB h0
    simp only [block_counts, block_extents, List.map_cons, List.zipWith_cons_cons]
    exact ⟨List.Forall₂.cons a1 h1, List.Forall₂.cons a2 h2, by rw [a3, h3]⟩

theorem dot_zipWith_join (B : Nat) (b c W : List Nat) (h : b.length = c.length) :
    dot (List.zipWith (fun x y => x * B + y) b c) W
      = dot b (W.map (fun w => w * B)) + dot c W := by
  induction b generalizing c W with
  | nil =>
    cases c with
    | nil => simp
    | cons y c => simp at h
  | cons x b ih =>
    cases c with
    | nil => simp at h
    | cons y c =>
      cases W with
      | nil => simp
      | cons w W =>
        simp only [List.zipWith_cons_cons, List.map_cons, dot_cons]
        rw [ih c W (by simpa using h)]
        ring

/-- An in-block index lies inside the shape. -/
theorem extents_lt_shape (B : Nat) (hB : 1 ≤ B) (D : List Nat) (hD : ∀ d ∈ D, 1 ≤ d)
    (b c : List Nat)
    (hb : List.Forall₂ (fun c n => c < n) b (block_counts D B))
    (hc : List.Forall₂ (fun c n => c < n) c (block_extents D B b)) :
    List.Forall₂ (fun c n => c < n) c D := by
  induction D generalizing b c with
  | nil =>
    simp only [block_counts, List.map_nil, List.forall₂_nil_right_iff] at hb
    subst hb
    simpa [block_extents] using hc
  | cons d D ih =>
    simp only [block_counts, List.map_cons] at hb
    obtain ⟨b0, bs, hb0, hbs, rfl⟩ := List.forall₂_cons_right_iff.mp hb
    simp only [block_extents, List.zipWith_cons_cons] at hc
    obtain ⟨c0, cs, hc0, hcs, rfl⟩ := List.forall₂_cons_right_iff.mp hc
    obtain ⟨_, _, h3⟩ := axis_extent_bounds B b0 d hB (hD d (List.mem_cons_self _ _)) hb0
    exact List.Forall₂.cons (by omega)
      (ih (fun x hx => hD x (List.mem_cons_of_mem _ hx)) bs cs hbs hcs)

/-- Block indices scaled by the block size lie inside the shape. -/
theorem scaled_lt_shape (B : Nat) (D : List Nat) (hD : ∀ d ∈ D, 1 ≤ d) (b : List Nat)
    (hb : List.Forall₂ (fun c n => c < n) b (block_counts D B)) :
    List.Forall₂ (fun c n => c < n) (b.map (fun x => x * B)) D := by
  induction D generalizing b with
  | nil =>
    simp only [block_counts, List.map_nil, List.forall₂_nil_right_iff] at hb
    subst hb
    simp
  | cons d D ih =>
    simp only [block_counts, List.map_cons] at hb
    obtain ⟨b0, bs, hb0, hbs, rfl⟩ := List.forall₂_cons_right_iff.mp hb
    exact List.Forall₂.cons (axis_block_lt B b0 d (hD d (List.mem_cons_self _ _)) hb0)
      (ih (fun x hx => hD x (List.mem_cons_of_mem _ hx)) bs hbs)

theorem dot_map_mul_left (a b : List Nat) (m : Nat) :
    dot (a.map (fun x => x * m)) b = dot a b * m := by
  induction a generalizing b with
  | nil => simp
  | cons x a ih =>
    cases b with
    | nil => simp
    | cons y b => simp [ih]; ring

theorem extents_pos (B : Nat) (hB : 1 ≤ B) (D : List Nat) (hD : ∀ d ∈ D, 1 ≤ d) (b : List Nat)
    (hb : List.Forall₂ (fun c n => c < n) b (block_counts D B)) :
    ∀ e ∈ block_extents D B b, 1 ≤ e := by
  induction D generalizing b with
  | nil =>
    simp only [block_counts, List.map_nil, List.forall₂_nil_right_iff] at hb
    subst hb
    simp [block_extents]
  | cons d D ih =>
    simp only [block_counts, List.map_cons] at hb
    obtain ⟨b0, bs, hb0, hbs, rfl⟩ := List.forall₂_cons_right_iff.mp hb
    intro e he
    simp only [block_extents, List.zipWith_cons_cons, List.mem_cons] at he
    rcases he with rfl | he
    · exact (axis_extent_bounds B b0 d hB (hD d (List.mem_cons_self _ _)) hb0).1
    · exact ih (fun x hx => hD x (List.mem_cons_of_mem _ hx)) bs hbs e he

/-! ## The two ranges of the driver -/

theorem range_map_getD {β : Type} (l : List Nat) (f : Nat → β) :
    (List.range l.length).map (fun i => f (l.getD i 0)) = l.map f := by
  apply List.ext_getElem?
  intro j
  rw [List.getElem?_map, List.getElem?_map]
  by_cases hj : j < l.length
  · rw [List.getElem?_range hj, List.getElem?_eq_getElem hj]
    simp [List.getD_eq_getElem?_getD, List.getElem?_eq_getElem hj]
  · rw [List.getElem?_eq_none (by simpa using hj), List.getElem?_eq_none (by omega)]
    rfl

theorem range_map_zipWith {β : Type} (a b : List Nat) (f : Nat → Nat → β)
    (h : a.length = b.length) :
    (List.range b.length).map (fun i => f (a.getD i 0) (b.getD i 0)) = List.zipWith f a b := by
  apply List.ext_getElem?
  intro j
  rw [List.getElem?_map]
  by_cases hj : j < b.length
  · rw [List.getElem?_range hj]
    have h1 : (List.zipWith f a b)[j]? = some (f a[j] b[j]) := by
      rw [List.getElem?_eq_getElem (by simp; omega)]
      simp
    rw [h1]
    simp [List.getD_eq_getElem?_getD, List.getElem?_eq_getElem hj,
      List.getElem?_eq_getElem (show j < a.length by omega)]
  · rw [List.getElem?_eq_none (by simpa using hj),
      List.getElem?_eq_none (by simp; omega)]
    rfl

theorem create_inter (D : List Nat) (B : Nat) (hB : 1 ≤ B) (hD : ∀ d ∈ D, 1 ≤ d) :
    multi_dimensional_range.create D.length D B 0 = some (inter_range D B) := by
  rw [create_eq D B 0 hB hD]
  have h1 : (List.range D.length).map (fun i => (D.getD i 0 - 1) / B + 1) = block_counts D B :=
    range_map_getD D (fun d => (d - 1) / B + 1)
  have h2 : (fun w => B * w * 1) = (fun w => B * w) := by funext w; simp
  have h3 : (fun w => 1 * w * B) = (fun w => w * B) := by funext w; simp
  rw [h1, h2, h3]
  simp [inter_range]

theorem create_intra (D : List Nat) (hD : ∀ d ∈ D, 1 ≤ d) :
    ∃ X, multi_dimensional_range.create D.length D 1 0 = some X ∧ intra_like D X := by
  rw [create_eq D 1 0 (le_refl 1) hD]
  refine ⟨_, rfl, ?_⟩
  have h2 : (fun w => 1 * w * 1) = (fun w : Nat => w) := by funext w; simp
  simp [intra_like, h2]

theorem block_range_intra_like (D : List Nat) (B k : Nat) : intra_like D (block_range D B k) := by
  simp [intra_like, block_range, block_extents, unrank_length, block_counts_length]

theorem intra_block_dims_eq (D : List Nat) (B : Nat) (block : multi_dimensional_iterator)
    (h : block.current_index.length = D.length) :
    intra_block_dims D B (inter_range D B) block = block_extents D B block.current_index := by
  unfold intra_block_dims
  have := fill_loop_eq_map (fun i =>
      let cur_index := block.get_current_index i
      let dims := (inter_range D B).get_dimensions i
      if cur_index = dims - 1 then D.getD i 0 - cur_index * B else B) (List.replicate D.length 0)
  rw [List.length_replicate] at this
  rw [this, block_extents, ← range_map_zipWith _ _ _ h]
  apply List.map_congr_left
  intro i hi
  have hi' : i < D.length := List.mem_range.mp hi
  have h1 : (inter_range D B).get_dimensions i = (D.getD i 0 - 1) / B + 1 := by
    simp [multi_dimensional_range.get_dimensions, inter_range, block_counts,
      List.getD_eq_getElem?_getD, List.getElem?_eq_getElem hi']
  simp only [h1, multi_dimensional_iterator.get_current_index, axis_extent]

/-- Re-seating the intra-block range on block number `k` gives `block_range D B k`,
whatever the extents, offsets and start flags it carried before. -/
theorem reseat_eq (D : List Nat) (B k : Nat) (X : multi_dimensional_range)
    (hX : intra_like D X) :
    reseat D B (inter_range D B) X (iter_at (inter_range D B) k) = block_range D B k := by
  obtain ⟨h1, h2, h3, h4, h5, h6⟩ := hX
  have hb : (iter_at (inter_range D B) k).current_index = unrank (block_counts D B) k := rfl
  have hbl : (unrank (block_counts D B) k).length = D.length := by
    rw [unrank_length, block_counts_length]
  have hdims : intra_block_dims D B (inter_range D B) (iter_at (inter_range D B) k)
      = block_extents D B (unrank (block_counts D B) k) := by
    rw [intra_block_dims_eq _ _ _ (by rw [hb, hbl]), hb]
  have hset : multi_dimensional_range.set_dimensions_loop
      (block_extents D B (unrank (block_counts D B) k)) 0 X.dimensions
      = block_extents D B (unrank (block_counts D B) k) :=
    set_dimensions_loop_eq _ _ (by rw [block_extents_length _ _ _ hbl, h5])
  have hsp : fill_loop (fun i => (unrank (block_counts D B) k).getD i 0 == 0)
      X.start_position.length 0 X.start_position
      = (unrank (block_counts D B) k).map (fun x => x == 0) := by
    rw [fill_loop_eq_map, h6, ← hbl]
    exact range_map_getD _ (fun x => x == 0)
  have hoff : (iter_at (inter_range D B) k).current_offset
      = ((dot (unrank (block_counts D B) k) ((weights D).map (fun w => w * B)) : Nat) : Int) := by
    simp [iter_at, inter_range]
  cases X
  simp only at h1 h2 h3 h4 h5 h6 hset hsp
  subst h1 h2 h3 h4
  simp only [reseat, multi_dimensional_range.set_dimensions, multi_dimensional_range.set_offsets,
    multi_dimensional_range.set_starting_position, multi_dimensional_iterator.get_offset,
    multi_dimensional_iterator.get_current_index_vector, hdims, hset, hb, hsp, hoff, block_range]

theorem prod_le_prod_of_forall₂ (a b : List Nat) (h : List.Forall₂ (fun x y => x ≤ y) a b) :
    a.prod ≤ b.prod := by
  induction h with
  | nil => exact le_refl _
  | cons h0 _ ih =>
    simp only [List.prod_cons]
    exact Nat.mul_le_mul h0 ih

theorem block_counts_prod_le (D : List Nat) (B : Nat) (hD : ∀ d ∈ D, 1 ≤ d) :
    (block_counts D B).prod ≤ D.prod := by
  apply prod_le_prod_of_forall₂
  induction D with
  | nil => exact List.Forall₂.nil
  | cons d D ih =>
    refine List.Forall₂.cons ?_ (ih (fun x hx => hD x (List.mem_cons_of_mem _ hx)))
    have := hD d (List.mem_cons_self _ _)
    have h2 : (d - 1) / B ≤ d - 1 := Nat.div_le_self _ _
    show (d - 1) / B + 1 ≤ d
    omega

theorem block_extents_prod_le (B : Nat) (hB : 1 ≤ B) (D : List Nat) (hD : ∀ d ∈ D, 1 ≤ d)
    (b : List Nat) (hb : List.Forall₂ (fun c n => c < n) b (block_counts D B)) :
    (block_extents D B b).prod ≤ D.prod := by
  apply prod_le_prod_of_forall₂
  induction D generalizing b with
  | nil =>
    simp only [block_counts, List.map_nil, List.forall₂_nil_right_iff] at hb
    subst hb
    exact List.Forall₂.nil
  | cons d D ih =>
    simp only [block_counts, List.map_cons] at hb
    obtain ⟨b0, bs, hb0, hbs, rfl⟩ := List.forall₂_cons_right_iff.mp hb
    obtain ⟨_, _, h3⟩ := axis_extent_bounds B b0 d hB (hD d (List.mem_cons_self _ _)) hb0
    exact List.Forall₂.cons (by omega)
      (ih (fun x hx => hD x (List.mem_cons_of_mem _ hx)) bs hbs)

/-! ## Termination of the two loops and the nested loops as one fold -/

/-- If the strides of the later axes cannot add up to the stride of the first axis, the
iterator meets `end_offset` after exactly as many increments as the product of the
extents, and not before. -/
theorem no_early_end (r : multi_dimensional_range) (n0 s0 : Nat) (nt st : List Nat)
    (hd : r.dimensions = n0 :: nt) (hs : r.dim_strides = s0 :: st)
    (hend : r.end_offset = r.start_offset + ((n0 * s0 : Nat) : Int))
    (hpos : 0 < nt.prod)
    (htail : ∀ cs, List.Forall₂ (fun c n => c < n) cs nt → dot cs st < s0) :
    (∀ j, j < r.dimensions.prod → (iter_at r j).current_offset ≠ r.end_offset)
    ∧ (iter_at r r.dimensions.prod).current_offset = r.end_offset := by
  constructor
  · intro j hj
    rw [hd, List.prod_cons] at hj
    have h1 := htail _ (unrank_lt nt (j % nt.prod) (Nat.mod_lt _ hpos))
    have h2 : j / nt.prod < n0 := (Nat.div_lt_iff_lt_mul hpos).mpr hj
    have h3 : (j / nt.prod + 1) * s0 ≤ n0 * s0 := Nat.mul_le_mul_right _ h2
    have h4 : (j / nt.prod + 1) * s0 = j / nt.prod * s0 + s0 := by ring
    simp only [iter_at, hd, hs, unrank, dot_cons, hend]
    intro hcon
    have hcon2 : ((j / nt.prod * s0 + dot (unrank nt (j % nt.prod)) st : Nat) : Int)
        = ((n0 * s0 : Nat) : Int) := by linarith
    have hcon3 := Int.ofNat_inj.mp hcon2
    omega
  · simp only [iter_at, hd, hs, unrank_prod n0 nt hpos, dot_cons, dot_replicate_zero, hend,
      add_zero]

theorem prod_pos_of_pos (l : List Nat) (h : ∀ d ∈ l, 1 ≤ d) : 0 < l.prod :=
  List.prod_pos (fun d hd => h d hd)

theorem inter_range_well_formed (D : List Nat) (B : Nat) (hne : D ≠ []) :
    well_formed (inter_range D B) := by
  refine ⟨?_, ?_, block_counts_pos D B⟩
  · intro h
    have := congrArg List.length h
    simp [inter_range, block_counts] at this
    exact hne this
  · simp [inter_range, block_counts, weights_length]

theorem inter_range_end (D : List Nat) (B : Nat) (hB : 1 ≤ B) (hne : D ≠ [])
    (hD : ∀ d ∈ D, 1 ≤ d) :
    (∀ j, j < (block_counts D B).prod →
        (iter_at (inter_range D B) j).current_offset ≠ (inter_range D B).end_offset)
    ∧ (iter_at (inter_range D B) (block_counts D B).prod).current_offset
        = (inter_range D B).end_offset := by
  obtain ⟨d0, Dt, rfl⟩ := List.exists_cons_of_ne_nil hne
  have hDt : ∀ d ∈ Dt, 1 ≤ d := fun x hx => hD x (List.mem_cons_of_mem _ hx)
  apply no_early_end (inter_range (d0 :: Dt) B) ((d0 - 1) / B + 1) (Dt.prod * B)
    (block_counts Dt B) ((weights Dt).map (fun w => w * B))
  · rfl
  · rfl
  · simp [inter_range, block_counts, weights]
  · exact prod_pos_of_pos _ (block_counts_pos Dt B)
  · intro cs hcs
    rw [dot_map_mul_right, ← dot_map_mul_left]
    have h1 := (dot_lt_and_unrank _ _ (scaled_lt_shape B Dt hDt cs hcs)).1
    have h2 : Dt.prod ≤ Dt.prod * B := Nat.le_mul_of_pos_right _ hB
    omega

theorem block_index_lt (D : List Nat) (B k : Nat) (hk : k < (block_counts D B).prod) :
    List.Forall₂ (fun c n => c < n) (unrank (block_counts D B) k) (block_counts D B) :=
  unrank_lt _ _ hk

theorem block_range_well_formed (D : List Nat) (B k : Nat) (hB : 1 ≤ B) (hne : D ≠ [])
    (hD : ∀ d ∈ D, 1 ≤ d) (hk : k < (block_counts D B).prod) :
    well_formed (block_range D B k) := by
  have hbl : (unrank (block_counts D B) k).length = D.length := by
    rw [unrank_length, block_counts_length]
  refine ⟨?_, ?_, ?_⟩
  · intro h
    have := congrArg List.length h
    simp only [block_range, block_extents_length _ _ _ hbl, List.length_nil] at this
    exact hne (List.length_eq_zero.mp this)
  · simp only [block_range, block_extents_length _ _ _ hbl, weights_length]
  · exact extents_pos B hB D hD _ (block_index_lt D B k hk)

theorem block_range_end (D : List Nat) (B k : Nat) (hB : 1 ≤ B) (hne : D ≠ [])
    (hD : ∀ d ∈ D, 1 ≤ d) (hk : k < (block_counts D B).prod) :
    (∀ j, j < (block_range D B k).dimensions.prod →
        (iter_at (block_range D B k) j).current_offset ≠ (block_range D B k).end_offset)
    ∧ (iter_at (block_range D B k) (block_range D B k).dimensions.prod).current_offset
        = (block_range D B k).end_offset := by
  have hb := block_index_lt D B k hk
  obtain ⟨d0, Dt, rfl⟩ := List.exists_cons_of_ne_nil hne
  have hDt : ∀ d ∈ Dt, 1 ≤ d := fun x hx => hD x (List.mem_cons_of_mem _ hx)
  have hb' := hb
  simp only [block_counts, List.map_cons] at hb'
  obtain ⟨b0, bs, hb0, hbs, hbe⟩ := List.forall₂_cons_right_iff.mp hb'
  have hbe' : unrank (block_counts (d0 :: Dt) B) k = b0 :: bs := hbe
  have hpos := extents_pos B hB (d0 :: Dt) hD _ hb
  apply no_early_end (block_range (d0 :: Dt) B k) (axis_extent B b0 d0) Dt.prod
    (block_extents Dt B bs) (weights Dt)
  · simp only [block_range, hbe', block_extents, List.zipWith_cons_cons]
  · rfl
  · simp only [block_range, hbe', block_extents, List.zipWith_cons_cons, weights,
      List.getD_cons_zero]
  · apply prod_pos_of_pos
    intro e he
    apply hpos
    rw [hbe']
    simp only [block_extents, List.zipWith_cons_cons]
    exact List.mem_cons_of_mem _ he
  · intro cs hcs
    exact (dot_lt_and_unrank _ _ (extents_lt_shape B hB Dt hDt bs cs hbs hcs)).1

theorem opt_fold_cons {α S : Type} (step : α → S → Option S) (a : α) (l : List α) (s : S) :
    opt_fold step (a :: l) s = (step a s).bind (opt_fold step l) := by
  simp only [opt_fold]
  cases step a s <;> rfl

theorem block_events_fold {S : Type} (D : List Nat) (B : Nat)
    (block_pre : multi_dimensional_range → S → S)
    (elem : multi_dimensional_range → multi_dimensional_iterator → S → Option S)
    (k : Nat) (s : S) :
    opt_fold (run_event D B block_pre elem)
        ((k, none) :: (List.range (block_range D B k).dimensions.prod).map
          (fun j => (k, some j))) s
      = opt_fold (fun j => elem (block_range D B k) (iter_at (block_range D B k) j))
          (List.range (block_range D B k).dimensions.prod) (block_pre (block_range D B k) s) := by
  rw [opt_fold_cons]
  show opt_fold (run_event D B block_pre elem) _ (block_pre (block_range D B k) s) = _
  rw [opt_fold_map]
  rfl

/-- The body of the block loop, on block number `k`. -/
theorem block_body_eq {S : Type} (D : List Nat) (B : Nat) (hB : 1 ≤ B) (hne : D ≠ [])
    (hD : ∀ d ∈ D, 1 ≤ d)
    (block_pre : multi_dimensional_range → S → S)
    (elem : multi_dimensional_range → multi_dimensional_iterator → S → Option S)
    (fuel : Nat) (hf : D.prod < fuel) (k : Nat) (hk : k < (block_counts D B).prod)
    (X : multi_dimensional_range) (hX : intra_like D X) (s : S) :
    (match range_loop (reseat D B (inter_range D B) X (iter_at (inter_range D B) k))
        (elem (reseat D B (inter_range D B) X (iter_at (inter_range D B) k))) fuel
        (reseat D B (inter_range D B) X (iter_at (inter_range D B) k)).begin
        (block_pre (reseat D B (inter_range D B) X (iter_at (inter_range D B) k)) s) with
      | none => none
      | some s1 => some (reseat D B (inter_range D B) X (iter_at (inter_range D B) k), s1))
    = (opt_fold (run_event D B block_pre elem)
        ((k, none) :: (List.range (block_range D B k).dimensions.prod).map
          (fun j => (k, some j))) s).map (fun s1 => (block_range D B k, s1)) := by
  obtain ⟨he1, he2⟩ := block_range_end D B k hB hne hD hk
  have hvol : (block_range D B k).dimensions.prod < fuel :=
    lt_of_le_of_lt (block_extents_prod_le B hB D hD _ (block_index_lt D B k hk)) hf
  rw [reseat_eq D B k X hX, block_events_fold,
    range_loop_eq (block_range D B k) (block_range_well_formed D B k hB hne hD hk) _
      (block_range D B k).dimensions.prod fuel _ hvol he1 he2]
  cases opt_fold (fun j => elem (block_range D B k) (iter_at (block_range D B k) j))
      (List.range (block_range D B k).dimensions.prod) (block_pre (block_range D B k) s) <;> rfl

/-- The nested loops of the driver run the steps listed by `events`, in that order. -/
theorem block_loop_eq_events {S : Type} (D : List Nat) (B : Nat) (hB : 1 ≤ B) (hne : D ≠ [])
    (hD : ∀ d ∈ D, 1 ≤ d)
    (block_pre : multi_dimensional_range → S → S)
    (elem : multi_dimensional_range → multi_dimensional_iterator → S → Option S)
    (fuel : Nat) (hf : D.prod < fuel) (X : multi_dimensional_range) (hX : intra_like D X)
    (s : S) :
    (block_loop D B block_pre elem fuel (inter_range D B) X s).map Prod.snd
      = opt_fold (run_event D B block_pre elem) (events D B) s := by
  obtain ⟨hin1, hin2⟩ := inter_range_end D B hB hne hD
  unfold block_loop
  rw [range_loop_eq (inter_range D B) (inter_range_well_formed D B hne) _
    (block_counts D B).prod fuel _ (lt_of_le_of_lt (block_counts_prod_le D B hD) hf) hin1 hin2]
  rw [events, opt_fold_flatMap]
  have key : ∀ (l : List Nat), (∀ k ∈ l, k < (block_counts D B).prod) →
      ∀ (X : multi_dimensional_range) (s : S), intra_like D X →
      (opt_fold (fun k (st : multi_dimensional_range × S) =>
          match range_loop (reseat D B (inter_range D B) st.1 (iter_at (inter_range D B) k))
              (elem (reseat D B (inter_range D B) st.1 (iter_at (inter_range D B) k))) fuel
              (reseat D B (inter_range D B) st.1 (iter_at (inter_range D B) k)).begin
              (block_pre (reseat D B (inter_range D B) st.1 (iter_at (inter_range D B) k)) st.2)
          with
          | none => none
          | some s1 =>
            some (reseat D B (inter_range D B) st.1 (iter_at (inter_range D B) k), s1))
        l (X, s)).map Prod.snd
      = opt_fold (fun k => opt_fold (run_event D B block_pre elem)
          ((k, none) :: (List.range (block_range D B k).dimensions.prod).map
            (fun j => (k, some j)))) l s := by
    intro l
    induction l with
    | nil => intro _ X s _; rfl
    | cons k l ih =>
      intro hl X s hX
      have hk : k < (block_counts D B).prod := hl k (List.mem_cons_self _ _)
      rw [opt_fold_cons, opt_fold_cons]
      have hb := block_body_eq D B hB hne hD block_pre elem fuel hf k hk X hX s
      simp only at hb ⊢
      rw [hb]
      cases opt_fold (run_event D B block_pre elem)
          ((k, none) :: (List.range (block_range D B k).dimensions.prod).map
            (fun j => (k, some j))) s with
      | none => rfl
      | some s1 =>
        exact ih (fun k' hk' => hl k' (List.mem_cons_of_mem _ hk')) _ s1
          (block_range_intra_like D B k)
  exact key _ (fun k hk => List.mem_range.mp hk) X s hX

/-! ## The offsets visited by the nested loops -/

theorem block_range_dimensions (D : List Nat) (B k : Nat) :
    (block_range D B k).dimensions = block_extents D B (unrank (block_counts D B) k) := rfl

/-- Element `j` of block `k` sits at the row-major offset of its global coordinates, which
lie inside the shape and determine `k` and `j`. -/
theorem coords_spec (D : List Nat) (B : Nat) (hB : 1 ≤ B) (hD : ∀ d ∈ D, 1 ≤ d) (k j : Nat)
    (hk : k < (block_counts D B).prod) (hj : j < (block_range D B k).dimensions.prod) :
    List.Forall₂ (fun c n => c < n) (global_coords D B k j) D
    ∧ (global_coords D B k j).map (fun g => g / B) = unrank (block_counts D B) k
    ∧ (global_coords D B k j).map (fun g => g % B) = unrank (block_range D B k).dimensions j
    ∧ (iter_at (block_range D B k) j).current_offset
        = ((dot (global_coords D B k j) (weights D) : Nat) : Int) := by
  have hb := block_index_lt D B k hk
  have hc := unrank_lt _ _ hj
  obtain ⟨h1, h2, h3⟩ := join_lt B hB D hD _ _ hb hc
  refine ⟨h1, h2, h3, ?_⟩
  have hlen : (unrank (block_counts D B) k).length
      = (unrank (block_range D B k).dimensions j).length := by
    rw [unrank_length, unrank_length, block_counts_length, block_range_dimensions,
      block_extents_length _ _ _ (by rw [unrank_length, block_counts_length])]
  rw [global_coords, dot_zipWith_join _ _ _ _ hlen]
  simp only [iter_at, block_range]
  push_cast
  rfl

theorem coords_lt (D : List Nat) (B : Nat) (hB : 1 ≤ B) (hD : ∀ d ∈ D, 1 ≤ d) (k j : Nat)
    (hk : k < (block_counts D B).prod) (hj : j < (block_range D B k).dimensions.prod) :
    dot (global_coords D B k j) (weights D) < D.prod :=
  (dot_lt_and_unrank _ _ (coords_spec D B hB hD k j hk hj).1).1

theorem coords_inj (D : List Nat) (B : Nat) (hB : 1 ≤ B) (hD : ∀ d ∈ D, 1 ≤ d)
    (k j k' j' : Nat)
    (hk : k < (block_counts D B).prod) (hj : j < (block_range D B k).dimensions.prod)
    (hk' : k' < (block_counts D B).prod) (hj' : j' < (block_range D B k').dimensions.prod)
    (h : dot (global_coords D B k j) (weights D) = dot (global_coords D B k' j') (weights D)) :
    k = k' ∧ j = j' := by
  obtain ⟨a1, a2, a3, _⟩ := coords_spec D B hB hD k j hk hj
  obtain ⟨b1, b2, b3, _⟩ := coords_spec D B hB hD k' j' hk' hj'
  have hg : global_coords D B k j = global_coords D B k' j' := by
    rw [← (dot_lt_and_unrank _ _ a1).2, ← (dot_lt_and_unrank _ _ b1).2, h]
  have hkk : k = k' := by
    have e1 := dot_unrank_lt _ _ hk
    have e2 := dot_unrank_lt _ _ hk'
    rw [← a2, hg, b2] at e1
    omega
  subst hkk
  refine ⟨rfl, ?_⟩
  have e1 := dot_unrank_lt _ _ hj
  have e2 := dot_unrank_lt _ _ hj'
  rw [← a3, hg, b3] at e1
  omega

theorem coords_surj (D : List Nat) (B : Nat) (hB : 1 ≤ B) (o : Nat) (ho : o < D.prod) :
    ∃ k j, k < (block_counts D B).prod ∧ j < (block_range D B k).dimensions.prod
      ∧ dot (global_coords D B k j) (weights D) = o := by
  have hg := unrank_lt D o ho
  obtain ⟨h1, h2, h3⟩ := split_lt B hB D _ hg
  obtain ⟨k1, k2⟩ := dot_lt_and_unrank _ _ h1
  obtain ⟨j1, j2⟩ := dot_lt_and_unrank _ _ h2
  refine ⟨dot ((unrank D o).map (fun x => x / B)) (weights (block_counts D B)),
    dot ((unrank D o).map (fun x => x % B))
      (weights (block_extents D B ((unrank D o).map (fun x => x / B)))), k1, ?_, ?_⟩
  · rw [block_range_dimensions, k2]; exact j1
  · rw [global_coords, block_range_dimensions, k2, j2, h3]
    exact dot_unrank_lt D o ho

/-- The offsets of the visited elements, block by block. -/
theorem element_offsets_eq (D : List Nat) (B : Nat) (hB : 1 ≤ B) (hD : ∀ d ∈ D, 1 ≤ d) :
    element_offsets D B =
      ((List.range (block_counts D B).prod).flatMap (fun k =>
        (List.range (block_range D B k).dimensions.prod).map (fun j =>
          dot (global_coords D B k j) (weights D)))).map (fun o : Nat => (o : Int)) := by
  rw [element_offsets, events, List.filterMap_flatMap, List.map_flatMap]
  apply List.flatMap_congr
  intro k hk
  have hk' : k < (block_counts D B).prod := List.mem_range.mp hk
  rw [List.filterMap_cons]
  simp only [event_offset, Option.map_none', List.filterMap_map, List.map_map]
  rw [← List.filterMap_eq_map]
  apply List.filterMap_congr
  intro j hj
  have hj' : j < (block_range D B k).dimensions.prod := List.mem_range.mp hj
  simp only [Function.comp, event_offset, Option.map_some',
    (coords_spec D B hB hD k j hk' hj').2.2.2]

theorem nat_offsets_nodup (D : List Nat) (B : Nat) (hB : 1 ≤ B) (hD : ∀ d ∈ D, 1 ≤ d) :
    ((List.range (block_counts D B).prod).flatMap (fun k =>
        (List.range (block_range D B k).dimensions.prod).map (fun j =>
          dot (global_coords D B k j) (weights D)))).Nodup := by
  rw [List.nodup_flatMap]
  constructor
  · intro k hk
    have hk' : k < (block_counts D B).prod := List.mem_range.mp hk
    apply List.Nodup.map_on _ (List.nodup_range _)
    intro j hj j' hj' h
    exact (coords_inj D B hB hD k j k j' hk' (List.mem_range.mp hj) hk' (List.mem_range.mp hj')
      h).2
  · apply List.Pairwise.imp_of_mem _ (List.nodup_range _)
    intro k k' hk hk' hne
    have hk1 : k < (block_counts D B).prod := List.mem_range.mp hk
    have hk2 : k' < (block_counts D B).prod := List.mem_range.mp hk'
    simp only [Function.onFun, List.disjoint_left, List.mem_map, List.mem_range]
    rintro o ⟨j, hj, rfl⟩ ⟨j', hj', h⟩
    exact hne (coords_inj D B hB hD k j k' j' hk1 hj hk2 hj' h.symm).1

theorem nat_offsets_mem (D : List Nat) (B : Nat) (hB : 1 ≤ B) (hD : ∀ d ∈ D, 1 ≤ d) (o : Nat) :
    o ∈ (List.range (block_counts D B).prod).flatMap (fun k =>
        (List.range (block_range D B k).dimensions.prod).map (fun j =>
          dot (global_coords D B k j) (weights D))) ↔ o < D.prod := by
  simp only [List.mem_flatMap, List.mem_map, List.mem_range]
  constructor
  · rintro ⟨k, hk, j, hj, rfl⟩
    exact coords_lt D B hB hD k j hk hj
  · intro ho
    obtain ⟨k, j, hk, hj, h⟩ := coords_surj D B hB o ho
    exact ⟨k, hk, j, hj, h⟩

/-- The visited offsets are a rearrangement of `0, .., P - 1`. -/
theorem element_offsets_perm (D : List Nat) (B : Nat) (hB : 1 ≤ B) (hD : ∀ d ∈ D, 1 ≤ d) :
    (element_offsets D B).Perm ((List.range D.prod).map (fun o : Nat => (o : Int))) := by
  rw [element_offsets_eq D B hB hD]
  apply List.Perm.map
  rw [List.perm_ext_iff_of_nodup (nat_offsets_nodup D B hB hD) (List.nodup_range _)]
  intro o
  rw [nat_offsets_mem D B hB hD, List.mem_range]

theorem element_offsets_length (D : List Nat) (B : Nat) (hB : 1 ≤ B) (hD : ∀ d ∈ D, 1 ≤ d) :
    (element_offsets D B).length = D.prod := by
  rw [(element_offsets_perm D B hB hD).length_eq]; simp

theorem element_offsets_nodup (D : List Nat) (B : Nat) (hB : 1 ≤ B) (hD : ∀ d ∈ D, 1 ≤ d) :
    (element_offsets D B).Nodup := by
  rw [(element_offsets_perm D B hB hD).nodup_iff]
  exact (List.nodup_range _).map (fun a b h => Int.ofNat_inj.mp h)

/-! ## The traversals of `compress` and `decompress` as folds over the steps -/

theorem record_fold (D : List Nat) (B : Nat) (l : List (Nat × Option Nat)) (s : List Int) :
    opt_fold (run_event D B (fun _ s => s) record_offset) l s
      = some (s ++ l.filterMap (event_offset D B)) := by
  induction l generalizing s with
  | nil => simp [opt_fold]
  | cons e l ih =>
    obtain ⟨k, oj⟩ := e
    cases oj with
    | none =>
      rw [opt_fold_cons]
      show opt_fold _ l s = _
      rw [ih]
      simp [event_offset]
    | some j =>
      rw [opt_fold_cons]
      show opt_fold _ l (s ++ [(iter_at (block_range D B k) j).current_offset]) = _
      rw [ih]
      simp [event_offset]

theorem visited_offsets_eq (D : List Nat) (B fuel : Nat) (hB : 1 ≤ B) (hne : D ≠ [])
    (hD : ∀ d ∈ D, 1 ≤ d) (hf : D.prod < fuel) :
    visited_offsets fuel D B = some (element_offsets D B) := by
  obtain ⟨X, hX1, hX2⟩ := create_intra D hD
  have h := block_loop_eq_events D B hB hne hD (fun _ s => s) record_offset fuel hf X hX2
    ([] : List Int)
  rw [record_fold] at h
  unfold visited_offsets
  rw [create_inter _ _ hB hD, hX1]
  simp only
  cases hb : block_loop D B (fun _ s => s) record_offset fuel (inter_range D B) X [] with
  | none => rw [hb] at h; simp at h
  | some res =>
    rw [hb] at h
    simp only [Option.map_some', Option.some.injEq, List.nil_append] at h
    simp only [h, element_offsets]

theorem count_elements_eq_prod (D : List Nat) : count_elements D = D.prod := by
  rw [count_elements, List.prod_eq_foldl]

theorem compress_traversal_eq {T σP σQ σE : Type} (P : Predictor T σP) (Q : Quantizer T σQ)
    (fuel : Nat) (c : SZ_General_Compressor σP σQ σE) (data_ : List T)
    (hB : 1 ≤ c.block_size) (hne : c.global_dimensions ≠ [])
    (hD : ∀ d ∈ c.global_dimensions, 1 ≤ d) (hf : c.global_dimensions.prod < fuel)
    (hlen : c.num_elements ≤ data_.length) :
    compress_traversal P Q fuel c data_ =
      (opt_fold (run_event c.global_dimensions c.block_size (compress_block_pre P Q)
          (compress_element P Q)) (events c.global_dimensions c.block_size)
          (compress_start P Q c data_)).map (compress_finish P Q c) := by
  obtain ⟨X, hX1, hX2⟩ := create_intra c.global_dimensions hD
  have h := block_loop_eq_events c.global_dimensions c.block_size hB hne hD
    (compress_block_pre P Q) (compress_element P Q) fuel hf X hX2 (compress_start P Q c data_)
  unfold compress_traversal
  rw [if_neg (by omega)]
  simp only [create_inter _ _ hB hD, hX1]
  rw [← h]
  show (match block_loop c.global_dimensions c.block_size (compress_block_pre P Q)
      (compress_element P Q) fuel (inter_range c.global_dimensions c.block_size) X
      (compress_start P Q c data_) with
    | none => none
    | some res => some (compress_finish P Q c res.2)) = _
  cases block_loop c.global_dimensions c.block_size (compress_block_pre P Q)
      (compress_element P Q) fuel (inter_range c.global_dimensions c.block_size) X
      (compress_start P Q c data_) <;> rfl

/-- Invariant reasoning over a fold: if the invariant holds at the start and every step
taken after a prefix of the list succeeds and re-establishes it, the fold succeeds and
the invariant holds of the whole list. -/
theorem opt_fold_inv {α S : Type} (step : α → S → Option S) (Inv : List α → S → Prop)
    (l : List α) (s0 : S) (h0 : Inv [] s0)
    (hstep : ∀ pfx a rest s, l = pfx ++ a :: rest → Inv pfx s →
      ∃ s1, step a s = some s1 ∧ Inv (pfx ++ [a]) s1) :
    ∃ s1, opt_fold step l s0 = some s1 ∧ Inv l s1 := by
  have key : ∀ (l2 pfx : List α) (s : S), l = pfx ++ l2 → Inv pfx s →
      ∃ s1, opt_fold step l2 s = some s1 ∧ Inv l s1 := by
    intro l2
    induction l2 with
    | nil =>
      intro pfx s hl hi
      rw [List.append_nil] at hl
      exact ⟨s, rfl, hl ▸ hi⟩
    | cons a l2 ih =>
      intro pfx s hl hi
      obtain ⟨s1, h1, h2⟩ := hstep pfx a l2 s hl hi
      obtain ⟨s2, h3, h4⟩ := ih (pfx ++ [a]) s1 (by rw [hl]; simp) h2
      exact ⟨s2, by rw [opt_fold_cons, h1]; exact h3, h4⟩
  exact key l [] s0 rfl h0

theorem mem_events (D : List Nat) (B k j : Nat) (h : (k, some j) ∈ events D B) :
    k < (block_counts D B).prod ∧ j < (block_range D B k).dimensions.prod := by
  simp only [events, List.mem_flatMap, List.mem_range, List.mem_cons, Prod.mk.injEq,
    List.mem_map] at h
  obtain ⟨k', hk', h⟩ := h
  rcases h with ⟨_, h⟩ | ⟨j', hj', h1, h2⟩
  · simp at h
  · simp only [Option.some.injEq] at h2
    subst h1 h2
    exact ⟨hk', hj'⟩

/-- The offset of an element step lies inside the array, and the elements visited before
it are fewer than the elements of the array. -/
theorem event_in_range (D : List Nat) (B : Nat) (hB : 1 ≤ B) (hD : ∀ d ∈ D, 1 ≤ d)
    (pfx rest : List (Nat × Option Nat)) (k j : Nat)
    (h : events D B = pfx ++ (k, some j) :: rest) :
    (∃ o : Nat, (iter_at (block_range D B k) j).current_offset = (o : Int) ∧ o < D.prod)
    ∧ (pfx.filterMap (event_offset D B)).length < D.prod := by
  have hm : (k, some j) ∈ events D B := by rw [h]; simp
  obtain ⟨hk, hj⟩ := mem_events D B k j hm
  constructor
  · exact ⟨_, (coords_spec D B hB hD k j hk hj).2.2.2, coords_lt D B hB hD k j hk hj⟩
  · have hl := element_offsets_length D B hB hD
    rw [element_offsets, h, List.filterMap_append, List.filterMap_cons] at hl
    simp only [event_offset, Option.map_some', List.length_append, List.length_cons] at hl
    omega

theorem read_at_nat {T : Type} (data : List T) (o : Nat) : read_at data (o : Int) = data[o]? := by
  simp [read_at]

theorem write_at_nat {T : Type} (data : List T) (o : Nat) (v : T) (h : o < data.length) :
    write_at data (o : Int) v = some (data.set o v) := by
  simp [write_at, h]

theorem compress_element_eq {T σP σQ : Type} (P : Predictor T σP) (Q : Quantizer T σQ)
    (r : multi_dimensional_range) (element : multi_dimensional_iterator)
    (s : compress_state T σP σQ) (o : Nat) (ho : element.current_offset = (o : Int))
    (hlt : o < s.data.length) (hc : s.count < s.quant_inds.length)
    (hc31 : s.count + 1 < 2 ^ 31) :
    ∃ x, s.data[o]? = some x ∧
    compress_element P Q r element s = some
      { data := s.data.set o (Q.quantize_and_overwrite s.quantizer x
          (P.predict s.predictor r element s.data)).2.1
        quant_inds := s.quant_inds.set s.count (to_int (Q.quantize_and_overwrite s.quantizer x
          (P.predict s.predictor r element s.data)).1)
        count := s.count + 1
        predictor := s.predictor
        quantizer := (Q.quantize_and_overwrite s.quantizer x
          (P.predict s.predictor r element s.data)).2.2
        predictions := s.predictions ++ [P.predict s.predictor r element s.data] } := by
  refine ⟨s.data[o], List.getElem?_eq_getElem hlt, ?_⟩
  unfold compress_element
  simp only [multi_dimensional_iterator.deref, multi_dimensional_iterator.assign, ho,
    read_at_nat, List.getElem?_eq_getElem hlt, write_at_nat _ _ _ hlt,
    if_pos (And.intro hc hc31)]

/-- The traversal of `compress` succeeds and records one index per element. -/
theorem compress_run {T σP σQ σE : Type} (P : Predictor T σP) (Q : Quantizer T σQ)
    (c : SZ_General_Compressor σP σQ σE) (data_ : List T)
    (hB : 1 ≤ c.block_size) (hD : ∀ d ∈ c.global_dimensions, 1 ≤ d)
    (hn : c.num_elements = c.global_dimensions.prod) (hlen : c.num_elements ≤ data_.length)
    (h31 : c.global_dimensions.prod < 2 ^ 31) :
    ∃ s1, opt_fold (run_event c.global_dimensions c.block_size (compress_block_pre P Q)
          (compress_element P Q)) (events c.global_dimensions c.block_size)
          (compress_start P Q c data_) = some s1
      ∧ s1.data.length = c.global_dimensions.prod
      ∧ s1.quant_inds.length = c.global_dimensions.prod
      ∧ s1.count = c.global_dimensions.prod
      ∧ s1.predictions.length = c.global_dimensions.prod := by
  have key := opt_fold_inv (run_event c.global_dimensions c.block_size (compress_block_pre P Q)
      (compress_element P Q))
    (fun pfx s => s.data.length = c.global_dimensions.prod
      ∧ s.quant_inds.length = c.global_dimensions.prod
      ∧ s.count = (pfx.filterMap (event_offset c.global_dimensions c.block_size)).length
      ∧ s.predictions.length
          = (pfx.filterMap (event_offset c.global_dimensions c.block_size)).length)
    (events c.global_dimensions c.block_size) (compress_start P Q c data_)
    (by
      refine ⟨?_, ?_, rfl, rfl⟩
      · simp only [compress_start, List.length_take]; omega
      · simp only [compress_start, List.length_replicate]; omega)
    (by
      rintro pfx ⟨k, oj⟩ rest s hl ⟨h1, h2, h3, h4⟩
      cases oj with
      | none =>
        refine ⟨compress_block_pre P Q (block_range c.global_dimensions c.block_size k) s, rfl,
          h1, h2, ?_, ?_⟩
        · simp only [List.filterMap_append, List.filterMap_cons, event_offset, Option.map_none',
            List.filterMap_nil, List.append_nil]
          exact h3
        · simp only [List.filterMap_append, List.filterMap_cons, event_offset, Option.map_none',
            List.filterMap_nil, List.append_nil]
          exact h4
      | some j =>
        obtain ⟨⟨o, ho, holt⟩, hcnt⟩ := event_in_range c.global_dimensions c.block_size hB hD
          pfx rest k j hl
        obtain ⟨x, _, hx⟩ := compress_element_eq P Q
          (block_range c.global_dimensions c.block_size k)
          (iter_at (block_range c.global_dimensions c.block_size k) j) s o ho (by omega)
          (by omega) (by omega)
        refine ⟨_, hx, ?_, ?_, ?_, ?_⟩
        · simp only [List.length_set]; exact h1
        · simp only [List.length_set]; exact h2
        · simp only [List.filterMap_append, List.filterMap_cons, event_offset, Option.map_some',
            List.filterMap_nil, List.length_append, List.length_singleton, h3]
        · simp only [List.filterMap_append, List.filterMap_cons, event_offset, Option.map_some',
            List.filterMap_nil, List.length_append, List.length_singleton, h4])
  obtain ⟨s1, hs, g1, g2, g3, g4⟩ := key
  have hl := element_offsets_length c.global_dimensions c.block_size hB hD
  rw [element_offsets] at hl
  exact ⟨s1, hs, g1, g2, by rw [g3, hl], by rw [g4, hl]⟩

/-! ## `operator--` and `prev` -/

/-- The loop of `operator--` never runs its body: its condition compares an unsigned
index with 0. -/
theorem decr_loop_eq (r : multi_dimensional_range) (i : Nat) (idx : List Nat) (off : Int) :
    multi_dimensional_iterator.decr_loop r i idx off = (idx, off) := by
  cases i with
  | zero => rfl
  | succ i =>
    rw [multi_dimensional_iterator.decr_loop, if_neg (Nat.not_lt_zero _)]

theorem range'_sum_succ (f : Nat → Int) (i k : Nat) :
    ((List.range' i (k + 1)).map f).sum = f i + ((List.range' (i + 1) k).map f).sum := by
  simp [List.range'_succ]

/-- The loop of `prev`: early exit at the first axis at the edge, otherwise the offset
less the distances of the axes walked. -/
theorem prev_loop_eq (r : multi_dimensional_range) (it : multi_dimensional_iterator)
    (args : List Int) (hargs : ∀ j, 0 ≤ args.getD j 0 ∧ args.getD j 0 < 2 ^ 31) (k : Nat) :
    ∀ (i : Nat) (off : Int),
    ((∃ j, i ≤ j ∧ j < i + k ∧ (it.current_index.getD j 0 : Int) < args.getD j 0
          ∧ r.start_position.getD j false = true) →
      multi_dimensional_iterator.prev_loop r it args k i off = none)
    ∧ ((¬ ∃ j, i ≤ j ∧ j < i + k ∧ (it.current_index.getD j 0 : Int) < args.getD j 0
          ∧ r.start_position.getD j false = true) →
      multi_dimensional_iterator.prev_loop r it args k i off =
        some (off - ((List.range' i k).map
          (fun j => args.getD j 0 * (r.global_dim_strides.getD j 0 : Int))).sum)) := by
  induction k with
  | zero =>
    intro i off
    constructor
    · rintro ⟨j, h1, h2, _⟩; omega
    · intro _
      simp [multi_dimensional_iterator.prev_loop]
  | succ k ih =>
    intro i off
    have hconv : (it.current_index.getD i 0 < to_size_t (args.getD i 0))
        ↔ ((it.current_index.getD i 0 : Int) < args.getD i 0) := by
      obtain ⟨h0, h1⟩ := hargs i
      have : to_size_t (args.getD i 0) = (args.getD i 0).toNat := by
        unfold to_size_t
        rw [Int.emod_eq_of_lt h0 (by omega)]
      rw [this]
      omega
    have hterm : (if args.getD i 0 ≠ 0 then args.getD i 0 * (r.global_dim_strides.getD i 0 : Int)
        else 0) = args.getD i 0 * (r.global_dim_strides.getD i 0 : Int) := by
      split_ifs with h
      · rfl
      · push_neg at h; rw [h]; simp
    rw [multi_dimensional_iterator.prev_loop]
    by_cases hc : (it.current_index.getD i 0 : Int) < args.getD i 0
        ∧ r.start_position.getD i false = true
    · have hc' : it.current_index.getD i 0 < to_size_t (args.getD i 0)
          ∧ r.whether_global_start_position i = true := ⟨hconv.mpr hc.1, hc.2⟩
      rw [if_pos hc']
      constructor
      · intro _; rfl
      · intro hn
        exact absurd ⟨i, le_refl _, by omega, hc.1, hc.2⟩ hn
    · have hc' : ¬ (it.current_index.getD i 0 < to_size_t (args.getD i 0)
          ∧ r.whether_global_start_position i = true) := by
        rintro ⟨h1, h2⟩
        exact hc ⟨hconv.mp h1, h2⟩
      rw [if_neg hc', hterm]
      obtain ⟨ih1, ih2⟩ := ih (i + 1)
        (off - args.getD i 0 * (r.global_dim_strides.getD i 0 : Int))
      constructor
      · rintro ⟨j, h1, h2, h3, h4⟩
        apply ih1
        by_cases hj : j = i
        · subst hj; exact absurd ⟨h3, h4⟩ hc
        · exact ⟨j, by omega, by omega, h3, h4⟩
      · intro hn
        rw [ih2 (by
          rintro ⟨j, h1, h2, h3, h4⟩
          exact hn ⟨j, by omega, by omega, h3, h4⟩), range'_sum_succ]
        congr 1
        ring

/-- Closed form of `prev` for look-back vectors with one entry per axis, each a
non-negative `int`. -/
theorem prev_eq {T : Type} [Zero T] (r : multi_dimensional_range)
    (it : multi_dimensional_iterator) (data : List T) (args : List Int)
    (hlen : args.length = it.current_index.length)
    (hargs : ∀ x ∈ args, 0 ≤ x ∧ x < 2 ^ 31) :
    (lookback_at_edge r it args → multi_dimensional_iterator.prev r it data args = some 0)
    ∧ (¬ lookback_at_edge r it args →
        multi_dimensional_iterator.prev r it data args
          = read_at data (it.current_offset - lookback_distance r args)) := by
  have hargs' : ∀ j, 0 ≤ args.getD j 0 ∧ args.getD j 0 < 2 ^ 31 := by
    intro j
    by_cases hj : j < args.length
    · rw [List.getD_eq_getElem?_getD, List.getElem?_eq_getElem hj]
      exact hargs _ (List.getElem_mem _)
    · rw [List.getD_eq_getElem?_getD, List.getElem?_eq_none (by omega)]
      simp
  obtain ⟨h1, h2⟩ := prev_loop_eq r it args hargs' args.length 0 it.current_offset
  unfold multi_dimensional_iterator.prev
  rw [← hlen]
  constructor
  · rintro ⟨j, g1, g2, g3⟩
    rw [h1 ⟨j, Nat.zero_le _, by omega, g2, g3⟩]
  · intro hn
    rw [h2 (by
      rintro ⟨j, _, g1, g2, g3⟩
      exact hn ⟨j, by omega, g2, g3⟩)]
    simp only [lookback_distance, List.range_eq_range']

/-! ## Order of the visits -/

theorem forall₂_of_getD_rel (R : Nat → Nat → Prop) (a b : List Nat) (hl : a.length = b.length)
    (h : ∀ i, i < a.length → R (a.getD i 0) (b.getD i 0)) : List.Forall₂ R a b := by
  induction a generalizing b with
  | nil =>
    cases b with
    | nil => exact List.Forall₂.nil
    | cons y b => simp at hl
  | cons x a ih =>
    cases b with
    | nil => simp at hl
    | cons y b =>
      refine List.Forall₂.cons ?_ (ih b (by simpa using hl) ?_)
      · simpa using h 0 (by simp)
      · intro j hj
        simpa using h (j + 1) (by simpa using hj)

theorem getD_zipWith_nat (f : Nat → Nat → Nat) (a b : List Nat) (i : Nat) (ha : i < a.length)
    (hb : i < b.length) : (List.zipWith f a b).getD i 0 = f (a.getD i 0) (b.getD i 0) := by
  simp [List.getD_eq_getElem?_getD, List.getElem?_eq_getElem ha, List.getElem?_eq_getElem hb,
    List.getElem?_eq_getElem (show i < (List.zipWith f a b).length by simp; omega)]

theorem getD_map_nat (f : Nat → Nat) (a : List Nat) (i : Nat) (ha : i < a.length) :
    (a.map f).getD i 0 = f (a.getD i 0) := by
  simp [List.getD_eq_getElem?_getD, List.getElem?_eq_getElem ha]

theorem getD_map_toNat (a : List Int) (i : Nat) (ha : i < a.length) :
    (a.map Int.toNat).getD i 0 = (a.getD i 0).toNat := by
  simp [List.getD_eq_getElem?_getD, List.getElem?_eq_getElem ha]

theorem getD_map_bool (f : Nat → Bool) (a : List Nat) (i : Nat) (ha : i < a.length) :
    (a.map f).getD i false = f (a.getD i 0) := by
  simp [List.getD_eq_getElem?_getD, List.getElem?_eq_getElem ha]

theorem sub_forall₂ (g pn D : List Nat) (h : List.Forall₂ (fun x y => x ≤ y) pn g)
    (hg : List.Forall₂ (fun c n => c < n) g D) :
    List.Forall₂ (fun c n => c < n) (List.zipWith (fun x y => x - y) g pn) D
    ∧ List.Forall₂ (fun x y => x ≤ y) (List.zipWith (fun x y => x - y) g pn) g := by
  induction h generalizing D with
  | nil => simpa using hg
  | @cons p0 g0 pn g h0 _ ih =>
    obtain ⟨d0, D, hd0, hD, rfl⟩ := List.forall₂_cons_left_iff.mp hg
    obtain ⟨i1, i2⟩ := ih D hD
    simp only [List.zipWith_cons_cons]
    exact ⟨List.Forall₂.cons (by omega) i1, List.Forall₂.cons (by omega) i2⟩

theorem dot_sub (g pn W : List Nat) (h : List.Forall₂ (fun x y => x ≤ y) pn g) :
    dot (List.zipWith (fun x y => x - y) g pn) W + dot pn W = dot g W := by
  induction h generalizing W with
  | nil => simp
  | @cons p0 g0 pn g h0 _ ih =>
    cases W with
    | nil => simp
    | cons w W =>
      simp only [List.zipWith_cons_cons, dot_cons]
      have := ih W
      have e : (g0 - p0) * w + p0 * w = g0 * w := by
        rw [← Nat.add_mul, Nat.sub_add_cancel h0]
      omega

theorem lookback_sum_eq (a : List Int) (b : List Nat) (ha : ∀ x ∈ a, 0 ≤ x) :
    ((List.range a.length).map (fun i => a.getD i 0 * (b.getD i 0 : Int))).sum
      = ((dot (a.map Int.toNat) b : Nat) : Int) := by
  induction a generalizing b with
  | nil => simp
  | cons x a ih =>
    have hx : ((x.toNat : Nat) : Int) = x := Int.toNat_of_nonneg (ha x (List.mem_cons_self _ _))
    cases b with
    | nil =>
      simp only [List.length_cons, List.getD_nil, Nat.cast_zero, mul_zero, dot_nil_right]
      simp
    | cons y b =>
      have := ih b (fun z hz => ha z (List.mem_cons_of_mem _ hz))
      simp only [List.length_cons, List.range_succ_eq_map, List.map_cons, List.map_map,
        List.sum_cons, List.getD_cons_zero, dot_cons, Function.comp_def, Nat.succ_eq_add_one,
        List.getD_cons_succ]
      rw [this]
      push_cast
      rw [hx]

theorem compress_element_some {T σP σQ : Type} (P : Predictor T σP) (Q : Quantizer T σQ)
    (r : multi_dimensional_range) (element : multi_dimensional_iterator)
    (s s1 : compress_state T σP σQ) (h : compress_element P Q r element s = some s1) :
    ∃ x data1, element.deref s.data = some x
      ∧ element.assign s.data (Q.quantize_and_overwrite s.quantizer x
          (P.predict s.predictor r element s.data)).2.1 = some data1
      ∧ s.count < s.quant_inds.length
      ∧ s.count + 1 < 2 ^ 31
      ∧ s1 = { data := data1
               quant_inds := s.quant_inds.set s.count
                 (to_int (Q.quantize_and_overwrite s.quantizer x
                   (P.predict s.predictor r element s.data)).1)
               count := s.count + 1
               predictor := s.predictor
               quantizer := (Q.quantize_and_overwrite s.quantizer x
                 (P.predict s.predictor r element s.data)).2.2
               predictions := s.predictions ++ [P.predict s.predictor r element s.data] } := by
  unfold compress_element at h
  cases hx : element.deref s.data with
  | none => rw [hx] at h; simp at h
  | some x =>
    rw [hx] at h
    simp only at h
    cases hd : element.assign s.data (Q.quantize_and_overwrite s.quantizer x
        (P.predict s.predictor r element s.data)).2.1 with
    | none => rw [hd] at h; simp at h
    | some data1 =>
      rw [hd] at h
      simp only at h
      by_cases hc : s.count < s.quant_inds.length ∧ s.count + 1 < 2 ^ 31
      · rw [if_pos hc] at h
        exact ⟨x, data1, rfl, hd, hc.1, hc.2, (Option.some.inj h).symm⟩
      · rw [if_neg hc] at h; simp at h

theorem opt_fold_cons_some {α S : Type} (step : α → S → Option S) (a : α) (l : List α)
    (s sf : S) (h : opt_fold step (a :: l) s = some sf) :
    ∃ s1, step a s = some s1 ∧ opt_fold step l s1 = some sf := by
  rw [opt_fold_cons] at h
  cases hs : step a s with
  | none => rw [hs] at h; simp at h
  | some s1 => rw [hs] at h; exact ⟨s1, rfl, h⟩

theorem iter_at_index_length (D : List Nat) (B k j : Nat) :
    (iter_at (block_range D B k) j).current_index.length = D.length := by
  show (unrank (block_range D B k).dimensions j).length = D.length
  rw [unrank_length, block_range_dimensions,
    block_extents_length _ _ _ (by rw [unrank_length, block_counts_length])]

theorem to_bytes_length (w v : Nat) : (to_bytes w v).length = w := by
  induction w generalizing v with
  | zero => rfl
  | succ w ih => simp [to_bytes, ih]

theorem from_to_bytes (w v : Nat) : from_bytes (to_bytes w v) = v % 256 ^ w := by
  induction w generalizing v with
  | zero => simp [to_bytes, from_bytes, Nat.mod_one]
  | succ w ih =>
    simp only [to_bytes, from_bytes, ih]
    rw [pow_succ, Nat.mul_comm (256 ^ w) 256, Nat.mod_mul]

theorem from_to_bytes_lt (w v : Nat) (h : v < 256 ^ w) : from_bytes (to_bytes w v) = v := by
  rw [from_to_bytes, Nat.mod_eq_of_lt h]

theorem write_array_length (a : List Nat) : (write_array a).length = a.length * 8 := by
  induction a with
  | nil => rfl
  | cons x a ih =>
    simp only [write_array, List.flatMap_cons, List.length_append, to_bytes_length,
      List.length_cons] at ih ⊢
    omega

theorem array_of_write_array (a rest : List Nat) (h : ∀ x ∈ a, x < 2 ^ 64) :
    array_of_bytes (write_array a ++ rest) a.length = a := by
  induction a with
  | nil => rfl
  | cons x a ih =>
    have h8 : (to_bytes 8 x).length = 8 := to_bytes_length 8 x
    simp only [write_array, List.flatMap_cons, List.length_cons, array_of_bytes,
      List.append_assoc]
    rw [List.take_left' h8, List.drop_left' h8,
      from_to_bytes_lt 8 x (by have := h x (List.mem_cons_self _ _); norm_num at this ⊢; omega)]
    congr 1
    exact ih (fun y hy => h y (List.mem_cons_of_mem _ hy))

theorem int_of_bits_roundtrip (z : Int) (h1 : -2 ^ 31 ≤ z) (h2 : z < 2 ^ 31) :
    int_of_bits (z % 2 ^ 32).toNat = z := by
  unfold int_of_bits
  have hnn : 0 ≤ z % 2 ^ 32 := Int.emod_nonneg _ (by norm_num)
  have hcast : (((z % 2 ^ 32).toNat : Nat) : Int) = z % 2 ^ 32 := Int.toNat_of_nonneg hnn
  by_cases hz : 0 ≤ z
  · have e : z % 2 ^ 32 = z := Int.emod_eq_of_lt hz (by omega)
    rw [if_pos (by omega), hcast, e]
  · have e : z % 2 ^ 32 = z + 2 ^ 32 := by
      rw [← Int.add_emod_self, Int.emod_eq_of_lt (by omega) (by omega)]
    rw [if_neg (by omega), hcast, e]
    ring

theorem raw_roundtrip_core (q : List Int) (rest : List Nat)
    (h : ∀ z ∈ q, -2 ^ 31 ≤ z ∧ z < 2 ^ 31) :
    (List.range q.length).map (fun k => int_of_bits (from_bytes
      (((q.flatMap (fun z => to_bytes 4 (z % 2 ^ 32).toNat) ++ rest).drop (4 * k)).take 4))) = q := by
  induction q with
  | nil => rfl
  | cons z q ih =>
    have h4 : (to_bytes 4 (z % 2 ^ 32).toNat).length = 4 := to_bytes_length 4 _
    obtain ⟨z1, z2⟩ := h z (List.mem_cons_self _ _)
    have hlt : (z % 2 ^ 32).toNat < 256 ^ 4 := by
      have hnn : 0 ≤ z % 2 ^ 32 := Int.emod_nonneg _ (by norm_num)
      have hub : z % 2 ^ 32 < 2 ^ 32 := Int.emod_lt_of_pos _ (by norm_num)
      omega
    simp only [List.length_cons, List.range_succ_eq_map, List.map_cons, List.map_map,
      List.flatMap_cons, List.append_assoc, Nat.mul_zero, List.drop_zero]
    rw [List.take_left' h4, from_to_bytes_lt _ _ hlt, int_of_bits_roundtrip z z1 z2]
    congr 1
    refine Eq.trans ?_ (ih (fun y hy => h y (List.mem_cons_of_mem _ hy)))
    apply List.map_congr_left
    intro k _
    simp only [Function.comp, Nat.succ_eq_add_one]
    have : 4 * (k + 1) = 4 + 4 * k := by ring
    rw [this, ← List.drop_drop, List.drop_left' h4]

theorem raw_roundtrip (q : List Int) (rest : List Nat)
    (h : ∀ z ∈ q, -2 ^ 31 ≤ z ∧ z < 2 ^ 31) :
    (raw_encoder.decode () ((raw_encoder.encode () q).1 ++ rest) q.length).1 = q :=
  raw_roundtrip_core q rest h

/-- The eliding encoder decodes what it encoded, whatever follows in the buffer. -/
theorem elide_roundtrip (s : Bool) (a : Int) (q : List Int) (rest : List Nat)
    (h : ∀ z ∈ q, -2 ^ 31 ≤ z ∧ z < 2 ^ 31) :
    (elide_encoder.decode (elide_encoder.preprocess_encode s q a)
      ((elide_encoder.encode (elide_encoder.preprocess_encode s q a) q).1 ++ rest) q.length).1
      = q := by
  show (if q.all (fun z => z == 0) = true then List.replicate q.length 0
    else (raw_encoder.decode () ((if q.all (fun z => z == 0) = true then []
      else (raw_encoder.encode () q).1) ++ rest) q.length).1) = q
  by_cases hz : q.all (fun z => z == 0) = true
  · rw [if_pos hz]
    symm
    apply List.eq_replicate_iff.mpr
    refine ⟨rfl, ?_⟩
    intro z hzm
    have := List.all_eq_true.mp hz z hzm
    simpa using this
  · rw [if_neg hz, if_neg hz]
    exact raw_roundtrip q rest h

/-- A buffer that holds exactly the header is rejected by the second header read. -/
theorem read_header_exact (N : Nat) (buf : List Nat) : read_header N buf (N * 8 + 4) = none := by
  unfold read_header read
  simp

/-- The uniform quantizer writes back a value within its bound of the original. -/
theorem uniform_quantizer_bound (b : Int) (hb : 0 < b) (s : Unit) (x pred : Int) :
    |x - ((uniform_quantizer b).quantize_and_overwrite s x pred).2.1| ≤ b := by
  show |x - (pred + (x - pred + b) / (2 * b) * (2 * b))| ≤ b
  have h1 := Int.emod_add_ediv (x - pred + b) (2 * b)
  have h2 := Int.emod_nonneg (x - pred + b) (show (2 * b) ≠ 0 by omega)
  have h3 := Int.emod_lt_of_pos (x - pred + b) (show 0 < 2 * b by omega)
  rw [abs_le]
  constructor <;> nlinarith

/-! ## What `decompress` reads from the buffer of `compress` -/

theorem write_var_length (v : Nat) : (write_var v).length = 4 := to_bytes_length 4 v

/-- The header reads give back the shape and the block size that were written, when at
least one byte follows the header. -/
theorem read_header_written (gd : List Nat) (B : Nat) (rest : List Nat)
    (hgd : ∀ d ∈ gd, d < 2 ^ 64) (hB : B < 2 ^ 32) (hrest : rest ≠ []) :
    read_header gd.length (write_array gd ++ (write_var B ++ rest))
        (write_array gd ++ (write_var B ++ rest)).length
      = some (gd, B, { pos := gd.length * 8 + 4, remaining_length := rest.length }) := by
  have h1 : (write_array gd).length = gd.length * 8 := write_array_length gd
  have h2 : (write_var B).length = 4 := write_var_length B
  have h3 : 0 < rest.length := List.length_pos.mpr hrest
  have hL : (write_array gd ++ (write_var B ++ rest)).length = gd.length * 8 + 4 + rest.length := by
    simp only [List.length_append, h1, h2]; omega
  have ha := array_of_write_array gd [] hgd
  rw [List.append_nil] at ha
  unfold read_header read
  rw [hL]
  simp only [List.drop_zero]
  rw [if_pos (by omega)]
  simp only
  rw [if_pos (by omega)]
  simp only [Option.some.injEq, Prod.mk.injEq]
  refine ⟨?_, ?_, ?_⟩
  · rw [List.take_left' h1, ha]
  · rw [Nat.zero_add, List.drop_left' h1, List.take_left' h2]
    exact from_to_bytes_lt 4 B (by norm_num; omega)
  · simp only [read_cursor.mk.injEq]
    omega

theorem load_component_eq {σ : Type} (save : σ → List Nat)
    (load : σ → List Nat → Nat → Option (σ × Nat)) (h : load_consumes_save save load)
    (s s1 : σ) (pre rest : List Nat) (n : Nat) :
    ∃ s2, load_component load s1 (pre ++ (save s ++ rest))
        { pos := pre.length, remaining_length := n }
      = some (s2, { pos := pre.length + (save s).length,
                    remaining_length := n - (save s).length }) := by
  obtain ⟨s2, h2⟩ := h s s1 rest n
  refine ⟨s2, ?_⟩
  unfold load_component
  simp only [List.drop_left, h2]

/-- The reads of `decompress` on a buffer made of a header, three saved states and an
encoded stream, given what the three `load` calls and `decode` return on it. -/
theorem deserialize_parts {T σP σQ σE : Type} (P : Predictor T σP) (Q : Quantizer T σQ)
    (E : Encoder σE) (c : SZ_General_Compressor σP σQ σE) (gd : List Nat) (B : Nat)
    (b3 b4 b5 benc : List Nat) (p1 : σP) (q1 : σQ) (s4 : σE)
    (hN : c.global_dimensions.length = gd.length)
    (hgd : ∀ d ∈ gd, d < 2 ^ 64) (hB : B < 2 ^ 32) (hrest : b3 ++ (b4 ++ (b5 ++ benc)) ≠ [])
    (hp : P.load c.predictor (b3 ++ (b4 ++ (b5 ++ benc))) (b3 ++ (b4 ++ (b5 ++ benc))).length
      = some (p1, b3.length))
    (hq : Q.load c.quantizer (b4 ++ (b5 ++ benc))
        ((b3 ++ (b4 ++ (b5 ++ benc))).length - b3.length) = some (q1, b4.length))
    (he : E.load c.encoder (b5 ++ benc)
        ((b3 ++ (b4 ++ (b5 ++ benc))).length - b3.length - b4.length)
      = some (s4, b5.length)) :
    deserialize (T := T) P Q E c (write_array gd ++ (write_var B ++ (b3 ++ (b4 ++ (b5 ++ benc)))))
        (write_array gd ++ (write_var B ++ (b3 ++ (b4 ++ (b5 ++ benc))))).length
      = some { global_dimensions := gd
               num_elements := count_elements gd
               block_size := B
               predictor := p1
               quantizer := q1
               encoder := E.postprocess_decode (E.decode s4 benc (count_elements gd)).2
               quant_inds := (E.decode s4 benc (count_elements gd)).1
               stream_pos := gd.length * 8 + 4 + b3.length + b4.length + b5.length } := by
  have hhead := read_header_written gd B _ hgd hB hrest
  have h1 : (write_array gd).length = gd.length * 8 := write_array_length gd
  have h2 : (write_var B).length = 4 := write_var_length B
  have hd1 : (write_array gd ++ (write_var B ++ (b3 ++ (b4 ++ (b5 ++ benc))))).drop
      (gd.length * 8 + 4) = b3 ++ (b4 ++ (b5 ++ benc)) := by
    have e : write_array gd ++ (write_var B ++ (b3 ++ (b4 ++ (b5 ++ benc))))
        = (write_array gd ++ write_var B) ++ (b3 ++ (b4 ++ (b5 ++ benc))) := by
      simp only [List.append_assoc]
    rw [e]
    exact List.drop_left' (by simp only [List.length_append, h1, h2])
  have hd2 : (write_array gd ++ (write_var B ++ (b3 ++ (b4 ++ (b5 ++ benc))))).drop
      (gd.length * 8 + 4 + b3.length) = b4 ++ (b5 ++ benc) := by
    rw [← List.drop_drop, hd1, List.drop_left]
  have hd3 : (write_array gd ++ (write_var B ++ (b3 ++ (b4 ++ (b5 ++ benc))))).drop
      (gd.length * 8 + 4 + b3.length + b4.length) = b5 ++ benc := by
    rw [← List.drop_drop, hd2, List.drop_left]
  have hd4 : (write_array gd ++ (write_var B ++ (b3 ++ (b4 ++ (b5 ++ benc))))).drop
      (gd.length * 8 + 4 + b3.length + b4.length + b5.length) = benc := by
    rw [← List.drop_drop, hd3, List.drop_left]
  unfold deserialize
  rw [hN, hhead]
  simp only [load_component, hd1, hp, hd2, hq, hd3, he, hd4]

/-- On the object that produced the buffer, `decompress` reads back the shape and the
block size, and obtains from `encoder.decode` the index sequence that was encoded,
provided at least one byte follows the header. -/
theorem deserialize_serialized {T σP σQ σE : Type} (P : Predictor T σP) (Q : Quantizer T σQ)
    (E : Encoder σE) (c : SZ_General_Compressor σP σQ σE) (s : compress_state T σP σQ)
    (hPl : load_consumes_save P.save P.load) (hQl : load_consumes_save Q.save Q.load)
    (hE : encoder_round_trip E)
    (hq : ∀ z ∈ s.quant_inds, -2 ^ 31 ≤ z ∧ z < 2 ^ 31)
    (hqlen : s.quant_inds.length = c.global_dimensions.prod)
    (hgd : ∀ d ∈ c.global_dimensions, d < 2 ^ 64) (hB : c.block_size < 2 ^ 32)
    (hpay : c.global_dimensions.length * 8 + 4 < (serialize P Q E c s).compressed_size) :
    ∃ d, deserialize (T := T) P Q E (serialize P Q E c s).compressor (serialize P Q E c s).bytes
        (serialize P Q E c s).compressed_size = some d
      ∧ d.global_dimensions = c.global_dimensions
      ∧ d.num_elements = c.global_dimensions.prod
      ∧ d.block_size = c.block_size
      ∧ d.quant_inds = s.quant_inds
      ∧ d.stream_pos = c.global_dimensions.length * 8 + 4 + (P.save s.predictor).length
          + (Q.save s.quantizer).length
          + (E.save (E.preprocess_encode c.encoder s.quant_inds
              (4 * Q.get_radius s.quantizer))).length := by
  have hbytes : (serialize P Q E c s).bytes
      = write_array c.global_dimensions ++ (write_var c.block_size
          ++ (P.save s.predictor ++ (Q.save s.quantizer
            ++ (E.save (E.preprocess_encode c.encoder s.quant_inds
                  (4 * Q.get_radius s.quantizer))
              ++ (E.encode (E.preprocess_encode c.encoder s.quant_inds
                  (4 * Q.get_radius s.quantizer)) s.quant_inds).1)))) := by
    simp only [serialize, List.append_assoc]
  have hsize : (serialize P Q E c s).compressed_size = (serialize P Q E c s).bytes.length := rfl
  have hrest : P.save s.predictor ++ (Q.save s.quantizer
      ++ (E.save (E.preprocess_encode c.encoder s.quant_inds (4 * Q.get_radius s.quantizer))
        ++ (E.encode (E.preprocess_encode c.encoder s.quant_inds
            (4 * Q.get_radius s.quantizer)) s.quant_inds).1)) ≠ [] := by
    intro h0
    rw [hsize, hbytes, h0] at hpay
    simp only [List.append_nil, List.length_append, write_array_length, write_var_length] at hpay
    omega
  obtain ⟨p1, hp1⟩ := hPl s.predictor s.predictor (Q.save s.quantizer
      ++ (E.save (E.preprocess_encode c.encoder s.quant_inds (4 * Q.get_radius s.quantizer))
        ++ (E.encode (E.preprocess_encode c.encoder s.quant_inds
            (4 * Q.get_radius s.quantizer)) s.quant_inds).1))
    (P.save s.predictor ++ (Q.save s.quantizer
      ++ (E.save (E.preprocess_encode c.encoder s.quant_inds (4 * Q.get_radius s.quantizer))
        ++ (E.encode (E.preprocess_encode c.encoder s.quant_inds
            (4 * Q.get_radius s.quantizer)) s.quant_inds).1))).length
  obtain ⟨q1, hq1⟩ := hQl s.quantizer s.quantizer
      (E.save (E.preprocess_encode c.encoder s.quant_inds (4 * Q.get_radius s.quantizer))
        ++ (E.encode (E.preprocess_encode c.encoder s.quant_inds
            (4 * Q.get_radius s.quantizer)) s.quant_inds).1)
    ((P.save s.predictor ++ (Q.save s.quantizer
      ++ (E.save (E.preprocess_encode c.encoder s.quant_inds (4 * Q.get_radius s.quantizer))
        ++ (E.encode (E.preprocess_encode c.encoder s.quant_inds
            (4 * Q.get_radius s.quantizer)) s.quant_inds).1))).length
      - (P.save s.predictor).length)
  obtain ⟨s4, hl4, hd4⟩ := hE c.encoder (4 * Q.get_radius s.quantizer) s.quant_inds []
    ((P.save s.predictor ++ (Q.save s.quantizer
      ++ (E.save (E.preprocess_encode c.encoder s.quant_inds (4 * Q.get_radius s.quantizer))
        ++ (E.encode (E.preprocess_encode c.encoder s.quant_inds
            (4 * Q.get_radius s.quantizer)) s.quant_inds).1))).length
      - (P.save s.predictor).length - (Q.save s.quantizer).length) hq
  rw [List.append_nil] at hl4 hd4
  have hcnt : count_elements c.global_dimensions = s.quant_inds.length := by
    rw [count_elements_eq_prod, hqlen]
  have hparts := deserialize_parts (T := T) P Q E (serialize P Q E c s).compressor
    c.global_dimensions c.block_size _ _ _ _ p1 q1 s4 rfl hgd hB hrest hp1 hq1 hl4
  rw [hsize, hbytes]
  refine ⟨_, hparts, rfl, ?_, rfl, ?_, rfl⟩
  · exact count_elements_eq_prod _
  · show (E.decode s4 _ (count_elements c.global_dimensions)).1 = s.quant_inds
    rw [hcnt]
    exact hd4

theorem collect_fold (r : multi_dimensional_range) (l : List Nat)
    (s : List multi_dimensional_iterator) :
    opt_fold (fun j (s : List multi_dimensional_iterator) => some (s ++ [iter_at r j])) l s
      = some (s ++ l.map (iter_at r)) := by
  induction l generalizing s with
  | nil => simp [opt_fold]
  | cons a l ih =>
    rw [opt_fold_cons]
    show opt_fold _ l (s ++ [iter_at r a]) = _
    rw [ih]
    simp

theorem block_iterators_eq (D : List Nat) (B fuel : Nat) (hB : 1 ≤ B) (hne : D ≠ [])
    (hD : ∀ d ∈ D, 1 ≤ d) (hf : (block_counts D B).prod < fuel) :
    block_iterators fuel D B
      = some ((List.range (block_counts D B).prod).map (iter_at (inter_range D B))) := by
  obtain ⟨hin1, hin2⟩ := inter_range_end D B hB hne hD
  unfold block_iterators
  rw [create_inter _ _ hB hD]
  simp only
  rw [range_loop_eq (inter_range D B) (inter_range_well_formed D B hne) _
    (block_counts D B).prod fuel _ hf hin1 hin2, collect_fold]
  simp

theorem ceil_div_eq (B d : Nat) (hB : 1 ≤ B) (hd : 1 ≤ d) : (d - 1) / B + 1 = (d + B - 1) / B := by
  have h : d + B - 1 = (d - 1) + B := by omega
  rw [h, Nat.add_div_right _ (by omega)]

theorem block_counts_eq_ceil (D : List Nat) (B : Nat) (hB : 1 ≤ B) (hD : ∀ d ∈ D, 1 ≤ d) :
    block_counts D B = D.map (fun d => (d + B - 1) / B) := by
  unfold block_counts
  apply List.map_congr_left
  intro d hd
  exact ceil_div_eq B d hB (hD d hd)

theorem create_fields {σP σQ σE : Type} (B : Nat) (hB : 1 ≤ B) (p : σP) (q : σQ) (e : σE)
    (D : List Nat) :
    (SZ_General_Compressor.create B p q e D).block_size = B
    ∧ (SZ_General_Compressor.create B p q e D).global_dimensions = D
    ∧ (SZ_General_Compressor.create B p q e D).num_elements = D.prod := by
  refine ⟨?_, rfl, count_elements_eq_prod D⟩
  simp only [SZ_General_Compressor.create]
  rw [if_neg (by omega)]

theorem create_offset_invariant (N : Nat) (gd : List Nat) (stride_ : Nat) (offset_ : Int)
    (r : multi_dimensional_range)
    (h : multi_dimensional_range.create N gd stride_ offset_ = some r) : offset_invariant r := by
  unfold multi_dimensional_range.create at h
  split at h
  · exact absurd h (by simp)
  · simp only at h
    split at h
    · exact absurd h (by simp)
    · have := Option.some.inj h
      subst this
      rfl

theorem run_calls_invariant (ms : List mutator_call) :
    ∀ (pending : Bool) (r : multi_dimensional_range),
      (pending = false → offset_invariant r) →
      dimensions_pending pending ms = false → offset_invariant (run_calls ms r) := by
  induction ms with
  | nil =>
    intro pending r h hp
    exact h hp
  | cons m ms ih =>
    intro pending r h hp
    cases m with
    | set_dimensions seq =>
      exact ih true _ (fun hc => absurd hc (by decide)) hp
    | set_offsets o =>
      exact ih false _ (fun _ => rfl) hp
    | set_starting_position dims =>
      exact ih pending _ h hp
    | set_access_stride s =>
      exact ih pending _ h hp

theorem getD_range_map (n : Nat) (f : Nat → Nat) (i : Nat) (h : i < n) :
    ((List.range n).map f).getD i 0 = f i := by
  rw [List.getD_eq_getElem?_getD, List.getElem?_map, List.getElem?_range h]
  rfl

theorem getD_replicate_false (n i : Nat) (h : i < n) :
    (List.replicate n false).getD i true = false := by
  rw [List.getD_eq_getElem?_getD, List.getElem?_replicate, if_pos h]
  rfl

theorem block_counts_one (D : List Nat) (hD : ∀ d ∈ D, 1 ≤ d) : block_counts D 1 = D := by
  unfold block_counts
  conv_rhs => rw [← List.map_id D]
  apply List.map_congr_left
  intro d hd
  have := hD d hd
  simp only [Nat.div_one, id]
  omega

theorem full_walk_eq (D : List Nat) (fuel : Nat) (hne : D ≠ []) (hD : ∀ d ∈ D, 1 ≤ d)
    (hf : D.prod < fuel) :
    full_walk fuel D = some ((List.range D.prod).map
      (fun k => { current_index := unrank D k, current_offset := (k : Int) })) := by
  have h1 : full_walk fuel D = block_iterators fuel D 1 := rfl
  have hb := block_counts_one D hD
  rw [h1, block_iterators_eq D 1 fuel (le_refl 1) hne hD (by rw [hb]; exact hf), hb]
  congr 1
  apply List.map_congr_left
  intro k hk
  have hk' : k < D.prod := List.mem_range.mp hk
  simp only [iter_at, inter_range, hb, Nat.mul_one, zero_add, List.map_id',
    dot_unrank_lt D k hk']

theorem read_header_isSome (N : Nat) (buf : List Nat) (length : Nat) :
    (read_header N buf length).isSome = true ↔ N * 8 + 4 < length := by
  unfold read_header read
  simp only
  by_cases h1 : N * 8 < length
  · rw [if_pos h1]
    simp only
    by_cases h2 : 4 < length - N * 8
    · rw [if_pos h2]
      simp only [Option.isSome_some, true_iff]
      omega
    · rw [if_neg h2]
      simp only [Option.isSome_none, Bool.false_eq_true, false_iff]
      omega
  · rw [if_neg h1]
    simp only [Option.isSome_none, Bool.false_eq_true, false_iff]
    omega

theorem decompress_none_of_short {T σP σQ σE : Type} [Zero T] (P : Predictor T σP)
    (Q : Quantizer T σQ) (E : Encoder σE) (fuel : Nat) (c : SZ_General_Compressor σP σQ σE)
    (buf : List Nat) (length : Nat) (h : length ≤ c.global_dimensions.length * 8 + 4) :
    decompress (T := T) P Q E fuel c buf length = none := by
  have hh : read_header c.global_dimensions.length buf length = none := by
    rw [← Option.not_isSome_iff_eq_none, read_header_isSome]
    omega
  unfold decompress deserialize
  rw [hh]

theorem header_le_compressed_size {T σP σQ σE : Type} (P : Predictor T σP) (Q : Quantizer T σQ)
    (E : Encoder σE) (c : SZ_General_Compressor σP σQ σE) (s : compress_state T σP σQ) :
    c.global_dimensions.length * 8 + 4 ≤ (serialize P Q E c s).compressed_size := by
  simp only [serialize, List.length_append, write_array_length, write_var_length]
  omega

theorem allocation_size_ones {σP σQ σE : Type} (p : σP) (q : σQ) (e : σE) (n w : Nat) :
    allocation_size (SZ_General_Compressor.create 0 p q e (List.replicate n 1)) w = 2 * w := by
  unfold allocation_size
  have : (SZ_General_Compressor.create 0 p q e (List.replicate n 1)).num_elements = 1 := by
    show count_elements (List.replicate n 1) = 1
    rw [count_elements_eq_prod, List.prod_replicate, one_pow]
  rw [this, Nat.mul_one]

theorem read_at_isSome {T : Type} (data : List T) (o : Int) :
    (read_at data o).isSome = true ↔ 0 ≤ o ∧ o < (data.length : Int) := by
  unfold read_at
  by_cases h : 0 ≤ o
  · rw [if_pos h]
    obtain ⟨n, rfl⟩ := Int.eq_ofNat_of_zero_le h
    simp only [Int.toNat_ofNat, Nat.cast_nonneg, true_and, Nat.cast_lt]
    by_cases hn : n < data.length
    · rw [List.getElem?_eq_getElem hn]
      simp only [Option.isSome_some, true_iff]
      exact hn
    · rw [List.getElem?_eq_none (by omega)]
      simp only [Option.isSome_none, Bool.false_eq_true, false_iff]
      exact hn
  · rw [if_neg h]
    simp only [Option.isSome_none, Bool.false_eq_true, false_iff]
    intro hc
    exact h hc.1

theorem write_at_isSome {T : Type} (data : List T) (o : Int) (v : T) :
    (write_at data o v).isSome = true ↔ 0 ≤ o ∧ o < (data.length : Int) := by
  unfold write_at
  by_cases h : 0 ≤ o ∧ o.toNat < data.length
  · rw [if_pos h]
    simp only [Option.isSome_some, true_iff]
    refine ⟨h.1, ?_⟩
    have := h.2
    omega
  · rw [if_neg h]
    simp only [Option.isSome_none, Bool.false_eq_true, false_iff]
    intro hc
    apply h
    refine ⟨hc.1, ?_⟩
    have := hc.2
    omega

theorem prev_isSome {T : Type} [Zero T] (r : multi_dimensional_range)
    (it : multi_dimensional_iterator) (data : List T) (args : List Int)
    (hlen : args.length = it.current_index.length)
    (hargs : ∀ x ∈ args, 0 ≤ x ∧ x < 2 ^ 31) :
    (multi_dimensional_iterator.prev r it data args).isSome = true ↔
      (lookback_at_edge r it args
        ∨ (0 ≤ it.current_offset - lookback_distance r args
            ∧ it.current_offset - lookback_distance r args < (data.length : Int))) := by
  obtain ⟨h1, h2⟩ := prev_eq r it data args hlen hargs
  by_cases he : lookback_at_edge r it args
  · rw [h1 he]
    simp only [Option.isSome_some, true_iff]
    exact Or.inl he
  · rw [h2 he, read_at_isSome]
    constructor
    · intro h
      exact Or.inr h
    · intro h
      rcases h with h | h
      · exact absurd h he
      · exact h

theorem axis_extent_last (B d : Nat) (hB : 1 ≤ B) (hd : 1 ≤ d) :
    d - ((d - 1) / B) * B = if d % B = 0 then B else d % B := by
  have h1 := Nat.div_add_mod (d - 1) B
  have h2 := Nat.mod_lt (d - 1) (show 0 < B by omega)
  generalize hq : (d - 1) / B = q at h1
  generalize hr : (d - 1) % B = r at h1 h2
  have hmul : q * B = B * q := Nat.mul_comm _ _
  by_cases hfull : r + 1 = B
  · have hd' : d = B * (q + 1) := by rw [Nat.mul_add, Nat.mul_one]; omega
    have hm : d % B = 0 := by rw [hd']; exact Nat.mul_mod_right B (q + 1)
    rw [if_pos hm]
    omega
  · have hd' : d = B * q + (r + 1) := by omega
    have hm : d % B = r + 1 := by
      rw [hd', Nat.mul_add_mod]
      exact Nat.mod_eq_of_lt (by omega)
    rw [if_neg (by omega), hm]
    omega

theorem axis_extent_floor (B d : Nat) : d - d / B * B = d % B := by
  have h1 := Nat.div_add_mod d B
  have hmul : d / B * B = B * (d / B) := Nat.mul_comm _ _
  omega

theorem axis_extent_sum (B d : Nat) (hd : 1 ≤ d) :
    ((List.range ((d - 1) / B + 1)).map (fun b => axis_extent B b d)).sum = d := by
  rw [List.range_succ, List.map_append, List.sum_append]
  have hlow : (List.range ((d - 1) / B)).map (fun b => axis_extent B b d)
      = (List.range ((d - 1) / B)).map (fun _ => B) := by
    apply List.map_congr_left
    intro b hb
    have hb' := List.mem_range.mp hb
    unfold axis_extent
    rw [if_neg (by omega)]
  have hconst : ((List.range ((d - 1) / B)).map (fun _ => B)).sum = (d - 1) / B * B := by
    rw [List.map_const', List.sum_replicate, List.length_range]
    rfl
  have hlast : axis_extent B ((d - 1) / B) d = d - (d - 1) / B * B := by
    unfold axis_extent
    rw [if_pos (Nat.add_sub_cancel _ _).symm]
  rw [hlow, hconst]
  simp only [List.map_cons, List.map_nil, List.sum_cons, List.sum_nil, add_zero, hlast]
  have := Nat.div_mul_le_self (d - 1) B
  omega

theorem block_extents_getD (D : List Nat) (B : Nat) (b : List Nat) (i : Nat)
    (hb : i < b.length) (hi : i < D.length) :
    (block_extents D B b).getD i 0 = axis_extent B (b.getD i 0) (D.getD i 0) :=
  getD_zipWith_nat (axis_extent B) b D i hb hi

theorem block_elements_eq (D : List Nat) (B fuel k : Nat) (hB : 1 ≤ B) (hne : D ≠ [])
    (hD : ∀ d ∈ D, 1 ≤ d) (hf : D.prod < fuel) (hk : k < (block_counts D B).prod) :
    block_elements fuel D B (iter_at (inter_range D B) k)
      = some (block_range D B k,
          (List.range (block_range D B k).dimensions.prod).map (iter_at (block_range D B k))) := by
  obtain ⟨X, hX1, hX2⟩ := create_intra D hD
  obtain ⟨he1, he2⟩ := block_range_end D B k hB hne hD hk
  have hvol : (block_range D B k).dimensions.prod < fuel :=
    lt_of_le_of_lt (block_extents_prod_le B hB D hD _ (block_index_lt D B k hk)) hf
  unfold block_elements
  rw [create_inter _ _ hB hD, hX1]
  simp only [reseat_eq D B k X hX2]
  rw [range_loop_eq (block_range D B k) (block_range_well_formed D B k hB hne hD hk) _
    (block_range D B k).dimensions.prod fuel _ hvol he1 he2, collect_fold]
  simp

theorem unrank_cons_le (n0 : Nat) (ns : List Nat) (hpos : 0 < ns.prod) (m : Nat)
    (hm : m ≤ (n0 :: ns).prod) :
    (unrank (n0 :: ns) m).getD 0 0 ≤ n0
    ∧ (∀ i, 1 ≤ i → i < (n0 :: ns).length →
        (unrank (n0 :: ns) m).getD i 0 < (n0 :: ns).getD i 0)
    ∧ dot (unrank (n0 :: ns) m) (weights (n0 :: ns)) = m := by
  refine ⟨?_, ?_, dot_unrank n0 ns m hpos⟩
  · show m / ns.prod ≤ n0
    rw [List.prod_cons] at hm
    exact Nat.div_le_of_le_mul (by rw [Nat.mul_comm]; exact hm)
  · intro i hi1 hi2
    obtain ⟨j, rfl⟩ : ∃ j, i = j + 1 := ⟨i - 1, by omega⟩
    show (unrank ns (m % ns.prod)).getD j 0 < ns.getD j 0
    have hlt := unrank_lt ns (m % ns.prod) (Nat.mod_lt _ hpos)
    apply getD_lt_of_forall₂ _ _ hlt
    rw [unrank_length]
    simpa using hi2

theorem position_fold (D : List Nat) (B : Nat) (l : List (Nat × Option Nat))
    (s : List (multi_dimensional_range × multi_dimensional_iterator)) :
    opt_fold (run_event D B (fun _ s => s) record_position) l s
      = some (s ++ l.filterMap (fun e => e.2.map
          (fun j => (block_range D B e.1, iter_at (block_range D B e.1) j)))) := by
  induction l generalizing s with
  | nil => simp [opt_fold]
  | cons e l ih =>
    obtain ⟨k, oj⟩ := e
    cases oj with
    | none =>
      rw [opt_fold_cons]
      show opt_fold _ l s = _
      rw [ih]
      simp
    | some j =>
      rw [opt_fold_cons]
      show opt_fold _ l (s ++ [(block_range D B k, iter_at (block_range D B k) j)]) = _
      rw [ih]
      simp

theorem visited_positions_eq (D : List Nat) (B fuel : Nat) (hB : 1 ≤ B) (hne : D ≠ [])
    (hD : ∀ d ∈ D, 1 ≤ d) (hf : D.prod < fuel) :
    visited_positions fuel D B = some ((events D B).filterMap (fun e => e.2.map
      (fun j => (block_range D B e.1, iter_at (block_range D B e.1) j)))) := by
  obtain ⟨X, hX1, hX2⟩ := create_intra D hD
  have h := block_loop_eq_events D B hB hne hD (fun _ s => s) record_position fuel hf X hX2 []
  rw [position_fold] at h
  unfold visited_positions
  rw [create_inter _ _ hB hD, hX1]
  simp only
  cases hb : block_loop D B (fun _ s => s) record_position fuel (inter_range D B) X [] with
  | none => rw [hb] at h; simp at h
  | some res =>
    rw [hb] at h
    simp only [Option.map_some', Option.some.injEq, List.nil_append] at h
    simp only [h]

theorem lookback_coords (D : List Nat) (B : Nat) (hB : 1 ≤ B) (hD : ∀ d ∈ D, 1 ≤ d)
    (k j : Nat) (hk : k < (block_counts D B).prod)
    (hj : j < (block_range D B k).dimensions.prod)
    (args : List Int) (halen : args.length = D.length)
    (habound : ∀ x ∈ args, 0 ≤ x ∧ x ≤ (B : Int))
    (hedge : ¬ lookback_at_edge (block_range D B k) (iter_at (block_range D B k) j) args) :
    List.Forall₂ (fun x y => x ≤ y) (args.map Int.toNat) (global_coords D B k j)
    ∧ (iter_at (block_range D B k) j).current_offset - lookback_distance (block_range D B k) args
        = ((dot (List.zipWith (fun x y => x - y) (global_coords D B k j) (args.map Int.toNat))
            (weights D) : Nat) : Int)
    ∧ List.Forall₂ (fun c n => c < n)
        (List.zipWith (fun x y => x - y) (global_coords D B k j) (args.map Int.toNat)) D
    ∧ dot (List.zipWith (fun x y => x - y) (global_coords D B k j) (args.map Int.toNat))
        (weights D) < D.prod
    ∧ dot (List.zipWith (fun x y => x - y) (global_coords D B k j) (args.map Int.toNat))
        (weights D) ≤ dot (global_coords D B k j) (weights D) := by
  obtain ⟨hgD, _, _, hoff⟩ := coords_spec D B hB hD k j hk hj
  have hb := block_index_lt D B k hk
  have hc := unrank_lt _ _ hj
  have hbl : (unrank (block_counts D B) k).length = D.length := by
    rw [unrank_length, block_counts_length]
  have hcl : (unrank (block_range D B k).dimensions j).length = D.length := by
    rw [unrank_length, block_range_dimensions, block_extents_length _ _ _ hbl]
  have hgl : (global_coords D B k j).length = D.length := by
    simp [global_coords, hbl, hcl]
  have hle : List.Forall₂ (fun x y => x ≤ y) (args.map Int.toNat) (global_coords D B k j) := by
    apply forall₂_of_getD_rel
    · simp [hgl, halen]
    · intro i hi
      have hi' : i < D.length := by simpa [halen] using hi
      have hai : i < args.length := by omega
      rw [getD_map_toNat _ _ hai, global_coords,
        getD_zipWith_nat _ _ _ _ (by omega) (by omega)]
      have hmem : args.getD i 0 ∈ args := by
        rw [List.getD_eq_getElem?_getD, List.getElem?_eq_getElem hai]
        exact List.getElem_mem _
      obtain ⟨p0, p1⟩ := habound _ hmem
      by_cases hbz : (unrank (block_counts D B) k).getD i 0 = 0
      · have hne : ¬ ((((iter_at (block_range D B k) j).current_index.getD i 0 : Nat) : Int)
            < args.getD i 0) := by
          intro hlt
          apply hedge
          refine ⟨i, hai, hlt, ?_⟩
          show (List.map (fun x => x == 0) (unrank (block_counts D B) k)).getD i false = true
          rw [getD_map_bool _ _ _ (by omega), hbz]
          rfl
        have hci : (iter_at (block_range D B k) j).current_index.getD i 0
            = (unrank (block_range D B k).dimensions j).getD i 0 := rfl
        rw [hci] at hne
        omega
      · have h1 : B ≤ (unrank (block_counts D B) k).getD i 0 * B :=
          Nat.le_mul_of_pos_left _ (Nat.pos_of_ne_zero hbz)
        omega
  obtain ⟨hsD, hsle⟩ := sub_forall₂ _ _ D hle hgD
  have hdot := dot_sub _ _ (weights D) hle
  have hdist : lookback_distance (block_range D B k) args
      = ((dot (args.map Int.toNat) (weights D) : Nat) : Int) :=
    lookback_sum_eq args (weights D) (fun x hx => (habound x hx).1)
  obtain ⟨o1, -⟩ := dot_lt_and_unrank _ _ hsD
  refine ⟨hle, ?_, hsD, o1, by omega⟩
  rw [hoff, hdist]
  omega

theorem positions_offsets (D : List Nat) (B : Nat) :
    ((events D B).filterMap (fun e => e.2.map
      (fun j => (block_range D B e.1, iter_at (block_range D B e.1) j)))).map
        (fun p => p.2.current_offset) = element_offsets D B := by
  rw [List.map_filterMap, element_offsets]
  congr 1
  funext e
  obtain ⟨k, oj⟩ := e
  cases oj <;> rfl

theorem to_size_t_nat (o : Nat) (h : o < 2 ^ 64) : to_size_t (o : Int) = o := by
  unfold to_size_t
  have : ((o : Int) % 2 ^ 64) = (o : Int) := Int.emod_eq_of_lt (by omega) (by exact_mod_cast h)
  rw [this]
  rfl

theorem to_ptrdiff_t_nat (x : Nat) (h : x < 2 ^ 63) : to_ptrdiff_t x = (x : Int) := by
  unfold to_ptrdiff_t
  have hm : x % 2 ^ 64 = x := Nat.mod_eq_of_lt (by omega)
  rw [hm, if_pos h]

theorem global_index_loop_getElem? (gd : List Nat) (i o : Nat) (out : List Nat)
    (hi : i ≤ gd.length) (ho : o < 2 ^ 63) (hpos : ∀ j, j < i → gd.getD j 0 ≠ 0) :
    ∃ g, multi_dimensional_iterator.global_index_loop gd i (o : Int) out = some g
      ∧ ∀ j, g[j]? =
        if j < i ∧ j < out.length then
          some (o / ((gd.take i).drop (j + 1)).prod % gd.getD j 0)
        else out[j]? := by
  induction i generalizing o out with
  | zero =>
    refine ⟨out, rfl, ?_⟩
    intro j
    have : ¬ (j < 0 ∧ j < out.length) := by omega
    rw [if_neg this]
  | succ i ih =>
    have hq : o / gd.getD i 0 < 2 ^ 63 := lt_of_le_of_lt (Nat.div_le_self _ _) ho
    obtain ⟨g, hg, hgj⟩ := ih (o / gd.getD i 0) (out.set i (o % gd.getD i 0)) (by omega) hq
      (fun j hj => hpos j (by omega))
    refine ⟨g, ?_, ?_⟩
    · rw [multi_dimensional_iterator.global_index_loop, if_neg (hpos i (by omega)),
        to_size_t_nat o (by omega), to_ptrdiff_t_nat _ hq]
      exact hg
    intro j
    rw [hgj j, List.length_set, List.getElem?_set]
    have hgi : gd.take (i + 1) = gd.take i ++ [gd.getD i 0] := by
      rw [List.take_succ]
      congr 1
      rw [List.getD_eq_getElem?_getD, List.getElem?_eq_getElem (by omega)]
      rfl
    by_cases hji : j < i
    · have hne : ¬ i = j := by omega
      by_cases hl : j < out.length
      · rw [if_pos ⟨hji, hl⟩, if_pos ⟨by omega, hl⟩, hgi]
        have hlen : j + 1 ≤ (gd.take i).length := by
          rw [List.length_take]; omega
        rw [List.drop_append_of_le_length hlen, List.prod_append]
        simp only [List.prod_cons, List.prod_nil, mul_one]
        rw [Nat.div_div_eq_div_mul, Nat.mul_comm]
      · have h1 : ¬ (j < i ∧ j < out.length) := by omega
        have h2 : ¬ (j < i + 1 ∧ j < out.length) := by omega
        rw [if_neg h1, if_neg h2, if_neg hne]
    · have h1 : ¬ (j < i ∧ j < out.length) := by omega
      rw [if_neg h1]
      by_cases hij : i = j
      · subst hij
        rw [if_pos rfl]
        by_cases hl : i < out.length
        · rw [if_pos hl, if_pos ⟨by omega, hl⟩]
          have : (gd.take (i + 1)).drop (i + 1) = [] := by
            apply List.drop_eq_nil_of_le
            rw [List.length_take]; omega
          rw [this]; simp
        · have h2 : ¬ (i < i + 1 ∧ i < out.length) := by omega
          rw [if_neg hl, if_neg h2, List.getElem?_eq_none (by omega)]
      · have h2 : ¬ (j < i + 1 ∧ j < out.length) := by omega
        rw [if_neg hij, if_neg h2]

theorem unrank_getElem? (D : List Nat) (o : Nat) (ho : o < D.prod) (j : Nat) :
    (unrank D o)[j]? =
      if j < D.length then some (o / (D.drop (j + 1)).prod % D.getD j 0) else none := by
  induction D generalizing o j with
  | nil => simp [unrank]
  | cons n ns ih =>
    have hpos : 0 < ns.prod := by
      rcases Nat.eq_zero_or_pos ns.prod with h | h
      · rw [List.prod_cons, h, Nat.mul_zero] at ho
        omega
      · exact h
    cases j with
    | zero =>
      have h1 : o / ns.prod < n := by
        rw [List.prod_cons] at ho
        exact Nat.div_lt_of_lt_mul (by rw [Nat.mul_comm]; exact ho)
      simp [unrank, Nat.mod_eq_of_lt h1]
    | succ j =>
      have hstep : (unrank (n :: ns) o)[j + 1]? = (unrank ns (o % ns.prod))[j]? := by
        simp [unrank]
      rw [hstep, ih _ (Nat.mod_lt _ hpos)]
      by_cases hj : j < ns.length
      · rw [if_pos hj, if_pos (by simp; omega)]
        simp only [List.drop_succ_cons, List.getD_cons_succ, Option.some.injEq]
        have hsplit : ns.prod = (ns.drop (j + 1)).prod * ((ns.take j).prod * ns.getD j 0) := by
          conv_lhs => rw [← List.take_append_drop (j + 1) ns]
          rw [List.prod_append, List.take_succ, List.prod_append,
            List.getD_eq_getElem?_getD, List.getElem?_eq_getElem hj]
          simp only [Option.toList_some, List.prod_cons, List.prod_nil, mul_one, Option.getD_some]
          ring
        rw [hsplit, Nat.mod_mul_right_div_self, Nat.mod_mul_left_mod]
      · rw [if_neg hj, if_neg (by simp; omega)]

theorem get_global_index_vector_eq (r : multi_dimensional_range)
    (it : multi_dimensional_iterator) (o : Nat)
    (hlen : it.current_index.length = r.global_dimensions.length)
    (hoff : it.current_offset = (o : Int)) (ho : o < r.global_dimensions.prod)
    (ho63 : o < 2 ^ 63) :
    it.get_global_index_vector r = some (unrank r.global_dimensions o) := by
  have hpos : ∀ j, j < r.global_dimensions.length → r.global_dimensions.getD j 0 ≠ 0 := by
    intro j hj hz
    have hmem : (0 : Nat) ∈ r.global_dimensions := by
      rw [← hz, List.getD_eq_getElem _ _ hj]
      exact List.getElem_mem hj
    have := List.prod_eq_zero hmem
    omega
  unfold multi_dimensional_iterator.get_global_index_vector
  rw [hoff, hlen]
  obtain ⟨g, hg, hgj⟩ := global_index_loop_getElem? r.global_dimensions
    r.global_dimensions.length o (List.replicate r.global_dimensions.length 0) (le_refl _) ho63
    hpos
  rw [hg]
  congr 1
  apply List.ext_getElem?
  intro j
  rw [hgj j, unrank_getElem? _ _ ho, List.length_replicate, List.take_length]
  by_cases hj : j < r.global_dimensions.length
  · rw [if_pos ⟨hj, hj⟩, if_pos hj]
  · rw [if_neg (by omega), if_neg hj, List.getElem?_eq_none (by simp; omega)]

/-- The counter of `compress` after some steps: one more per element visited, and below
`2 ^ 31` if it was so before. -/
theorem compress_fold_count {T σP σQ : Type} (P : Predictor T σP) (Q : Quantizer T σQ)
    (D : List Nat) (B : Nat) (l : List (Nat × Option Nat)) :
    ∀ (s sf : compress_state T σP σQ),
      opt_fold (run_event D B (compress_block_pre P Q) (compress_element P Q)) l s = some sf →
      sf.count = s.count + (l.filterMap (event_offset D B)).length
      ∧ (s.count < 2 ^ 31 → sf.count < 2 ^ 31) := by
  induction l with
  | nil =>
    intro s sf h
    have : s = sf := by simpa [opt_fold] using h
    subst this
    exact ⟨by simp, fun h => h⟩
  | cons e l ih =>
    intro s sf h
    obtain ⟨s1, h1, h2⟩ := opt_fold_cons_some _ _ _ _ _ h
    obtain ⟨i1, i2⟩ := ih s1 sf h2
    obtain ⟨k, oj⟩ := e
    cases oj with
    | none =>
      have : s1 = compress_block_pre P Q (block_range D B k) s := (Option.some.inj h1).symm
      subst this
      refine ⟨?_, i2⟩
      simp only [List.filterMap_cons, event_offset, Option.map_none']
      exact i1
    | some j =>
      obtain ⟨x, data1, _, _, _, h31, hs1⟩ := compress_element_some P Q _ _ s s1 h1
      subst hs1
      simp only at i1 i2
      refine ⟨?_, fun _ => i2 h31⟩
      simp only [List.filterMap_cons, event_offset, Option.map_some', List.length_cons]
      omega

/-- With `2 ^ 31` elements or more the traversal of `compress` does not return: the
increment of `count` overflows. -/
theorem compress_traversal_overflow {T σP σQ σE : Type} (P : Predictor T σP)
    (Q : Quantizer T σQ) (fuel : Nat) (c : SZ_General_Compressor σP σQ σE) (data_ : List T)
    (hB : 1 ≤ c.block_size) (hne : c.global_dimensions ≠ [])
    (hD : ∀ d ∈ c.global_dimensions, 1 ≤ d) (hf : c.global_dimensions.prod < fuel)
    (hlen : c.num_elements ≤ data_.length) (h31 : 2 ^ 31 ≤ c.global_dimensions.prod) :
    compress_traversal P Q fuel c data_ = none := by
  rw [compress_traversal_eq P Q fuel c data_ hB hne hD hf hlen]
  cases hfold : opt_fold (run_event c.global_dimensions c.block_size (compress_block_pre P Q)
      (compress_element P Q)) (events c.global_dimensions c.block_size)
      (compress_start P Q c data_) with
  | none => rfl
  | some sf =>
    exfalso
    obtain ⟨h1, h2⟩ := compress_fold_count P Q _ _ _ _ _ hfold
    have hl := element_offsets_length c.global_dimensions c.block_size hB hD
    rw [element_offsets] at hl
    rw [hl] at h1
    have h0 : (compress_start P Q c data_).count = 0 := rfl
    rw [h0] at h1 h2
    have := h2 (by norm_num)
    omega

theorem probe_fold {T σQ : Type} (f : multi_dimensional_range → multi_dimensional_iterator → T)
    (Q : Quantizer T σQ) (D : List Nat) (B : Nat) (l : List (Nat × Option Nat)) :
    ∀ (s sf : compress_state T Unit σQ),
      opt_fold (run_event D B (compress_block_pre (probe_predictor f) Q)
        (compress_element (probe_predictor f) Q)) l s = some sf →
      sf.predictions = s.predictions ++ (l.filterMap (fun e => e.2.map
        (fun j => (block_range D B e.1, iter_at (block_range D B e.1) j)))).map
          (fun p => f p.1 p.2) := by
  induction l with
  | nil =>
    intro s sf h
    have : s = sf := by simpa [opt_fold] using h
    subst this
    simp
  | cons e l ih =>
    intro s sf h
    obtain ⟨s1, h1, h2⟩ := opt_fold_cons_some _ _ _ _ _ h
    have i1 := ih s1 sf h2
    obtain ⟨k, oj⟩ := e
    cases oj with
    | none =>
      have : s1 = compress_block_pre (probe_predictor f) Q (block_range D B k) s :=
        (Option.some.inj h1).symm
      subst this
      rw [i1]
      simp [compress_block_pre]
    | some j =>
      obtain ⟨x, data1, _, _, _, _, hs1⟩ := compress_element_some (probe_predictor f) Q _ _ s s1 h1
      subst hs1
      rw [i1]
      simp [probe_predictor]

/-- The predictions recorded by `compress` with a probe predictor are the values of the
probe at the positions the nested loops visit, in order. -/
theorem compress_probe {T σQ σE : Type}
    (f : multi_dimensional_range → multi_dimensional_iterator → T) (Q : Quantizer T σQ)
    (fuel : Nat) (c : SZ_General_Compressor Unit σQ σE) (data_ : List T)
    (hB : 1 ≤ c.block_size) (hne : c.global_dimensions ≠ [])
    (hD : ∀ d ∈ c.global_dimensions, 1 ≤ d) (hf : c.global_dimensions.prod < fuel)
    (hn : c.num_elements = c.global_dimensions.prod) (hlen : c.num_elements ≤ data_.length)
    (h31 : c.global_dimensions.prod < 2 ^ 31) :
    ∃ s positions, compress_traversal (probe_predictor f) Q fuel c data_ = some s
      ∧ visited_positions fuel c.global_dimensions c.block_size = some positions
      ∧ s.predictions = positions.map (fun p => f p.1 p.2)
      ∧ positions.map (fun p => p.2.get_offset)
          = element_offsets c.global_dimensions c.block_size := by
  obtain ⟨s1, hs, -⟩ := compress_run (probe_predictor f) Q c data_ hB hD hn hlen h31
  refine ⟨compress_finish (probe_predictor f) Q c s1, _, ?_,
    visited_positions_eq c.global_dimensions c.block_size fuel hB hne hD hf, ?_,
    positions_offsets c.global_dimensions c.block_size⟩
  · rw [compress_traversal_eq (probe_predictor f) Q fuel c data_ hB hne hD hf hlen, hs]
    rfl
  · have := probe_fold f Q _ _ _ _ _ hs
    show s1.predictions = _
    rw [this]
    simp [compress_start]

/-- Why the indices must be values of type `int`: the uniform quantizer without saturation
recovers what it wrote back, but on the 1-D array `[2 ^ 33]` with the predictor that
predicts 0 it returns the index `2 ^ 32`, which is stored in the `int` vector as 0; the
buffer of `compress` ends as `[2 ^ 33]` and the array of `decompress` as `[0]`. -/
theorem narrowed_index_breaks_agreement :
    recover_matches (uniform_quantizer 1)
    ∧ ((uniform_quantizer 1).quantize_and_overwrite () 8589934592 0).1 = 2 ^ 32
    ∧ ∃ sc sd,
        compress_traversal zero_predictor (uniform_quantizer 1) 2
          (SZ_General_Compressor.create 1 () () () [1] : SZ_General_Compressor Unit Unit Unit)
          [8589934592] = some sc
        ∧ decompress_traversal zero_predictor (uniform_quantizer 1) 2 1 [1] 1 1 () ()
            sc.quant_inds = some sd
        ∧ sc.quant_inds = [0] ∧ sc.data = [8589934592] ∧ sd.dec_data = [0] :=
  ⟨fun _ _ _ _ => rfl, by decide,
    { data := [8589934592], quant_inds := [0], count := 1, predictor := (),
      quantizer := (), predictions := [0] },
    { dec_data := [0], quant_inds_pos := 1, predictor := (), quantizer := (),
      predictions := [0] }, rfl, rfl, rfl, rfl, rfl⟩

end SZ

namespace SZ

/-! ## The claims -/

/-- C6 (iterator odometer, forward).  For a range with at least one axis and all
extents at least 1 whose offsets are set to `s` after its extents, applying `operator++`
as many times as the product of the extents to `begin()` gives an iterator whose offset
is `end_offset`, which is `s + dimensions[0] * dim_strides[0]`. -/
theorem C6_forward_odometer (r : multi_dimensional_range) (s : Int) (hr : well_formed r) :
    ((fun it => multi_dimensional_iterator.operator_incr (r.set_offsets s) it)^[r.dimensions.prod]
        (r.set_offsets s).begin).current_offset = (r.set_offsets s).end_offset
    ∧ (r.set_offsets s).end_offset
        = s + ((r.dimensions.getD 0 0 * r.dim_strides.getD 0 0 : Nat) : Int) := by
  refine ⟨?_, rfl⟩
  have hr2 : well_formed (r.set_offsets s) := hr
  rw [iterate_operator_incr _ hr2]
  obtain ⟨hne, hsl, hpos⟩ := hr
  obtain ⟨n0, ns, hd⟩ := List.exists_cons_of_ne_nil hne
  have hnspos : 0 < ns.prod := by
    apply List.prod_pos
    intro d hdm
    exact hpos d (by rw [hd]; exact List.mem_cons_of_mem _ hdm)
  have hd2 : (r.set_offsets s).dimensions = n0 :: ns := hd
  have hs2 : (r.set_offsets s).dim_strides = r.dim_strides := rfl
  rcases hst : r.dim_strides with _ | ⟨s0, ss⟩
  · rw [hst, hd] at hsl; simp at hsl
  · simp only [iter_at, hd2, hs2, hst, hd, unrank_prod n0 ns hnspos, dot_cons,
      dot_replicate_zero, multi_dimensional_range.set_offsets, List.getD_cons_zero, add_zero]

/-- Witness for C6: the block grid range of shape (5, 5) with access stride 2, re-seated
at offset 7; nine increments lead from offset 7 to the end offset 37. -/
theorem C6_forward_odometer_witness :
    well_formed example_grid_range ∧
    ((fun it => multi_dimensional_iterator.operator_incr (example_grid_range.set_offsets 7) it)^[9]
        (example_grid_range.set_offsets 7).begin).current_offset = 37 :=
  ⟨by decide, (C6_forward_odometer example_grid_range 7 (by decide)).1⟩

/-- C4 (block tiling covers the array exactly once): what the code does instead.  For a
shape `D` with at least one axis and all extents at least 1 and a block size `B` at least
1, the nested loops of the driver (given fuel beyond the element count `P`) terminate, and
the offsets of the positions they visit are a rearrangement of `0, .., P - 1`.  When `P`
is below `2 ^ 31`, `compress` returns with exactly `P` indices recorded, and with a probe
as predictor its predictions are the values of the probe at the visited positions, in
order.  But `compress` counts the recorded indices in an `int`: with `2 ^ 31` elements or
more the increment of `count` overflows and `compress` does not return with `P` indices
recorded. -/
theorem C4_index_count_overflows {T σP σQ σE : Type} (P : Predictor T σP)
    (Q : Quantizer T σQ) (p : σP) (q : σQ) (e : σE) (data_ : List T)
    (D : List Nat) (B fuel : Nat) (hne : D ≠ []) (hD : ∀ d ∈ D, 1 ≤ d) (hB : 1 ≤ B)
    (hf : D.prod < fuel) (hlen : D.prod ≤ data_.length) :
    ∃ visited positions,
      visited_offsets fuel D B = some visited
      ∧ visited_positions fuel D B = some positions
      ∧ positions.map (fun x => x.2.get_offset) = visited
      ∧ visited.Perm ((List.range D.prod).map (fun o : Nat => (o : Int)))
      ∧ (∀ o : Nat, o < D.prod → visited.count (o : Int) = 1)
      ∧ visited.length = D.prod
      ∧ (D.prod < 2 ^ 31 →
          (∃ s, compress_traversal P Q fuel
              (SZ_General_Compressor.create B p q e D : SZ_General_Compressor σP σQ σE) data_
                = some s
            ∧ s.count = D.prod ∧ s.quant_inds.length = D.prod ∧ s.predictions.length = D.prod)
          ∧ ∀ f : multi_dimensional_range → multi_dimensional_iterator → T,
              ∃ s, compress_traversal (probe_predictor f) Q fuel
                  (SZ_General_Compressor.create B () q e D : SZ_General_Compressor Unit σQ σE)
                  data_ = some s
                ∧ s.predictions = positions.map (fun x => f x.1 x.2))
      ∧ (2 ^ 31 ≤ D.prod →
          compress_traversal P Q fuel
            (SZ_General_Compressor.create B p q e D : SZ_General_Compressor σP σQ σE) data_
              = none) := by
  obtain ⟨c1, c2, c3⟩ := create_fields B hB p q e D
  obtain ⟨u1, u2, u3⟩ := create_fields B hB () q e D
  refine ⟨element_offsets D B, _, visited_offsets_eq D B fuel hB hne hD hf,
    visited_positions_eq D B fuel hB hne hD hf, positions_offsets D B,
    element_offsets_perm D B hB hD, ?_, element_offsets_length D B hB hD, ?_, ?_⟩
  · intro o ho
    apply List.count_eq_one_of_mem (element_offsets_nodup D B hB hD)
    rw [(element_offsets_perm D B hB hD).mem_iff]
    exact List.mem_map.mpr ⟨o, List.mem_range.mpr ho, rfl⟩
  · intro h31
    constructor
    · rw [compress_traversal_eq P Q fuel _ data_ (by rw [c1]; exact hB) (by rw [c2]; exact hne)
        (by rw [c2]; exact hD) (by rw [c2]; exact hf) (by rw [c3]; exact hlen)]
      obtain ⟨s1, hs, _, g2, g3, g4⟩ := compress_run P Q
        (SZ_General_Compressor.create B p q e D : SZ_General_Compressor σP σQ σE) data_
        (by rw [c1]; exact hB) (by rw [c2]; exact hD) (by rw [c3, c2]) (by rw [c3]; exact hlen)
        (by rw [c2]; exact h31)
      rw [hs]
      rw [c2] at g2 g3 g4
      exact ⟨_, rfl, g3, g2, g4⟩
    · intro f
      obtain ⟨s, positions, k1, k2, k3, -⟩ := compress_probe f Q fuel
        (SZ_General_Compressor.create B () q e D : SZ_General_Compressor Unit σQ σE) data_
        (by rw [u1]; exact hB) (by rw [u2]; exact hne) (by rw [u2]; exact hD)
        (by rw [u2]; exact hf) (by rw [u3, u2]) (by rw [u3]; exact hlen) (by rw [u2]; exact h31)
      rw [u1, u2, visited_positions_eq D B fuel hB hne hD hf] at k2
      have hp := Option.some.inj k2
      rw [← hp] at k3
      exact ⟨s, k1, k3⟩
  · intro h31
    exact compress_traversal_overflow P Q fuel _ data_ (by rw [c1]; exact hB)
      (by rw [c2]; exact hne) (by rw [c2]; exact hD) (by rw [c2]; exact hf)
      (by rw [c3]; exact hlen) (by rw [c2]; exact h31)

/-- Witness for C4: on the 1-D array of `2 ^ 31 + 1` zeros, with the predictor that
always predicts 0 and the uniform quantizer, `compress` does not return; on shape (5, 5)
with block size 2 it records 25 indices. -/
theorem C4_index_count_overflows_witness :
    (([2147483649] : List Nat) ≠ [] ∧ (∀ d ∈ ([2147483649] : List Nat), 1 ≤ d) ∧ 1 ≤ 128
      ∧ ([2147483649] : List Nat).prod < 2147483650
      ∧ ([2147483649] : List Nat).prod ≤ (List.replicate 2147483649 (0 : Int)).length
      ∧ 2 ^ 31 ≤ ([2147483649] : List Nat).prod)
    ∧ compress_traversal zero_predictor (uniform_quantizer 1) 2147483650
        (SZ_General_Compressor.create 128 () () () [2147483649] :
          SZ_General_Compressor Unit Unit Unit) (List.replicate 2147483649 (0 : Int)) = none
    ∧ (compress_traversal zero_predictor (uniform_quantizer 1) 26
        (SZ_General_Compressor.create 2 () () () [5, 5] : SZ_General_Compressor Unit Unit Unit)
        (List.replicate 25 (3 : Int))).map (fun s => (s.count, s.quant_inds.length))
        = some (25, 25) := by
  have hlen : ([2147483649] : List Nat).prod ≤ (List.replicate 2147483649 (0 : Int)).length := by
    rw [List.length_replicate]
    decide
  refine ⟨⟨by decide, by decide, by decide, by decide, hlen, by decide⟩, ?_, by decide⟩
  obtain ⟨visited, positions, -, -, -, -, -, -, -, hover⟩ :=
    C4_index_count_overflows zero_predictor (uniform_quantizer 1) () () ()
      (List.replicate 2147483649 (0 : Int)) [2147483649] 128 2147483650 (by decide) (by decide)
      (by decide) (by decide) hlen
  exact hover (by decide)

/-- C10 (default block size).  A compressor built with block-size parameter 0 has
effective block size 128 for one axis, 16 for two axes and 6 for three or more axes;
built with a non-zero parameter `b + 1` it has exactly that block size; and its element
count is the product of the extents passed to the constructor. -/
theorem C10_default_block_size {σP σQ σE : Type} (p : σP) (q : σQ) (e : σE) :
    (∀ d0 : Nat, (SZ_General_Compressor.create 0 p q e [d0]).block_size = 128)
    ∧ (∀ d0 d1 : Nat, (SZ_General_Compressor.create 0 p q e [d0, d1]).block_size = 16)
    ∧ (∀ (d0 d1 d2 : Nat) (rest : List Nat),
        (SZ_General_Compressor.create 0 p q e (d0 :: d1 :: d2 :: rest)).block_size = 6)
    ∧ (∀ (b : Nat) (dims : List Nat),
        (SZ_General_Compressor.create (b + 1) p q e dims).block_size = b + 1)
    ∧ (∀ (b : Nat) (dims : List Nat),
        (SZ_General_Compressor.create b p q e dims).num_elements = dims.prod)
    ∧ (∀ (b : Nat) (dims : List Nat),
        (SZ_General_Compressor.create b p q e dims).global_dimensions = dims) := by
  refine ⟨fun _ => rfl, fun _ _ => rfl, fun _ _ _ _ => rfl, fun _ _ => rfl, ?_, fun _ _ => rfl⟩
  intro b dims
  exact count_elements_eq_prod dims

/-- C7 (iterator odometer, backward): what the code does instead.  `operator--` moves the
offset forward by the stride of the last axis, whatever the iterator: its loop never
runs, and the offset is initialised with `+ dim_strides[N - 1]`.  On the 1-D range over 3
elements, three decrements from `end()` (offset 3) lead to offset 6, not to the start
offset 0, and `--` after `++` from `begin()` restores the index 0 but leaves offset 2,
not 0. -/
theorem C7_decrement_moves_forward :
    (∀ (r : multi_dimensional_range) (it : multi_dimensional_iterator),
      (multi_dimensional_iterator.operator_decr r it).current_offset
        = it.current_offset + (r.dim_strides.getD (it.current_index.length - 1) 0 : Int))
    ∧ example_line_range.dimensions.prod = 3
    ∧ example_line_range.start_offset = 0
    ∧ ((fun it => multi_dimensional_iterator.operator_decr example_line_range it)^[3]
        example_line_range.end_).current_offset = 6
    ∧ multi_dimensional_iterator.operator_decr example_line_range
        (multi_dimensional_iterator.operator_incr example_line_range example_line_range.begin)
        = { current_index := [0], current_offset := 2 }
    ∧ example_line_range.begin = { current_index := [0], current_offset := 0 } := by
  refine ⟨?_, by decide, by decide, by decide, by decide, by decide⟩
  intro r it
  simp only [multi_dimensional_iterator.operator_decr, decr_loop_eq]

/-- C8 (neighbour look-back edge policy).  For a look-back vector with one entry per axis,
each a non-negative `int`: if some axis has `current_index[i] < p[i]` and is flagged as
starting at the global origin, `prev` returns 0; otherwise it returns the element stored
at offset `current_offset - sum_i p[i] * global_dim_strides[i]`. -/
theorem C8_lookback_edge_policy {T : Type} [Zero T] (r : multi_dimensional_range)
    (it : multi_dimensional_iterator) (data : List T) (args : List Int)
    (hlen : args.length = it.current_index.length)
    (hargs : ∀ x ∈ args, 0 ≤ x ∧ x < 2 ^ 31) :
    (lookback_at_edge r it args → multi_dimensional_iterator.prev r it data args = some 0)
    ∧ (¬ lookback_at_edge r it args →
        multi_dimensional_iterator.prev r it data args
          = read_at data (it.current_offset - lookback_distance r args)) :=
  prev_eq r it data args hlen hargs

/-- Witness for C8: in the (4, 4) block at global index (0, 0), at position (0, 1),
`prev(0, 2)` is 0 and `prev(0, 1)` is the element at (0, 0). -/
theorem C8_lookback_edge_policy_witness :
    lookback_at_edge example_block_range { current_index := [0, 1], current_offset := 1 } [0, 2]
    ∧ multi_dimensional_iterator.prev example_block_range
        { current_index := [0, 1], current_offset := 1 } example_array [0, 2] = some 0
    ∧ ¬ lookback_at_edge example_block_range { current_index := [0, 1], current_offset := 1 }
        [0, 1]
    ∧ multi_dimensional_iterator.prev example_block_range
        { current_index := [0, 1], current_offset := 1 } example_array [0, 1] = some 100
    ∧ read_at example_array 0 = some 100 := by
  have e1 : lookback_at_edge example_block_range
      { current_index := [0, 1], current_offset := 1 } [0, 2] := ⟨1, by decide, by decide, by decide⟩
  have e2 : ¬ lookback_at_edge example_block_range
      { current_index := [0, 1], current_offset := 1 } [0, 1] := by
    rintro ⟨i, hi, h2, _⟩
    have hi' : i < 2 := hi
    interval_cases i
    · exact absurd h2 (by decide)
    · exact absurd h2 (by decide)
  refine ⟨e1, ?_, e2, ?_, by decide⟩
  · exact (C8_lookback_edge_policy example_block_range
      { current_index := [0, 1], current_offset := 1 } example_array [0, 2] (by decide)
      (by decide)).1 e1
  · have := (C8_lookback_edge_policy example_block_range
      { current_index := [0, 1], current_offset := 1 } example_array [0, 1] (by decide)
      (by decide)).2 e2
    rw [this]
    decide

/-- C5 (block count).  For a shape `D` with at least one axis and all extents at least 1,
and a block size `B` at least 1, the loop over the inter-block range from `begin()` until
the iterator equals `end()` stops at exactly `prod_i ceil(d_i / B)` iterators; their
block index vectors are pairwise distinct, lie below `ceil(d_i / B)` on every axis, and
the offset of each is `sum_i b_i * B * prod_{j > i} d_j`. -/
theorem C5_block_count (D : List Nat) (B fuel : Nat) (hne : D ≠ []) (hD : ∀ d ∈ D, 1 ≤ d)
    (hB : 1 ≤ B) (hf : (D.map (fun d => (d + B - 1) / B)).prod < fuel) :
    ∃ blocks, block_iterators fuel D B = some blocks
      ∧ blocks.length = (D.map (fun d => (d + B - 1) / B)).prod
      ∧ (blocks.map (fun b => b.get_current_index_vector)).Nodup
      ∧ ∀ b ∈ blocks,
          List.Forall₂ (fun x n => x < n) b.get_current_index_vector
            (D.map (fun d => (d + B - 1) / B))
          ∧ b.get_offset
              = ((dot (b.get_current_index_vector.map (fun x => x * B)) (weights D) : Nat) : Int)
      := by
  rw [← block_counts_eq_ceil D B hB hD] at hf ⊢
  refine ⟨_, block_iterators_eq D B fuel hB hne hD hf, by simp, ?_, ?_⟩
  · rw [List.map_map]
    apply List.Nodup.map_on _ (List.nodup_range _)
    intro k hk k' hk' h
    have e1 := dot_unrank_lt _ _ (List.mem_range.mp hk)
    have e2 := dot_unrank_lt _ _ (List.mem_range.mp hk')
    have h' : unrank (block_counts D B) k = unrank (block_counts D B) k' := h
    rw [h'] at e1
    omega
  · intro b hb
    obtain ⟨k, hk, rfl⟩ := List.mem_map.mp hb
    refine ⟨block_index_lt D B k (List.mem_range.mp hk), ?_⟩
    simp only [multi_dimensional_iterator.get_offset,
      multi_dimensional_iterator.get_current_index_vector, iter_at, inter_range, zero_add,
      dot_map_mul_right, dot_map_mul_left]

/-- Witness for C5: shape (5, 5) with block size 2 gives 9 blocks, and shape (8, 8, 8) with
block size 6 gives 8. -/
theorem C5_block_count_witness :
    (block_iterators 10 [5, 5] 2).map List.length = some 9
    ∧ (block_iterators 10 [8, 8, 8] 6).map List.length = some 8 := by
  obtain ⟨b1, h1, h2, _⟩ := C5_block_count [5, 5] 2 10 (by decide) (by decide) (by decide)
    (by decide)
  obtain ⟨b2, g1, g2, _⟩ := C5_block_count [8, 8, 8] 6 10 (by decide) (by decide) (by decide)
    (by decide)
  rw [h1, g1, Option.map_some', Option.map_some', h2, g2]
  exact ⟨rfl, rfl⟩

/-- C1 (round trip under tolerance): what the code does instead.  The uniform quantizer
of bound 2 keeps every value it writes back within 2 of the original and recovers what it
wrote, but `compress` does not hand its argument `eb` to it: with `eb = 1`, the array
`[2, 2, 2, 2]` comes back from `decompress` as `[4, 4, 4, 4]`, at distance 2 from the
input.  And with components that serialise no bytes (zero input, eliding encoder),
`decompress` gives no array at all for the buffer `compress` produced. -/
theorem C1_error_bound_not_honoured :
    (∀ (s : Unit) (x pred : Int),
      |x - ((uniform_quantizer 2).quantize_and_overwrite s x pred).2.1| ≤ 2)
    ∧ recover_matches (uniform_quantizer 2)
    ∧ ((compress zero_predictor (uniform_quantizer 2) raw_encoder 5
          (SZ_General_Compressor.create 0 () () () [4]) [2, 2, 2, 2] 1).bind
        (fun r => (decompress (T := Int) zero_predictor (uniform_quantizer 2) raw_encoder 5
          r.compressor r.bytes r.compressed_size).map (fun d => d.dec_data)))
        = some [4, 4, 4, 4]
    ∧ ¬ (((|(2 : Int) - 4| : Int) : ℚ) ≤ 1)
    ∧ ((compress zero_predictor (uniform_quantizer 1) elide_encoder 5
          (SZ_General_Compressor.create 0 () () false [4]) [0, 0, 0, 0] 1).bind
        (fun r => (decompress (T := Int) zero_predictor (uniform_quantizer 1) elide_encoder 5
          r.compressor r.bytes r.compressed_size).map (fun d => d.dec_data)))
        = none := by
  refine ⟨fun s x pred => uniform_quantizer_bound 2 (by decide) s x pred,
    fun _ _ _ _ => rfl, by decide, by norm_num, by decide⟩

/-- C3 (encoder-decoder agreement): what the code does instead.  The eliding encoder
decodes what it encoded, and every component loads exactly the (zero) bytes it saved.
For the all-zero input of shape (4) `compress` collects the indices `[0, 0, 0, 0]` and
returns a buffer of 12 bytes, the header alone; on that buffer the second header read of
`decompress` fails, so `encoder.decode` is never reached and no index sequence is
obtained. -/
theorem C3_decode_not_reached :
    encoder_round_trip elide_encoder
    ∧ load_consumes_save zero_predictor.save zero_predictor.load
    ∧ load_consumes_save (uniform_quantizer 1).save (uniform_quantizer 1).load
    ∧ (compress_traversal zero_predictor (uniform_quantizer 1) 5
          (SZ_General_Compressor.create 0 () () false [4]) [0, 0, 0, 0]).map
        (fun s => s.quant_inds) = some [0, 0, 0, 0]
    ∧ (compress zero_predictor (uniform_quantizer 1) elide_encoder 5
          (SZ_General_Compressor.create 0 () () false [4]) [0, 0, 0, 0] 1).map
        (fun r => (r.bytes, r.compressed_size)) = some ([4, 0, 0, 0, 0, 0, 0, 0, 128, 0, 0, 0], 12)
    ∧ ((compress zero_predictor (uniform_quantizer 1) elide_encoder 5
          (SZ_General_Compressor.create 0 () () false [4]) [0, 0, 0, 0] 1).bind
        (fun r => (deserialize (T := Int) zero_predictor (uniform_quantizer 1) elide_encoder
          r.compressor r.bytes r.compressed_size).map (fun d => d.quant_inds))) = none := by
  refine ⟨?_, fun s _ _ _ => ⟨_, rfl⟩, fun s _ _ _ => ⟨_, rfl⟩, by decide, by decide, by decide⟩
  intro s0 a q rest n h
  exact ⟨_, rfl, elide_roundtrip s0 a q rest h⟩

/-- C9 (byte layout and header integrity): what the code does instead.  A buffer that
holds exactly the header is rejected by the header reads of `decompress`, whatever its
contents.  For the all-zero input of shape (4) with components that serialise no bytes,
`compress` returns the 12 header bytes (shape 4 in eight bytes, block size 128 in four)
with `compressed_size = 12`, and `decompress` does not read the shape and block size
back from them. -/
theorem C9_exact_header_rejected :
    (∀ (N : Nat) (buf : List Nat), read_header N buf (N * 8 + 4) = none)
    ∧ (compress zero_predictor (uniform_quantizer 1) elide_encoder 5
          (SZ_General_Compressor.create 0 () () false [4]) [0, 0, 0, 0] 1).map
        (fun r => (r.bytes, r.compressed_size)) = some ([4, 0, 0, 0, 0, 0, 0, 0, 128, 0, 0, 0], 12)
    ∧ array_of_bytes [4, 0, 0, 0, 0, 0, 0, 0] 1 = [4] ∧ from_bytes [128, 0, 0, 0] = 128
    ∧ ((compress zero_predictor (uniform_quantizer 1) elide_encoder 5
          (SZ_General_Compressor.create 0 () () false [4]) [0, 0, 0, 0] 1).bind
        (fun r => (read_header 1 r.bytes r.compressed_size).map (fun h => (h.1, h.2.1)))) = none
    ∧ ((compress zero_predictor (uniform_quantizer 1) elide_encoder 5
          (SZ_General_Compressor.create 0 () () false [4]) [0, 0, 0, 0] 1).bind
        (fun r => (decompress (T := Int) zero_predictor (uniform_quantizer 1) elide_encoder 5
          r.compressor r.bytes r.compressed_size).map (fun d => d.dec_data))) = none := by
  refine ⟨read_header_exact, by decide, by decide, by decide, by decide, by decide⟩

/-- C11 as stated fails.  On the range built over a 1-D array of 4 elements the relation
holds after the constructor (`end_offset = 4 = 0 + 4 * 1`); after `set_dimensions` with
the sequence (2) the extent of axis 0 is 2 while `end_offset` is still 4, not
`0 + 2 * 1`. -/
theorem C11_counterexample :
    ∃ r, multi_dimensional_range.create 1 [4] 1 0 = some r
      ∧ offset_invariant r
      ∧ (run_calls [mutator_call.set_dimensions [2]] r).dimensions = [2]
      ∧ (run_calls [mutator_call.set_dimensions [2]] r).dim_strides = [1]
      ∧ (run_calls [mutator_call.set_dimensions [2]] r).start_offset = 0
      ∧ (run_calls [mutator_call.set_dimensions [2]] r).end_offset = 4
      ∧ ¬ offset_invariant (run_calls [mutator_call.set_dimensions [2]] r) :=
  ⟨_, rfl, by decide, rfl, rfl, rfl, rfl, by decide⟩

/-- C11 (range offset invariant), amended.  In every state reached from the constructor
by a sequence of calls of `set_dimensions`, `set_offsets`, `set_starting_position` and
`set_access_stride` in which no `set_dimensions` call comes after the last `set_offsets`
call (the constructor sets the offsets itself), `end_offset = start_offset +
dimensions[0] * dim_strides[0]`. -/
theorem C11_offset_invariant (N : Nat) (gd : List Nat) (stride_ : Nat) (offset_ : Int)
    (ms : List mutator_call) (r : multi_dimensional_range)
    (hr : multi_dimensional_range.create N gd stride_ offset_ = some r)
    (hms : dimensions_pending false ms = false) :
    offset_invariant (run_calls ms r) :=
  run_calls_invariant ms false r (fun _ => create_offset_invariant N gd stride_ offset_ r hr) hms

/-- Witness for C11: the intra-block range of shape (5, 5), re-seated as the driver does
on the block at block index (2, 1): extents (1, 2), offset 22, flags from (2, 1). -/
theorem C11_offset_invariant_witness :
    ∃ r, multi_dimensional_range.create 2 [5, 5] 1 0 = some r
      ∧ dimensions_pending false
          [mutator_call.set_dimensions [1, 2], mutator_call.set_offsets 22,
            mutator_call.set_starting_position [2, 1]] = false
      ∧ offset_invariant (run_calls
          [mutator_call.set_dimensions [1, 2], mutator_call.set_offsets 22,
            mutator_call.set_starting_position [2, 1]] r)
      ∧ (run_calls
          [mutator_call.set_dimensions [1, 2], mutator_call.set_offsets 22,
            mutator_call.set_starting_position [2, 1]] r).end_offset = 27 :=
  ⟨_, rfl, rfl, C11_offset_invariant 2 [5, 5] 1 0 _ _ rfl rfl, rfl⟩

/-- C12 (range construction).  The range freshly constructed from a shape `D` with all
extents at least 1, an access stride `a` at least 1 and a start offset `o` has on every
axis `i`: `global_dim_strides[i] = a * prod_{j > i} d_j`, `dimensions[i] = ceil(d_i / a)`,
`dim_strides[i] = global_dim_strides[i]` and the flag `start_position[i]` false; its
start offset is `o` and its end offset `o + ceil(d_0 / a) * a * prod_{j > 0} d_j`. -/
theorem C12_range_construction (D : List Nat) (a : Nat) (o : Int) (hD : ∀ d ∈ D, 1 ≤ d)
    (ha : 1 ≤ a) :
    ∃ r, multi_dimensional_range.create D.length D a o = some r
      ∧ (∀ i, i < D.length →
          r.global_dim_strides.getD i 0 = a * (D.drop (i + 1)).prod
          ∧ r.dimensions.getD i 0 = (D.getD i 0 + a - 1) / a
          ∧ r.dim_strides.getD i 0 = r.global_dim_strides.getD i 0
          ∧ r.start_position.getD i true = false)
      ∧ r.global_dimensions = D ∧ r.access_stride = a
      ∧ r.global_dim_strides.length = D.length ∧ r.dimensions.length = D.length
      ∧ r.dim_strides.length = D.length ∧ r.start_position.length = D.length
      ∧ r.start_offset = o
      ∧ r.end_offset = o + (((D.getD 0 0 + a - 1) / a * (a * (D.drop 1).prod) : Nat) : Int) := by
  have hdim : ∀ i, i < D.length →
      ((List.range D.length).map (fun i => (D.getD i 0 - 1) / a + 1)).getD i 0
        = (D.getD i 0 + a - 1) / a := by
    intro i hi
    rw [getD_range_map _ _ _ hi]
    apply ceil_div_eq a _ ha
    apply hD
    rw [List.getD_eq_getElem _ _ hi]
    exact List.getElem_mem hi
  have hgs : ∀ i, i < D.length →
      ((weights D).map (fun w => a * w * 1)).getD i 0 = a * (D.drop (i + 1)).prod := by
    intro i hi
    rw [getD_map_nat _ _ _ (by rw [weights_length]; exact hi), weights_getD _ _ hi, Nat.mul_one]
  have hds : ∀ i, i < D.length →
      ((weights D).map (fun w => 1 * w * a)).getD i 0 = a * (D.drop (i + 1)).prod := by
    intro i hi
    rw [getD_map_nat _ _ _ (by rw [weights_length]; exact hi), weights_getD _ _ hi, Nat.one_mul,
      Nat.mul_comm]
  refine ⟨_, create_eq D a o ha hD, ?_, rfl, rfl, by simp [weights_length], by simp,
    by simp [weights_length], by simp, rfl, ?_⟩
  · intro i hi
    refine ⟨hgs i hi, hdim i hi, ?_, getD_replicate_false _ _ hi⟩
    show ((weights D).map (fun w => 1 * w * a)).getD i 0
      = ((weights D).map (fun w => a * w * 1)).getD i 0
    rw [hgs i hi, hds i hi]
  · show o + _ = o + _
    congr 2
    by_cases hl : 0 < D.length
    · rw [hdim 0 hl, hds 0 hl]
    · have hnil : D = [] := List.length_eq_zero.mp (by omega)
      subst hnil
      have : (0 + a - 1) / a = 0 := by
        rw [Nat.div_eq_zero_iff (by omega)]
        omega
      show (0 * 0 : Nat) = (0 + a - 1) / a * (a * 1)
      rw [this, Nat.zero_mul, Nat.zero_mul]

/-- Witness for C12: shape (5, 5) at access stride 2 from offset 0, the block grid of
scenario E2: strides (10, 2), extents (3, 3), end offset 30. -/
theorem C12_range_construction_witness :
    ((∀ d ∈ ([5, 5] : List Nat), 1 ≤ d) ∧ 1 ≤ 2)
    ∧ ∃ r, multi_dimensional_range.create 2 [5, 5] 2 0 = some r
      ∧ r.global_dim_strides.getD 0 0 = 10 ∧ r.global_dim_strides.getD 1 0 = 2
      ∧ r.dimensions.getD 0 0 = 3 ∧ r.dimensions.getD 1 0 = 3
      ∧ r.dim_strides.getD 0 0 = 10 ∧ r.dim_strides.getD 1 0 = 2
      ∧ r.start_position.getD 0 true = false ∧ r.start_position.getD 1 true = false
      ∧ r.start_offset = 0 ∧ r.end_offset = 30 := by
  refine ⟨⟨by decide, by decide⟩, ?_⟩
  obtain ⟨r, h, hax, -, -, -, -, -, -, hs, he⟩ :=
    C12_range_construction [5, 5] 2 0 (by decide) (by decide)
  obtain ⟨a1, a2, a3, a4⟩ := hax 0 (by decide)
  obtain ⟨b1, b2, b3, b4⟩ := hax 1 (by decide)
  exact ⟨r, h, a1, b1, a2, b2, a3.trans a1, b3.trans b1, a4, b4, hs, he⟩

/-- C13 (the full-array walk is row-major and has `P` steps).  For a shape `D` with at
least one axis and all extents at least 1, the loop from `begin()` to `end()` over the
range built with access stride 1 and start offset 0 (given fuel beyond `P`) stops at
exactly `P = prod_i d_i` iterators; the `k`-th of them is at linear offset `k`, and its
per-axis index is the vector of mixed-radix digits of `k` in base `D` with the last axis
least significant: every entry is below the extent of its axis, and the entries weighted
by the products of the later extents sum to `k`. -/
theorem C13_full_walk_row_major (D : List Nat) (fuel : Nat) (hne : D ≠ [])
    (hD : ∀ d ∈ D, 1 ≤ d) (hf : D.prod < fuel) :
    ∃ its, full_walk fuel D = some its
      ∧ its.length = D.prod
      ∧ ∀ k, k < D.prod →
          ∃ it, its[k]? = some it
            ∧ it.get_offset = (k : Int)
            ∧ it.get_current_index_vector = unrank D k
            ∧ List.Forall₂ (fun c n => c < n) it.get_current_index_vector D
            ∧ dot it.get_current_index_vector (weights D) = k := by
  refine ⟨_, full_walk_eq D fuel hne hD hf, by simp, ?_⟩
  intro k hk
  refine ⟨{ current_index := unrank D k, current_offset := (k : Int) }, ?_, rfl, rfl,
    unrank_lt D k hk, dot_unrank_lt D k hk⟩
  rw [List.getElem?_map, List.getElem?_range hk]
  rfl

/-- Witness for C13: shape (2, 3); the six iterators in order. -/
theorem C13_full_walk_row_major_witness :
    (([2, 3] : List Nat) ≠ [] ∧ (∀ d ∈ ([2, 3] : List Nat), 1 ≤ d) ∧ ([2, 3] : List Nat).prod < 7)
    ∧ full_walk 7 [2, 3] = some
        [{ current_index := [0, 0], current_offset := 0 },
         { current_index := [0, 1], current_offset := 1 },
         { current_index := [0, 2], current_offset := 2 },
         { current_index := [1, 0], current_offset := 3 },
         { current_index := [1, 1], current_offset := 4 },
         { current_index := [1, 2], current_offset := 5 }]
    ∧ ∃ its, full_walk 7 [2, 3] = some its ∧ its.length = 6
      ∧ ∃ it, its[4]? = some it ∧ it.get_offset = 4 ∧ it.get_current_index_vector = [1, 1] := by
  refine ⟨⟨by decide, by decide, by decide⟩, by decide, ?_⟩
  obtain ⟨its, h1, h2, h3⟩ := C13_full_walk_row_major [2, 3] 7 (by decide) (by decide) (by decide)
  obtain ⟨it, g1, g2, g3, -⟩ := h3 4 (by decide)
  exact ⟨its, h1, h2, it, g1, g2, g3⟩

/-- C14 (header read bounds check).  A `read` of a field of `k` bytes is accepted exactly
when `k < remaining_length`: it then returns the `k` bytes at the cursor, advances the
cursor by `k` and decreases `remaining_length` by `k`; otherwise it fails.  So it fails
when fewer than `k` bytes remain and also when exactly `k` bytes remain.  The two header
reads of `decompress` both pass exactly when `length > N * 8 + 4`, and `decompress`
returns nothing for any shorter buffer. -/
theorem C14_header_read_bounds {T σP σQ σE : Type} [Zero T] (P : Predictor T σP)
    (Q : Quantizer T σQ) (E : Encoder σE) :
    (∀ (buf : List Nat) (k : Nat) (cur : read_cursor),
      (read buf k cur).isSome = true ↔ k < cur.remaining_length)
    ∧ (∀ (buf : List Nat) (k : Nat) (cur : read_cursor), k < cur.remaining_length →
        read buf k cur = some ((buf.drop cur.pos).take k,
          { pos := cur.pos + k, remaining_length := cur.remaining_length - k }))
    ∧ (∀ (buf : List Nat) (k : Nat) (cur : read_cursor), cur.remaining_length < k →
        read buf k cur = none)
    ∧ (∀ (buf : List Nat) (k pos : Nat), read buf k { pos := pos, remaining_length := k } = none)
    ∧ (∀ (N : Nat) (buf : List Nat) (length : Nat),
        (read_header N buf length).isSome = true ↔ N * 8 + 4 < length)
    ∧ (∀ (fuel : Nat) (c : SZ_General_Compressor σP σQ σE) (buf : List Nat) (length : Nat),
        length ≤ c.global_dimensions.length * 8 + 4 →
        decompress (T := T) P Q E fuel c buf length = none) := by
  refine ⟨?_, ?_, ?_, ?_, read_header_isSome, ?_⟩
  · intro buf k cur
    unfold read
    by_cases h : k < cur.remaining_length
    · rw [if_pos h]
      simp only [Option.isSome_some, true_iff]
      exact h
    · rw [if_neg h]
      simp only [Option.isSome_none, Bool.false_eq_true, false_iff]
      exact h
  · intro buf k cur h
    unfold read
    rw [if_pos h]
  · intro buf k cur h
    unfold read
    rw [if_neg (by omega)]
  · intro buf k pos
    unfold read
    rw [if_neg (by simp)]
  · intro fuel c buf length h
    exact decompress_none_of_short P Q E fuel c buf length h

/-- Witness for C14: with three bytes remaining a field of two bytes is read and one byte
remains, while a field of three bytes is refused; a buffer of 13 bytes passes the header
reads for one axis, and `decompress` returns nothing for one of 12 bytes. -/
theorem C14_header_read_bounds_witness :
    read [7, 8, 9, 10] 2 { pos := 1, remaining_length := 3 }
      = some ([8, 9], { pos := 3, remaining_length := 1 })
    ∧ read [7, 8, 9, 10] 3 { pos := 1, remaining_length := 3 } = none
    ∧ (read_header 1 [4, 0, 0, 0, 0, 0, 0, 0, 128, 0, 0, 0, 0] 13).isSome = true
    ∧ decompress (T := Int) zero_predictor (uniform_quantizer 1) raw_encoder 5
        (SZ_General_Compressor.create 0 () () () [4]) [4, 0, 0, 0, 0, 0, 0, 0, 128, 0, 0, 0] 12
        = none :=
  ⟨(C14_header_read_bounds zero_predictor (uniform_quantizer 1) raw_encoder).2.1
      [7, 8, 9, 10] 2 { pos := 1, remaining_length := 3 } (by decide),
    (C14_header_read_bounds zero_predictor (uniform_quantizer 1) raw_encoder).2.2.2.1
      [7, 8, 9, 10] 3 1,
    ((C14_header_read_bounds zero_predictor (uniform_quantizer 1) raw_encoder).2.2.2.2.1
      1 _ 13).mpr (by decide),
    (C14_header_read_bounds zero_predictor (uniform_quantizer 1) raw_encoder).2.2.2.2.2
      5 _ _ 12 (by decide)⟩

/-- C15 (output buffer bound): what the code does instead.  Whatever the components, the
bytes `compress` writes include the `N * 8 + 4` header bytes, while the allocation is
`2 * P * sizeof(T)` bytes: for an array with one element per axis and `N` axes that is
`2 * sizeof(T)`, less than the header as soon as `N * 8 + 4 > 2 * sizeof(T)`, in
particular for every element size `w` with `N = w` axes.  For the 1-D array `[0]` of
4-byte elements the allocation is 8 bytes; with the four-bytes-per-index encoder
`compress` writes 16 bytes, and with components that serialise nothing it still writes
the 12 header bytes. -/
theorem C15_allocation_exceeded :
    (∀ {T σP σQ σE : Type} (P : Predictor T σP) (Q : Quantizer T σQ) (E : Encoder σE)
        (c : SZ_General_Compressor σP σQ σE) (s : compress_state T σP σQ),
      c.global_dimensions.length * 8 + 4 ≤ (serialize P Q E c s).compressed_size)
    ∧ (∀ w : Nat,
        allocation_size (SZ_General_Compressor.create 0 () () () (List.replicate w 1) :
            SZ_General_Compressor Unit Unit Unit) w
          < (List.replicate w 1).length * 8 + 4)
    ∧ allocation_size (SZ_General_Compressor.create 0 () () () [1] :
          SZ_General_Compressor Unit Unit Unit) 4 = 8
    ∧ (compress zero_predictor (uniform_quantizer 1) raw_encoder 2
          (SZ_General_Compressor.create 0 () () () [1]) [0] 1).map
        (fun r => r.compressed_size) = some 16
    ∧ (compress zero_predictor (uniform_quantizer 1) elide_encoder 2
          (SZ_General_Compressor.create 0 () () false [1]) [0] 1).map
        (fun r => (r.bytes, r.compressed_size))
        = some ([1, 0, 0, 0, 0, 0, 0, 0, 128, 0, 0, 0], 12) := by
  refine ⟨fun P Q E c s => header_le_compressed_size P Q E c s, ?_, by decide, by decide,
    by decide⟩
  intro w
  rw [allocation_size_ones, List.length_replicate]
  omega

/-- C17 (intra-block extents).  For a shape `D` with at least one axis and all extents at
least 1 and a block size `B` at least 1, at every block the inter-block loop stops at,
with block index `b_i < ceil(d_i / B)` on axis `i`, the extent the driver computes on
axis `i` is `d_i - b_i * B` when `b_i = ceil(d_i / B) - 1` and `B` otherwise; it lies
between 1 and `B`; and the loop over the re-seated intra-block range stops at exactly as
many elements as the product of the extents.  The extent of the last block of an axis,
`d - (ceil(d / B) - 1) * B`, is `d mod B = d - floor(d / B) * B` when that is not zero
and `B` otherwise, and the extents of the blocks along an axis sum to `d`. -/
theorem C17_intra_block_extents (D : List Nat) (B fuel : Nat) (hne : D ≠ [])
    (hD : ∀ d ∈ D, 1 ≤ d) (hB : 1 ≤ B) (hf : D.prod < fuel) :
    ∃ inter blocks,
      multi_dimensional_range.create D.length D B 0 = some inter
      ∧ block_iterators fuel D B = some blocks
      ∧ (∀ block ∈ blocks,
          (∀ i, i < D.length →
            inter.get_dimensions i = (D.getD i 0 + B - 1) / B
            ∧ block.get_current_index i < (D.getD i 0 + B - 1) / B
            ∧ (intra_block_dims D B inter block).getD i 0
                = (if block.get_current_index i = (D.getD i 0 + B - 1) / B - 1
                    then D.getD i 0 - block.get_current_index i * B else B)
            ∧ 1 ≤ (intra_block_dims D B inter block).getD i 0
            ∧ (intra_block_dims D B inter block).getD i 0 ≤ B)
          ∧ ∃ r its, block_elements fuel D B block = some (r, its)
              ∧ r.dimensions = intra_block_dims D B inter block
              ∧ its.length = (intra_block_dims D B inter block).prod)
      ∧ (∀ d ∈ D,
          d - ((d + B - 1) / B - 1) * B = (if d % B = 0 then B else d % B)
          ∧ d - d / B * B = d % B
          ∧ ((List.range ((d + B - 1) / B)).map
              (fun b => if b = (d + B - 1) / B - 1 then d - b * B else B)).sum = d) := by
  have hnb : (block_counts D B).prod < fuel := lt_of_le_of_lt (block_counts_prod_le D B hD) hf
  refine ⟨inter_range D B, _, create_inter D B hB hD, block_iterators_eq D B fuel hB hne hD hnb, ?_, ?_⟩
  · intro block hblock
    obtain ⟨k, hk, rfl⟩ := List.mem_map.mp hblock
    have hk' : k < (block_counts D B).prod := List.mem_range.mp hk
    have hb := block_index_lt D B k hk'
    have hlen : (iter_at (inter_range D B) k).current_index.length = D.length := by
      show (unrank (block_counts D B) k).length = D.length
      rw [unrank_length, block_counts_length]
    have hdims := intra_block_dims_eq D B (iter_at (inter_range D B) k) hlen
    rw [hdims]
    constructor
    · intro i hi
      have hdi : 1 ≤ D.getD i 0 := by
        apply hD
        rw [List.getD_eq_getElem _ _ hi]
        exact List.getElem_mem hi
      have hceil := ceil_div_eq B (D.getD i 0) hB hdi
      have hcount : (block_counts D B).getD i 0 = (D.getD i 0 - 1) / B + 1 :=
        getD_map_nat _ D i hi
      have hlt := getD_lt_of_forall₂ _ _ hb i (by rw [unrank_length, block_counts_length]; exact hi)
      rw [hcount] at hlt
      have hext := block_extents_getD D B (iter_at (inter_range D B) k).current_index i
        (by rw [hlen]; exact hi) hi
      obtain ⟨e1, e2, -⟩ := axis_extent_bounds B _ (D.getD i 0) hB hdi hlt
      refine ⟨?_, ?_, ?_, ?_, ?_⟩
      · show (block_counts D B).getD i 0 = _
        rw [hcount, hceil]
      · rw [← hceil]
        exact hlt
      · rw [hext, ← hceil]
        rfl
      · rw [hext]
        exact e1
      · rw [hext]
        exact e2
    · refine ⟨_, _, block_elements_eq D B fuel k hB hne hD hf hk', rfl, ?_⟩
      rw [List.length_map, List.length_range]
      rfl
  · intro d hd
    have hd1 := hD d hd
    have hceil := ceil_div_eq B d hB hd1
    refine ⟨?_, axis_extent_floor B d, ?_⟩
    · rw [← hceil, Nat.add_sub_cancel]
      exact axis_extent_last B d hB hd1
    · rw [← hceil]
      exact axis_extent_sum B d hd1

/-- Witness for C17: shape (8, 8, 8) with block size 6, scenario E3; the corner block,
at block index (1, 1, 1) and offset 438, has extents (2, 2, 2) and 8 elements. -/
theorem C17_intra_block_extents_witness :
    (([8, 8, 8] : List Nat) ≠ [] ∧ (∀ d ∈ ([8, 8, 8] : List Nat), 1 ≤ d) ∧ 1 ≤ 6
      ∧ ([8, 8, 8] : List Nat).prod < 513)
    ∧ (block_iterators 513 [8, 8, 8] 6).map (fun l => l.getLast?)
        = some (some { current_index := [1, 1, 1], current_offset := 438 })
    ∧ (block_elements 513 [8, 8, 8] 6 { current_index := [1, 1, 1], current_offset := 438 }).map
        (fun p => (p.1.dimensions, p.2.length)) = some ([2, 2, 2], 8)
    ∧ ∃ inter blocks,
      multi_dimensional_range.create ([8, 8, 8] : List Nat).length [8, 8, 8] 6 0 = some inter
      ∧ block_iterators 513 [8, 8, 8] 6 = some blocks
      ∧ (∀ block ∈ blocks,
          (∀ i, i < ([8, 8, 8] : List Nat).length →
            inter.get_dimensions i = (([8, 8, 8] : List Nat).getD i 0 + 6 - 1) / 6
            ∧ block.get_current_index i < (([8, 8, 8] : List Nat).getD i 0 + 6 - 1) / 6
            ∧ (intra_block_dims [8, 8, 8] 6 inter block).getD i 0
                = (if block.get_current_index i = (([8, 8, 8] : List Nat).getD i 0 + 6 - 1) / 6 - 1
                    then ([8, 8, 8] : List Nat).getD i 0 - block.get_current_index i * 6 else 6)
            ∧ 1 ≤ (intra_block_dims [8, 8, 8] 6 inter block).getD i 0
            ∧ (intra_block_dims [8, 8, 8] 6 inter block).getD i 0 ≤ 6)
          ∧ ∃ r its, block_elements 513 [8, 8, 8] 6 block = some (r, its)
              ∧ r.dimensions = intra_block_dims [8, 8, 8] 6 inter block
              ∧ its.length = (intra_block_dims [8, 8, 8] 6 inter block).prod)
      ∧ (∀ d ∈ ([8, 8, 8] : List Nat),
          d - ((d + 6 - 1) / 6 - 1) * 6 = (if d % 6 = 0 then 6 else d % 6)
          ∧ d - d / 6 * 6 = d % 6
          ∧ ((List.range ((d + 6 - 1) / 6)).map
              (fun b => if b = (d + 6 - 1) / 6 - 1 then d - b * 6 else 6)).sum = d) :=
  ⟨⟨by decide, by decide, by decide, by decide⟩, by decide, by decide,
    C17_intra_block_extents [8, 8, 8] 6 513 (by decide) (by decide) (by decide) (by decide)⟩

/-- C18 (odometer invariant of `++`).  For a range with at least one axis and all
extents at least 1, the iterator reached from `begin()` by `k` increments, with `k` below
the product of the extents, has `current_index[i] < dimensions[i]` on every axis, its
index is the mixed-radix representation of `k` in base `dimensions` with the last axis
least significant, and its offset is `start_offset + sum_i current_index[i] *
dim_strides[i]`.  After one further `++` the offset equation still holds, the index
represents `k + 1`, every axis other than axis 0 is still below its extent, and axis 0 is
at most `dimensions[0]`. -/
theorem C18_odometer_invariant (r : multi_dimensional_range) (hr : well_formed r) (k : Nat)
    (hk : k < r.dimensions.prod) :
    List.Forall₂ (fun c n => c < n)
        ((fun it => multi_dimensional_iterator.operator_incr r it)^[k] r.begin).current_index
        r.dimensions
    ∧ ((fun it => multi_dimensional_iterator.operator_incr r it)^[k] r.begin).current_index
        = unrank r.dimensions k
    ∧ dot ((fun it => multi_dimensional_iterator.operator_incr r it)^[k] r.begin).current_index
        (weights r.dimensions) = k
    ∧ ((fun it => multi_dimensional_iterator.operator_incr r it)^[k] r.begin).current_offset
        = r.start_offset
          + ((dot ((fun it => multi_dimensional_iterator.operator_incr r it)^[k]
              r.begin).current_index r.dim_strides : Nat) : Int)
    ∧ (multi_dimensional_iterator.operator_incr r
          ((fun it => multi_dimensional_iterator.operator_incr r it)^[k] r.begin)).current_offset
        = r.start_offset
          + ((dot (multi_dimensional_iterator.operator_incr r
              ((fun it => multi_dimensional_iterator.operator_incr r it)^[k]
                r.begin)).current_index r.dim_strides : Nat) : Int)
    ∧ dot (multi_dimensional_iterator.operator_incr r
          ((fun it => multi_dimensional_iterator.operator_incr r it)^[k] r.begin)).current_index
        (weights r.dimensions) = k + 1
    ∧ (∀ i, 1 ≤ i → i < r.dimensions.length →
        (multi_dimensional_iterator.operator_incr r
          ((fun it => multi_dimensional_iterator.operator_incr r it)^[k]
            r.begin)).current_index.getD i 0 < r.dimensions.getD i 0)
    ∧ (multi_dimensional_iterator.operator_incr r
          ((fun it => multi_dimensional_iterator.operator_incr r it)^[k]
            r.begin)).current_index.getD 0 0 ≤ r.dimensions.getD 0 0 := by
  rw [iterate_operator_incr r hr k, operator_incr_iter_at r hr k]
  obtain ⟨hne, -, hpos⟩ := hr
  obtain ⟨n0, ns, hd⟩ := List.exists_cons_of_ne_nil hne
  have hnspos : 0 < ns.prod := by
    apply List.prod_pos
    intro d hdm
    exact hpos d (by rw [hd]; exact List.mem_cons_of_mem _ hdm)
  have hk1 : k + 1 ≤ (n0 :: ns).prod := by rw [← hd]; exact hk
  obtain ⟨g1, g2, g3⟩ := unrank_cons_le n0 ns hnspos (k + 1) hk1
  refine ⟨unrank_lt _ _ hk, rfl, dot_unrank_lt _ _ hk, rfl, rfl, ?_, ?_, ?_⟩
  · show dot (unrank r.dimensions (k + 1)) (weights r.dimensions) = k + 1
    rw [hd]
    exact g3
  · show ∀ i, 1 ≤ i → i < r.dimensions.length →
      (unrank r.dimensions (k + 1)).getD i 0 < r.dimensions.getD i 0
    rw [hd]
    exact g2
  · show (unrank r.dimensions (k + 1)).getD 0 0 ≤ r.dimensions.getD 0 0
    rw [hd]
    exact g1

/-- Witness for C18: the block grid range of shape (5, 5) at access stride 2, after 5
increments: index (1, 2) at offset 14; one further `++` gives index (2, 0) at offset
20. -/
theorem C18_odometer_invariant_witness :
    (well_formed example_grid_range ∧ 5 < example_grid_range.dimensions.prod)
    ∧ ((fun it => multi_dimensional_iterator.operator_incr example_grid_range it)^[5]
        example_grid_range.begin) = { current_index := [1, 2], current_offset := 14 }
    ∧ ((fun it => multi_dimensional_iterator.operator_incr example_grid_range it)^[5]
        example_grid_range.begin).current_index = unrank example_grid_range.dimensions 5
    ∧ multi_dimensional_iterator.operator_incr example_grid_range
        { current_index := [1, 2], current_offset := 14 }
        = { current_index := [2, 0], current_offset := 20 } :=
  ⟨⟨by decide, by decide⟩, by decide,
    (C18_odometer_invariant example_grid_range (by decide) 5 (by decide)).2.1, by decide⟩

/-- C19 (the error bound argument is ignored by the driver).  For every input array,
every state of the compressor object and any two error bounds, `compress` returns the same
result, in particular the same bytes and the same `compressed_size`. -/
theorem C19_error_bound_ignored {T σP σQ σE : Type} (P : Predictor T σP) (Q : Quantizer T σQ)
    (E : Encoder σE) (fuel : Nat) (c : SZ_General_Compressor σP σQ σE) (data_ : List T)
    (eb1 eb2 : ℚ) :
    compress P Q E fuel c data_ eb1 = compress P Q E fuel c data_ eb2
    ∧ (compress P Q E fuel c data_ eb1).map (fun r => r.bytes)
        = (compress P Q E fuel c data_ eb2).map (fun r => r.bytes)
    ∧ (compress P Q E fuel c data_ eb1).map (fun r => r.compressed_size)
        = (compress P Q E fuel c data_ eb2).map (fun r => r.compressed_size) :=
  ⟨rfl, rfl, rfl⟩

/-- C20 (look-back stays inside the array).  For a shape `D` with at least one axis and
all extents at least 1, a block size `B` at least 1, and a look-back vector with one `int`
entry per axis, each between 0 and `B`: at every pair of re-seated intra-block range and
element iterator at which the driver runs its element statement (there are `P` of them),
either some axis is at a flagged edge and `prev` returns 0, or `prev` returns the element
stored at the row-major offset of the coordinates `g_i - p_i`, where `g` are the global
coordinates of the current element (`g_i < d_i`, current offset `sum_i g_i * prod_{j > i}
d_j`) and `p_i <= g_i` on every axis; that offset is below `P` and not larger than the
current offset. -/
theorem C20_lookback_inside_array {T : Type} [Zero T] (D : List Nat) (B fuel : Nat)
    (hne : D ≠ []) (hD : ∀ d ∈ D, 1 ≤ d) (hB : 1 ≤ B) (hf : D.prod < fuel)
    (data : List T) (hdata : data.length = D.prod)
    (args : List Int) (hlen : args.length = D.length)
    (hargs : ∀ x ∈ args, 0 ≤ x ∧ x ≤ (B : Int) ∧ x < 2 ^ 31) :
    ∃ positions, visited_positions fuel D B = some positions
      ∧ positions.length = D.prod
      ∧ ∀ p ∈ positions,
          (lookback_at_edge p.1 p.2 args
            ∧ multi_dimensional_iterator.prev p.1 p.2 data args = some 0)
          ∨ (¬ lookback_at_edge p.1 p.2 args
            ∧ ∃ (g : List Nat) (v : T),
                List.Forall₂ (fun c n => c < n) g D
                ∧ p.2.current_offset = ((dot g (weights D) : Nat) : Int)
                ∧ List.Forall₂ (fun x y => x ≤ y) (args.map Int.toNat) g
                ∧ dot (List.zipWith (fun x y => x - y) g (args.map Int.toNat)) (weights D)
                    < D.prod
                ∧ dot (List.zipWith (fun x y => x - y) g (args.map Int.toNat)) (weights D)
                    ≤ dot g (weights D)
                ∧ data[dot (List.zipWith (fun x y => x - y) g (args.map Int.toNat))
                    (weights D)]? = some v
                ∧ multi_dimensional_iterator.prev p.1 p.2 data args = some v) := by
  refine ⟨_, visited_positions_eq D B fuel hB hne hD hf, ?_, ?_⟩
  · have := congrArg List.length (positions_offsets D B)
    rw [List.length_map, element_offsets_length D B hB hD] at this
    exact this
  · intro p hp
    obtain ⟨e, he, hpe⟩ := List.mem_filterMap.mp hp
    obtain ⟨k, oj⟩ := e
    cases oj with
    | none => simp at hpe
    | some j =>
      have hpe' : (block_range D B k, iter_at (block_range D B k) j) = p := by
        simpa using hpe
      subst hpe'
      obtain ⟨hk, hj⟩ := mem_events D B k j he
      obtain ⟨h1, h2⟩ := prev_eq (block_range D B k) (iter_at (block_range D B k) j) data args
        (by rw [iter_at_index_length]; exact hlen) (fun x hx => ⟨(hargs x hx).1, (hargs x hx).2.2⟩)
      by_cases hedge : lookback_at_edge (block_range D B k) (iter_at (block_range D B k) j) args
      · exact Or.inl ⟨hedge, h1 hedge⟩
      · right
        obtain ⟨c1, c2, c3, c4, c5⟩ := lookback_coords D B hB hD k j hk hj args hlen
          (fun x hx => ⟨(hargs x hx).1, (hargs x hx).2.1⟩) hedge
        obtain ⟨hgD, -, -, hoff⟩ := coords_spec D B hB hD k j hk hj
        have hin : dot (List.zipWith (fun x y => x - y) (global_coords D B k j)
            (args.map Int.toNat)) (weights D) < data.length := by rw [hdata]; exact c4
        refine ⟨hedge, global_coords D B k j, data[_], hgD, hoff, c1, c4, c5,
          List.getElem?_eq_getElem hin, ?_⟩
        rw [h2 hedge]
        show read_at data ((iter_at (block_range D B k) j).current_offset
          - lookback_distance (block_range D B k) args) = _
        rw [c2, read_at_nat, List.getElem?_eq_getElem hin]

/-- Witness for C20: shape (3, 3) with block size 2 and the look-back vector (1, 1) on
the array `10, .., 18`: the nine calls of `prev` in traversal order return 0 at the
flagged edges and otherwise the element one row up and one column left. -/
theorem C20_lookback_inside_array_witness :
    (([3, 3] : List Nat) ≠ [] ∧ (∀ d ∈ ([3, 3] : List Nat), 1 ≤ d) ∧ 1 ≤ 2
      ∧ ([3, 3] : List Nat).prod < 10
      ∧ ([10, 11, 12, 13, 14, 15, 16, 17, 18] : List Int).length = ([3, 3] : List Nat).prod
      ∧ ([1, 1] : List Int).length = ([3, 3] : List Nat).length
      ∧ (∀ x ∈ ([1, 1] : List Int), 0 ≤ x ∧ x ≤ ((2 : Nat) : Int) ∧ x < 2 ^ 31))
    ∧ (visited_positions 10 [3, 3] 2).map (fun l => l.map (fun p =>
        (p.2.current_offset,
          multi_dimensional_iterator.prev p.1 p.2
            ([10, 11, 12, 13, 14, 15, 16, 17, 18] : List Int) [1, 1])))
        = some [(0, some 0), (1, some 0), (3, some 0), (4, some 10), (2, some 0), (5, some 11),
            (6, some 0), (7, some 13), (8, some 14)]
    ∧ ∃ positions, visited_positions 10 [3, 3] 2 = some positions ∧ positions.length = 9
      ∧ ∀ p ∈ positions,
          (multi_dimensional_iterator.prev p.1 p.2
            ([10, 11, 12, 13, 14, 15, 16, 17, 18] : List Int) [1, 1]).isSome = true := by
  refine ⟨⟨by decide, by decide, by decide, by decide, by decide, by decide, by decide⟩,
    by decide, ?_⟩
  obtain ⟨ps, h1, h2, h3⟩ := C20_lookback_inside_array (T := Int) [3, 3] 2 10 (by decide)
    (by decide) (by decide) (by decide) [10, 11, 12, 13, 14, 15, 16, 17, 18] (by decide) [1, 1]
    (by decide) (by decide)
  refine ⟨ps, h1, h2, ?_⟩
  intro p hp
  rcases h3 p hp with ⟨-, h⟩ | ⟨-, g, v, -, -, -, -, -, -, h⟩
  · rw [h]; rfl
  · rw [h]; rfl

/-- C21 (global index recovery).  For a shape `D` whose element count `P` fits a
`ptrdiff_t`, every range over an array of that shape and every iterator with one index
entry per axis whose linear offset `o` is below `P`: `get_global_index_vector` returns the
row-major coordinates `g` of `o`, that is, `g_i < d_i` on every axis and `sum_i g_i *
prod_{j > i} d_j = o`.  And, for all extents and the block size at least 1, at every block
the inter-block loop stops at and every element iterator of the intra-block loop over
that block, the vector returned is `b_i * B + current_index[i]` on every axis, with `b`
the index vector of the block iterator. -/
theorem C21_global_index_recovery (D : List Nat) (B fuel : Nat) (hne : D ≠ [])
    (hD : ∀ d ∈ D, 1 ≤ d) (hB : 1 ≤ B) (hf : D.prod < fuel) (hP : D.prod ≤ 2 ^ 63) :
    (∀ (r : multi_dimensional_range) (it : multi_dimensional_iterator) (o : Nat),
      r.global_dimensions = D → it.current_index.length = D.length →
      it.current_offset = (o : Int) → o < D.prod →
      ∃ g, it.get_global_index_vector r = some g
        ∧ List.Forall₂ (fun c n => c < n) g D
        ∧ dot g (weights D) = o)
    ∧ ∃ blocks, block_iterators fuel D B = some blocks
      ∧ ∀ block ∈ blocks, ∃ r its, block_elements fuel D B block = some (r, its)
          ∧ its.length = r.dimensions.prod
          ∧ ∀ it ∈ its,
              it.get_global_index_vector r
                = some (List.zipWith (fun b c => b * B + c) block.get_current_index_vector
                    it.get_current_index_vector)
              ∧ ∃ o : Nat, it.get_offset = (o : Int) ∧ o < D.prod := by
  have hnb : (block_counts D B).prod < fuel := lt_of_le_of_lt (block_counts_prod_le D B hD) hf
  constructor
  · intro r it o hr hlen hoff ho
    have hg := get_global_index_vector_eq r it o (by rw [hr]; exact hlen) hoff
      (by rw [hr]; exact ho) (by omega)
    rw [hg, hr]
    exact ⟨_, rfl, unrank_lt D o ho, dot_unrank_lt D o ho⟩
  · refine ⟨_, block_iterators_eq D B fuel hB hne hD hnb, ?_⟩
    intro block hblock
    obtain ⟨k, hk, rfl⟩ := List.mem_map.mp hblock
    have hk' : k < (block_counts D B).prod := List.mem_range.mp hk
    refine ⟨_, _, block_elements_eq D B fuel k hB hne hD hf hk', by simp, ?_⟩
    intro it hit
    obtain ⟨j, hj, rfl⟩ := List.mem_map.mp hit
    have hj' : j < (block_range D B k).dimensions.prod := List.mem_range.mp hj
    obtain ⟨hgD, -, -, hoff⟩ := coords_spec D B hB hD k j hk' hj'
    obtain ⟨hlt, hun⟩ := dot_lt_and_unrank _ _ hgD
    have hg := get_global_index_vector_eq (block_range D B k) (iter_at (block_range D B k) j)
      (dot (global_coords D B k j) (weights D)) (iter_at_index_length D B k j) hoff hlt
      (by omega)
    refine ⟨?_, _, hoff, hlt⟩
    rw [hg]
    exact congrArg some hun

/-- Witness for C21: shape (3, 3) with block size 2.  In the block at block index (1, 0),
whose iterator is at offset 6, the element at index (0, 1) and offset 7 has global index
(2, 1); and the iterator at offset 5 of any range over the array has global index
(1, 2). -/
theorem C21_global_index_recovery_witness :
    (([3, 3] : List Nat) ≠ [] ∧ (∀ d ∈ ([3, 3] : List Nat), 1 ≤ d) ∧ 1 ≤ 2
      ∧ ([3, 3] : List Nat).prod < 10 ∧ ([3, 3] : List Nat).prod ≤ 2 ^ 63)
    ∧ (∃ g, multi_dimensional_iterator.get_global_index_vector
            (block_range [3, 3] 2 1) { current_index := [1, 0], current_offset := 5 } = some g
        ∧ List.Forall₂ (fun c n => c < n) g [3, 3]
        ∧ dot g (weights [3, 3]) = 5)
    ∧ multi_dimensional_iterator.get_global_index_vector
        (block_range [3, 3] 2 1) { current_index := [1, 0], current_offset := 5 } = some [1, 2]
    ∧ (block_iterators 10 [3, 3] 2).map (fun l => l.map (fun b => b.get_offset))
        = some [0, 2, 6, 8]
    ∧ (block_elements 10 [3, 3] 2 { current_index := [1, 0], current_offset := 6 }).map
        (fun p => p.2.map (fun it =>
          (it.get_current_index_vector, it.get_offset, it.get_global_index_vector p.1)))
        = some [([0, 0], 6, some [2, 0]), ([0, 1], 7, some [2, 1])] :=
  ⟨⟨by decide, by decide, by decide, by decide, by decide⟩,
    (C21_global_index_recovery [3, 3] 2 10 (by decide) (by decide) (by decide) (by decide)
      (by decide)).1 (block_range [3, 3] 2 1) { current_index := [1, 0], current_offset := 5 } 5
      rfl rfl rfl (by decide),
    by decide, by decide, by decide⟩

end SZ
